import Mathlib

/-!
Cuttlesim runtime (`cuttlesim.hpp`): bit vectors, packing, conflict sets and logs.

A shallow embedding of the C++ preamble shared by all Kôika programs compiled to
C++, and theorems about it.

Conventions of the embedding.

* A value of the storage type `bits_t<sz>` is a natural number; a value of a signed
  type is an integer.  `prims.digits sz` is `std::numeric_limits<bits_t<sz>>::digits`.
* C++ evaluates an arithmetic expression on operands of type `bits_t<sz>` in the
  promoted type (`int` for the 8- and 16-bit storage types, the storage type itself
  otherwise) and `bits<sz>::mk` converts the result back with `static_cast`.  The
  embedding evaluates such an expression on integers and reduces it modulo
  `2 ^ digits sz` in `prims.static_cast`; for the unsigned promoted types the
  intermediate wrap-around is absorbed by that reduction, for `int` no intermediate
  result leaves the range of `int` as long as shift amounts stay below the storage
  width.
* A shift by an amount at or above the width of the promoted type is undefined in C++;
  the embedding uses the mathematical shift (multiplication or floor division by a
  power of two) there.
-/

namespace prims

/-- `std::numeric_limits<bits_t<sz>>::digits`: the number of value bits of the storage
type selected by `bits_t<sz>` (`unit_t` for 0, `uint8_t` .. `uint64_t` up to 64, the
fixed-width unsigned types of `wbits_t<sz>` up to 1024, `void` beyond). -/
def digits (sz : Nat) : Nat :=
  if sz = 0 then 0
  else if sz ≤ 8 then 8
  else if sz ≤ 16 then 16
  else if sz ≤ 32 then 32
  else if sz ≤ 64 then 64
  else if sz ≤ 128 then 128
  else if sz ≤ 256 then 256
  else if sz ≤ 512 then 512
  else if sz ≤ 1024 then 1024
  else 0

/-- Conversion `static_cast<bits_t<sz>>(arg)` of an integer to the unsigned storage
type: reduction modulo `2 ^ digits sz`. -/
def static_cast (sz : Nat) (arg : Int) : Nat :=
  (arg % (2 : Int) ^ digits sz).toNat

/-- Conversion of an integer to the signed type of `D` bits (`sbits_t`), and the
reinterpretation (`memcpy`) of an unsigned `D`-bit pattern as two's complement: the
representative of `i` modulo `2 ^ D` in `[-2^(D-1), 2^(D-1))`. -/
def to_signed (D : Nat) (i : Int) : Int :=
  if D = 0 then 0
  else (i + (2 : Int) ^ (D - 1)) % (2 : Int) ^ D - (2 : Int) ^ (D - 1)

/-- The complement `~v` of a stored value, in the promoted type: `int` for the 8- and
16-bit storage types, the unsigned storage type otherwise. -/
def lnot_storage (sz : Nat) (v : Nat) : Int :=
  if digits sz < 32 then -(v : Int) - 1
  else (2 : Int) ^ digits sz - 1 - ((v : Int) % (2 : Int) ^ digits sz)

/-- `struct bits<sz> { bits_t<sz> v; }`. -/
structure bits (sz : Nat) where
  ofStorage ::
  v : Nat
deriving DecidableEq, Repr

namespace bits

/-- `bits<sz>::padding_width()`. -/
def padding_width (sz : Nat) : Nat := digits sz - sz

/-- `bits<sz>::bitmask()`: `numeric_limits<bits_t<sz>>::max() >> padding_width()`. -/
def bitmask (sz : Nat) : Nat := (2 ^ digits sz - 1) / 2 ^ padding_width sz

/-- The representation invariant assumed by `bits<sz>::invariant()`: `v <= bitmask()`. -/
def invariant {sz : Nat} (x : bits sz) : Prop := x.v ≤ bitmask sz

instance {sz : Nat} (x : bits sz) : Decidable x.invariant := by
  unfold invariant; infer_instance

/-- `bits<sz>::mk(arg)`: `bits{static_cast<bits_t<sz>>(arg)}`. -/
def mk (sz : Nat) (arg : Int) : bits sz := ⟨static_cast sz arg⟩

/-- `bits<sz>::ones()`. -/
def ones (sz : Nat) : bits sz := mk sz (bitmask sz)

/-- `bits<sz>::to_sbits()`: the stored bit pattern read as a signed integer. -/
def to_sbits {sz : Nat} (x : bits sz) : Int := to_signed (digits sz) x.v

/-- `bits<sz>::to_shifted_sbits()`: `to_sbits() << padding_width()`, converted to
`sbits_t<sz>`. -/
def to_shifted_sbits {sz : Nat} (x : bits sz) : Int :=
  to_signed (digits sz) (x.to_sbits * (2 : Int) ^ padding_width sz)

/-- `bits<sz>::of_sbits(sx)`: the argument is converted to `sbits_t<sz>`, its bit
pattern is copied into a `bits_t<sz>`, and `mk` wraps it. -/
def of_sbits (sz : Nat) (sx : Int) : bits sz :=
  mk sz (to_signed (digits sz) sx % (2 : Int) ^ digits sz)

end bits

/-- `operator&`. -/
def and {sz : Nat} (data1 data2 : bits sz) : bits sz :=
  bits.mk sz (Nat.land data1.v data2.v)

/-- `operator|`. -/
def or {sz : Nat} (data1 data2 : bits sz) : bits sz :=
  bits.mk sz (Nat.lor data1.v data2.v)

/-- `operator^`. -/
def xor {sz : Nat} (data1 data2 : bits sz) : bits sz :=
  bits.mk sz (Nat.xor data1.v data2.v)

/-- `prims::mask`: `arg & bits<sz>::ones()`. -/
def mask {sz : Nat} (arg : bits sz) : bits sz := and arg (bits.ones sz)

/-- `prims::widen<ret_sz>`: `bits<ret_sz>::mk(arg.v)`. -/
def widen (ret_sz : Nat) {sz : Nat} (arg : bits sz) : bits ret_sz :=
  bits.mk ret_sz arg.v

/-- `prims::truncate<ret_sz>`: `mask(widen<ret_sz>(arg))`. -/
def truncate (ret_sz : Nat) {sz : Nat} (arg : bits sz) : bits ret_sz :=
  mask (widen ret_sz arg)

/-- `operator>>(bits<sz1>, size_t)`: `bits<sz1>::mk(data.v >> shift)`. -/
def shr {sz1 : Nat} (data : bits sz1) (shift : Nat) : bits sz1 :=
  bits.mk sz1 ((data.v : Int) / (2 : Int) ^ shift)

/-- `operator<<(bits<sz1>, size_t)`: `mask(bits<sz1>::mk(data.v << shift))`. -/
def shl {sz1 : Nat} (data : bits sz1) (shift : Nat) : bits sz1 :=
  mask (bits.mk sz1 ((data.v : Int) * (2 : Int) ^ shift))

/-- `operator>>(bits<sz1>, bits<sz2>)`: `bits<sz1>::mk(data.v >> shift.v)`. -/
def shr_bits {sz1 sz2 : Nat} (data : bits sz1) (shift : bits sz2) : bits sz1 :=
  bits.mk sz1 ((data.v : Int) / (2 : Int) ^ shift.v)

/-- `operator<<(bits<sz1>, bits<sz2>)`: `mask(bits<sz1>::mk(data.v << shift.v))`. -/
def shl_bits {sz1 sz2 : Nat} (data : bits sz1) (shift : bits sz2) : bits sz1 :=
  mask (bits.mk sz1 ((data.v : Int) * (2 : Int) ^ shift.v))

/-- `bits<sz>::of_shifted_sbits(sx)`: `of_sbits(sx) >> padding_width()`. -/
def bits.of_shifted_sbits (sz : Nat) (sx : Int) : bits sz :=
  shr (bits.of_sbits sz sx) (bits.padding_width sz)

/-- `prims::msb`. -/
def msb {sz : Nat} (arg : bits sz) : bits 1 :=
  if sz = 0 then bits.mk 1 0 else truncate 1 (shr arg (sz - 1))

/-- `bits<sz>::operator[]`: `truncate<1>((*this) >> idx)`. -/
def bits.index {sz idx_sz : Nat} (self : bits sz) (idx : bits idx_sz) : bits 1 :=
  truncate 1 (shr_bits self idx)

/-- `operator~`: `mask(bits<sz>::mk(~data.v))`. -/
def not {sz : Nat} (data : bits sz) : bits sz :=
  mask (bits.mk sz (lnot_storage sz data.v))

/-- `operator+`: `mask(bits<sz>::mk(x.v + y.v))`. -/
def add {sz : Nat} (x y : bits sz) : bits sz :=
  mask (bits.mk sz ((x.v : Int) + (y.v : Int)))

/-- `operator-`: `mask(bits<sz>::mk(x.v + ~y.v + 1))`. -/
def sub {sz : Nat} (x y : bits sz) : bits sz :=
  mask (bits.mk sz ((x.v : Int) + lnot_storage sz y.v + 1))

/-- `prims::slice_subst<idx>`. -/
def slice_subst (idx : Nat) {sz1 width : Nat} (data : bits sz1) (repl : bits width) :
    bits sz1 :=
  let mask : bits sz1 := not (shl (widen sz1 (bits.ones width)) idx)
  or (and data mask) (shl (widen sz1 repl) idx)

/-- `prims::islice<width>`: `truncate<width>(data >> idx)`. -/
def islice (width : Nat) {sz1 sz2 : Nat} (data : bits sz1) (idx : bits sz2) : bits width :=
  truncate width (shr_bits data idx)

/-- `prims::asr`: `bits<sz1>::of_shifted_sbits(data.to_shifted_sbits() >> shift.v)`. -/
def asr {sz1 sz2 : Nat} (data : bits sz1) (shift : bits sz2) : bits sz1 :=
  bits.of_shifted_sbits sz1 (data.to_shifted_sbits / (2 : Int) ^ shift.v)

/-- `prims::concat`: `widen<sz1 + sz2>(x) << sz2 | widen<sz1 + sz2>(y)`. -/
def concat {sz1 sz2 : Nat} (x : bits sz1) (y : bits sz2) : bits (sz1 + sz2) :=
  or (shl (widen (sz1 + sz2) x) sz2) (widen (sz1 + sz2) y)

/-- `prims::sext<width>`. -/
def sext (width : Nat) {sz : Nat} (x : bits sz) : bits (max sz width) :=
  let newsz := max sz width
  let nbits := if width ≥ sz then width - sz else 0
  bits.of_shifted_sbits newsz
    ((shl (widen newsz x) nbits).to_shifted_sbits / (2 : Int) ^ nbits)

/-- `prims::zextl<width>`: `widen<max(sz, width)>(x)`. -/
def zextl (width : Nat) {sz : Nat} (x : bits sz) : bits (max sz width) :=
  widen (max sz width) x

/-- `prims::zextr<width>`: `widen<mx>(x) << (mx - sz)`. -/
def zextr (width : Nat) {sz : Nat} (x : bits sz) : bits (max sz width) :=
  shl (widen (max sz width) x) (max sz width - sz)

/-- `prims::slice<idx, width>`: `truncate<width>(data >> idx)`. -/
def slice (idx width : Nat) {sz1 : Nat} (data : bits sz1) : bits width :=
  truncate width (shr data idx)

/-! ### Packing and unpacking

`prims::array<T, len>` is a list of `len` elements; `type_info<array<T, len>>::size` is
`len * type_info<T>::size`. -/

/-- `prims::pack(const bits<sz> val)`: the identity. -/
def pack_bits {sz : Nat} (val : bits sz) : bits sz := val

/-- `prims::_unpack<bits<sz>, packed_sz>::unpack` (with `sz == packed_sz`): the identity. -/
def unpack_bits (sz : Nat) (bs : bits sz) : bits sz := bs

/-- `prims::pack(const array<T, len>& val)` for `T = bits<elem_sz>`: starting from the
value-initialised `packed`, the loop visits `val[0]`, .., `val[len - 1]` in order and does
`packed <<= elem_sz; packed |= widen<packed_sz>(val[pos])`. -/
def pack_array {elem_sz : Nat} (len : Nat) (val : List (bits elem_sz)) :
    bits (len * elem_sz) :=
  val.foldl (fun packed elem => or (shl packed elem_sz) (widen (len * elem_sz) elem))
    (⟨0⟩ : bits (len * elem_sz))

/-- One iteration of the loop of `prims::_unpack<array<T, len>, packed_sz>::unpack`:
`unpacked[len - 1 - pos] = unpack<T>(truncate<elem_sz>(bs)); bs >>= elem_sz`. -/
def unpack_step (elem_sz len : Nat) (st : bits (len * elem_sz) × List (bits elem_sz))
    (pos : Nat) : bits (len * elem_sz) × List (bits elem_sz) :=
  (shr st.1 elem_sz, st.2.set (len - 1 - pos) (unpack_bits elem_sz (truncate elem_sz st.1)))

/-- `prims::_unpack<array<T, len>, packed_sz>::unpack` for `T = bits<elem_sz>`: the loop
runs `pos` from `0` to `len - 1` on the value-initialised array `unpacked`. -/
def unpack_array (elem_sz len : Nat) (bs : bits (len * elem_sz)) : List (bits elem_sz) :=
  ((List.range len).foldl (unpack_step elem_sz len)
    (bs, List.replicate len (⟨0⟩ : bits elem_sz))).2

/-! ### Signed comparisons -/

/-- `bits<1>::mk(b)` of a `bool`: 1 for `true`, 0 for `false`. -/
def bits.of_bool (b : Bool) : bits 1 := bits.mk 1 (if b then 1 else 0)

/-- `prims::slt`: `bits<1>::mk(x.to_shifted_sbits() < y.to_shifted_sbits())`. -/
def slt {sz : Nat} (x y : bits sz) : bits 1 :=
  bits.of_bool (decide (x.to_shifted_sbits < y.to_shifted_sbits))

/-- `prims::sgt`: `bits<1>::mk(x.to_shifted_sbits() > y.to_shifted_sbits())`. -/
def sgt {sz : Nat} (x y : bits sz) : bits 1 :=
  bits.of_bool (decide (x.to_shifted_sbits > y.to_shifted_sbits))

/-- `prims::sle`: `bits<1>::mk(x.to_shifted_sbits() <= y.to_shifted_sbits())`. -/
def sle {sz : Nat} (x y : bits sz) : bits 1 :=
  bits.of_bool (decide (x.to_shifted_sbits ≤ y.to_shifted_sbits))

/-- `prims::sge`: `bits<1>::mk(x.to_shifted_sbits() >= y.to_shifted_sbits())`. -/
def sge {sz : Nat} (x y : bits sz) : bits 1 :=
  bits.of_bool (decide (x.to_shifted_sbits ≥ y.to_shifted_sbits))

/-- The two's-complement value of a `W`-bit pattern, in the spec's words: `v` if
`v < 2 ^ (W - 1)` and `v - 2 ^ W` otherwise. -/
def signed_value (W : Nat) (v : Nat) : Int :=
  if v < 2 ^ (W - 1) then (v : Int) else (v : Int) - (2 : Int) ^ W

/-! ### Literal parsing

The templates of `literal_parsing` are evaluated by the compiler; a `static_assert` that
fails rejects the literal, which is `none` here.  The arithmetic is that of `uint64_t`. -/

namespace literal_parsing

/-- `valid_digit<base, c>()`. -/
def valid_digit (base : Nat) (c : Char) : Bool :=
  if base = 2 then c = '0' || c = '1'
  else if base = 10 then decide ('0' ≤ c) && decide (c ≤ '9')
  else if base = 16 then
    (decide ('0' ≤ c) && decide (c ≤ '9')) ||
    (decide ('a' ≤ c) && decide (c ≤ 'f')) || (decide ('A' ≤ c) && decide (c ≤ 'F'))
  else false

/-- `parse_digit<base, c>()`: the two `static_assert`s, then the value of the digit. -/
def parse_digit (base : Nat) (c : Char) : Option Nat :=
  if (base = 2 ∨ base = 10 ∨ base = 16) ∧ valid_digit base c = true then
    if '0' ≤ c ∧ c ≤ '9' then some (c.toNat - '0'.toNat)
    else if 'a' ≤ c ∧ c ≤ 'f' then some (c.toNat - 'a'.toNat + 10)
    else if 'A' ≤ c ∧ c ≤ 'F' then some (c.toNat - 'A'.toNat + 10)
    else none
  else none

/-- `parse_u64<base, max, num, cs...>()`: with no character left the result is `num`;
otherwise `digit = parse_digit<base, c>()`,
`static_assert((max - digit) / base >= num, "Overflow in literal parsing")` and the result
is `parse_u64<base, max, base * num + digit, cs...>()`; `max`, `digit` and `num` are
`uint64_t`. -/
def parse_u64 (base max num : Nat) : List Char → Option Nat
  | [] => some num
  | c :: cs =>
    match parse_digit base c with
    | none => none
    | some digit =>
      if ((max + 2 ^ 64 - digit) % 2 ^ 64) / base ≥ num then
        parse_u64 base max ((base * num + digit) % 2 ^ 64) cs
      else none

/-- `parse_number<parser::u64, base, sz, cs...>::v`: `max` is the bitmask of `bits<sz>`, the
value is `parse_u64<base, max, 0, cs...>()` converted to `bits_t<sz>`. -/
def parse_number (base sz : Nat) (cs : List Char) : Option Nat :=
  (parse_u64 base (bits.bitmask sz) 0 cs).map (fun n => static_cast sz (n : Int))

/-- The number a sequence of digit values denotes in a base, most significant digit
first, continuing from `num`. -/
def digits_value (base num : Nat) (ds : List Nat) : Nat :=
  ds.foldl (fun acc d => base * acc + d) num

end literal_parsing

end prims

namespace cuttlesim

/-! ### Conflict sets -/

/-- `struct reg_rwset`: the conflict set of a plain register. -/
structure reg_rwset where
  w0 : Bool
deriving DecidableEq, Repr

namespace reg_rwset

/-- `reg_rwset::may_read0(reg_rwset rL)`. -/
def may_read0 (_self rL : reg_rwset) : Bool := !(rL.w0)

/-- `reg_rwset::may_write0()`. -/
def may_write0 (self : reg_rwset) : Bool := !(self.w0)

/-- `reg_rwset::reset()`. -/
def reset (_self : reg_rwset) : reg_rwset := { w0 := false }

/-- The constructor `reg_rwset() : w0{} {}`. -/
def init : reg_rwset := { w0 := false }

end reg_rwset

/-- `struct wire_rwset`: the conflict set of a wire. -/
structure wire_rwset where
  r1 : Bool
  w0 : Bool
deriving DecidableEq, Repr

namespace wire_rwset

/-- The static `wire_rwset::may_read1(wire_rwset)`. -/
def may_read1 (_rL : wire_rwset) : Bool := true

/-- `wire_rwset::may_write0()`. -/
def may_write0 (self : wire_rwset) : Bool := !(self.r1 || self.w0)

/-- `wire_rwset::reset()`. -/
def reset (_self : wire_rwset) : wire_rwset := { r1 := false, w0 := false }

/-- The constructor `wire_rwset() : r1{}, w0{} {}`. -/
def init : wire_rwset := { r1 := false, w0 := false }

end wire_rwset

/-- `struct ehr_rwset`: the conflict set of an EHR. -/
structure ehr_rwset where
  r1 : Bool
  w0 : Bool
  w1 : Bool
deriving DecidableEq, Repr

namespace ehr_rwset

/-- The static `ehr_rwset::may_read0(ehr_rwset rL)`. -/
def may_read0 (rL : ehr_rwset) : Bool := !(rL.w1 || rL.w0)

/-- The static `ehr_rwset::may_read1(ehr_rwset rL)`. -/
def may_read1 (rL : ehr_rwset) : Bool := !(rL.w1)

/-- `ehr_rwset::may_write0()`. -/
def may_write0 (self : ehr_rwset) : Bool := !(self.r1 || self.w0 || self.w1)

/-- `ehr_rwset::may_write1()`. -/
def may_write1 (self : ehr_rwset) : Bool := !(self.w1)

/-- `ehr_rwset::reset()`. -/
def reset (_self : ehr_rwset) : ehr_rwset := { r1 := false, w0 := false, w1 := false }

/-- The constructor `ehr_rwset() : r1{}, w0{}, w1{} {}`. -/
def init : ehr_rwset := { r1 := false, w0 := false, w1 := false }

end ehr_rwset

/-! ### The access templates

`read0`, `read1`, `write0` and `write1` are templates over the conflict-set type; an
instantiation exists for the conflict-set types that have the members the body uses.  The
classes below list those members: `rwl.may_read0(rwL)`; `rwl.may_read1(rwL)` and the
field `r1`; `rwl.may_write0()` and the field `w0`; `rwl.may_write1()` and the field `w1`. -/

/-- Conflict sets on which `rwl.may_read0(rwL)` is defined. -/
class has_read0 (rwset : Type) where
  may_read0 : rwset → rwset → Bool

/-- Conflict sets on which `rwl.may_read1(rwL)` and `rwl.r1 = true` are defined. -/
class has_read1 (rwset : Type) where
  may_read1 : rwset → rwset → Bool
  set_r1 : rwset → rwset

/-- Conflict sets on which `rwl.may_write0()` and `rwl.w0 = true` are defined. -/
class has_write0 (rwset : Type) where
  may_write0 : rwset → Bool
  set_w0 : rwset → rwset

/-- Conflict sets on which `rwl.may_write1()` and `rwl.w1 = true` are defined. -/
class has_write1 (rwset : Type) where
  may_write1 : rwset → Bool
  set_w1 : rwset → rwset

instance : has_read0 reg_rwset := ⟨fun rwl rwL => rwl.may_read0 rwL⟩
instance : has_write0 reg_rwset := ⟨fun rwl => rwl.may_write0, fun rwl => { rwl with w0 := true }⟩

instance : has_read1 wire_rwset :=
  ⟨fun _ rwL => wire_rwset.may_read1 rwL, fun rwl => { rwl with r1 := true }⟩
instance : has_write0 wire_rwset :=
  ⟨fun rwl => rwl.may_write0, fun rwl => { rwl with w0 := true }⟩

instance : has_read0 ehr_rwset := ⟨fun _ rwL => ehr_rwset.may_read0 rwL⟩
instance : has_read1 ehr_rwset :=
  ⟨fun _ rwL => ehr_rwset.may_read1 rwL, fun rwl => { rwl with r1 := true }⟩
instance : has_write0 ehr_rwset :=
  ⟨fun rwl => rwl.may_write0, fun rwl => { rwl with w0 := true }⟩
instance : has_write1 ehr_rwset :=
  ⟨fun rwl => rwl.may_write1, fun rwl => { rwl with w1 := true }⟩

/-- `cuttlesim::read0(T* target, const T rL, rwset& rwl, const rwset rwL)`: the result is
the returned flag and the value stored in `*target`; `rwl` is not assigned. -/
def read0 {T rwset : Type} [has_read0 rwset] (rL : T) (rwl rwL : rwset) : Bool × T :=
  let ok := has_read0.may_read0 rwl rwL
  (ok, rL)

/-- `cuttlesim::read1(T* target, const T rl, rwset& rwl, const rwset rwL)`: the result is
the returned flag, the value stored in `*target` and the conflict set `rwl` on return. -/
def read1 {T rwset : Type} [has_read1 rwset] (rl : T) (rwl rwL : rwset) : Bool × T × rwset :=
  let ok := has_read1.may_read1 rwl rwL
  (ok, rl, has_read1.set_r1 rwl)

/-- `cuttlesim::write0(T& rl, const T val, rwset& rwl)`: the result is the returned flag
and the contents of `rl` and `rwl` on return. -/
def write0 {T rwset : Type} [has_write0 rwset] (_rl val : T) (rwl : rwset) : Bool × T × rwset :=
  let ok := has_write0.may_write0 rwl
  (ok, val, has_write0.set_w0 rwl)

/-- `cuttlesim::write1(T& rl, const T val, rwset& rwl)`: the result is the returned flag
and the contents of `rl` and `rwl` on return. -/
def write1 {T rwset : Type} [has_write1 rwset] (_rl val : T) (rwl : rwset) : Bool × T × rwset :=
  let ok := has_write1.may_write1 rwl
  (ok, val, has_write1.set_w1 rwl)

/-! ### Logs

The compiler generates `state_t` and `rwset_t` with one field per register.  A register
is named by its kind and an index; `reg_name_t` is the generated enumeration of register
names used by the `_DL` macros. -/

/-- The generated enumeration `reg_name_t` of register names. -/
inductive reg_name_t where
  | reg (i : Nat)
  | wire (i : Nat)
  | ehr (i : Nat)
deriving DecidableEq, Repr

/-- The generated `struct rwset_t`: one conflict set per register, of the type of its
kind. -/
structure rwset_t where
  reg : Nat → reg_rwset
  wire : Nat → wire_rwset
  ehr : Nat → ehr_rwset

/-- The generated `struct log_t`: `state` (one value per register, `state_t`) and
`rwset`. -/
structure log_t (T : Type) where
  state : reg_name_t → T
  rwset : rwset_t

/-- The read accesses a rule body can contain: the instantiations of `READ0` and `READ1`
that compile. -/
inductive read_port where
  | READ0_reg (r : Nat)
  | READ0_ehr (r : Nat)
  | READ1_wire (r : Nat)
  | READ1_ehr (r : Nat)
deriving DecidableEq, Repr

/-- The write accesses a rule body can contain: the instantiations of `WRITE0` and
`WRITE1` that compile. -/
inductive write_port where
  | WRITE0_reg (r : Nat)
  | WRITE0_wire (r : Nat)
  | WRITE0_ehr (r : Nat)
  | WRITE1_ehr (r : Nat)
deriving DecidableEq, Repr

/-- The register a read access names. -/
def read_port.name : read_port → reg_name_t
  | .READ0_reg r => .reg r
  | .READ0_ehr r => .ehr r
  | .READ1_wire r => .wire r
  | .READ1_ehr r => .ehr r

/-- The register a write access names. -/
def write_port.name : write_port → reg_name_t
  | .WRITE0_reg r => .reg r
  | .WRITE0_wire r => .wire r
  | .WRITE0_ehr r => .ehr r
  | .WRITE1_ehr r => .ehr r

/-- The call inside `READ0(rule, reg, ptr)` and `READ1(rule, reg, ptr)`:
`read0((ptr), Log.state.reg, log.rwset.reg, Log.rwset.reg)`, respectively
`read1((ptr), log.state.reg, log.rwset.reg, Log.rwset.reg)`.  The result is the flag, the
value stored through `ptr`, and the tentative log `log` after the call. -/
def read_access {T : Type} (p : read_port) (Log log : log_t T) : Bool × T × log_t T :=
  match p with
  | .READ0_reg r =>
    let res := read0 (Log.state (.reg r)) (log.rwset.reg r) (Log.rwset.reg r)
    (res.1, res.2, log)
  | .READ0_ehr r =>
    let res := read0 (Log.state (.ehr r)) (log.rwset.ehr r) (Log.rwset.ehr r)
    (res.1, res.2, log)
  | .READ1_wire r =>
    let res := read1 (log.state (.wire r)) (log.rwset.wire r) (Log.rwset.wire r)
    (res.1, res.2.1,
      { log with rwset := { log.rwset with wire := Function.update log.rwset.wire r res.2.2 } })
  | .READ1_ehr r =>
    let res := read1 (log.state (.ehr r)) (log.rwset.ehr r) (Log.rwset.ehr r)
    (res.1, res.2.1,
      { log with rwset := { log.rwset with ehr := Function.update log.rwset.ehr r res.2.2 } })

/-- The call inside `WRITE0(rule, reg, val)` and `WRITE1(rule, reg, val)`:
`write0(log.state.reg, (val), log.rwset.reg)`, respectively `write1(..)`.  The result is
the flag and the tentative log `log` after the call. -/
def write_access {T : Type} (p : write_port) (val : T) (log : log_t T) : Bool × log_t T :=
  match p with
  | .WRITE0_reg r =>
    let res := write0 (log.state (.reg r)) val (log.rwset.reg r)
    (res.1, { state := Function.update log.state (.reg r) res.2.1,
              rwset := { log.rwset with reg := Function.update log.rwset.reg r res.2.2 } })
  | .WRITE0_wire r =>
    let res := write0 (log.state (.wire r)) val (log.rwset.wire r)
    (res.1, { state := Function.update log.state (.wire r) res.2.1,
              rwset := { log.rwset with wire := Function.update log.rwset.wire r res.2.2 } })
  | .WRITE0_ehr r =>
    let res := write0 (log.state (.ehr r)) val (log.rwset.ehr r)
    (res.1, { state := Function.update log.state (.ehr r) res.2.1,
              rwset := { log.rwset with ehr := Function.update log.rwset.ehr r res.2.2 } })
  | .WRITE1_ehr r =>
    let res := write1 (log.state (.ehr r)) val (log.rwset.ehr r)
    (res.1, { state := Function.update log.state (.ehr r) res.2.1,
              rwset := { log.rwset with ehr := Function.update log.rwset.ehr r res.2.2 } })

/-! ### Rule bodies

A rule body is C++ code between accesses; what it reads can determine what it does next.
`rule T` is the tree of its accesses: a read continues with a body that depends on the
value read. -/

/-- The body of a rule function: it ends by reaching `COMMIT(rule); return true`
(`done`), by an explicit `FAIL(rule)` (`fail`), or continues after an access. -/
inductive rule (T : Type) where
  | done : rule T
  | fail : rule T
  | read (p : read_port) (k : T → rule T) : rule T
  | write (p : write_port) (val : T) (k : rule T) : rule T

/-- What the access macros of one strategy (`READ0` .., `READ0_DL` .., `READ0_DOL` ..)
do to the simulator state `σ`: the access itself (with the push that precedes it, if
any), the `FAIL` block and the `COMMIT` statement. -/
structure strategy (σ T : Type) where
  read : read_port → σ → Bool × T × σ
  write : write_port → T → σ → Bool × σ
  FAIL : σ → σ
  COMMIT : σ → σ

/-- Running a rule function: each access is wrapped in `FAIL_UNLESS`, so the first access
that returns `false` runs the `FAIL` block and the function returns `false`; a body that
runs to its end commits and returns `true`. -/
def exec {σ T : Type} (m : strategy σ T) : rule T → σ → Bool × σ
  | .done, s => (true, m.COMMIT s)
  | .fail, s => (false, m.FAIL s)
  | .read p k, s =>
    let res := m.read p s
    if res.1 then exec m (k res.2.1) res.2.2 else (false, m.FAIL res.2.2)
  | .write p val k, s =>
    let res := m.write p val s
    if res.1 then exec m k res.2 else (false, m.FAIL res.2)

/-! ### Static strategy -/

/-- The simulator's two logs: the committed `Log` and the tentative `log`. -/
structure sim (T : Type) where
  Log : log_t T
  log : log_t T

/-- Modelled from the spec: the generated `reset_<rule>()` called by `FAIL` is not part of
the preamble.  "Simply drop the entire tentative Log": the tentative log becomes a copy of
the committed one again. -/
def reset_rule {T : Type} (s : sim T) : sim T := { s with log := s.Log }

/-- Modelled from the spec: the generated `commit_<rule>()` called by `COMMIT` is not part
of the preamble.  "On success, the tentative Log's mutated fields are merged into the
committed Log, replacing the corresponding committed values and conflict flags". -/
def commit_rule {T : Type} (s : sim T) : sim T := { s with Log := s.log }

/-- The macros `READ0`, `READ1`, `WRITE0`, `WRITE1`, `FAIL` and `COMMIT`. -/
def static_strategy (T : Type) : strategy (sim T) T where
  read := fun p s =>
    let res := read_access p s.Log s.log
    (res.1, res.2.1, { s with log := res.2.2 })
  write := fun p val s =>
    let res := write_access p val s.log
    (res.1, { s with log := res.2 })
  FAIL := reset_rule
  COMMIT := commit_rule

/-! ### Dynamic logs -/

/-- `struct offsets`. -/
structure offsets where
  state_offset : Nat
  state_sz : Nat
  rwset_offset : Nat
  rwset_sz : Nat
deriving DecidableEq, Repr

/-- The bytes an object of the simulator occupies: address to byte. -/
abbrev bytes := Nat → Nat

/-- `std::memcpy(dst + dst_off, src + src_off, n)` on two distinct objects: the contents of
`dst` afterwards. -/
def std_memcpy (dst : bytes) (dst_off : Nat) (src : bytes) (src_off : Nat) (n : Nat) : bytes :=
  fun a => if dst_off ≤ a ∧ a < dst_off + n then src (src_off + (a - dst_off)) else dst a

/-- `offsets::memcpy(dst_state, src_state, dst_rwset, src_rwset)`: the contents of
`dst_state` and `dst_rwset` afterwards. -/
def offsets.memcpy (self : offsets) (dst_state src_state dst_rwset src_rwset : bytes) :
    bytes × bytes :=
  let dst_rwset1 := std_memcpy dst_rwset self.rwset_offset src_rwset self.rwset_offset
    self.rwset_sz
  let dst_state1 := std_memcpy dst_state self.state_offset src_state self.state_offset
    self.state_sz
  (dst_state1, dst_rwset1)

/-- `struct stack<T, capacity>`: `sz` and the `capacity` slots of `data`. -/
structure stack (T : Type) (capacity : Nat) where
  sz : Nat
  data : List T

/-- `stack::push(T value)`: `data[sz++] = value`.  (Past `capacity` the C++ store is out of
bounds; here it is lost.) -/
def stack.push {T : Type} {capacity : Nat} (self : stack T capacity) (value : T) :
    stack T capacity :=
  { sz := self.sz + 1, data := self.data.set self.sz value }

/-- The constructor `stack() : sz{0} {}` with `capacity` slots holding `d`. -/
def stack.init {T : Type} (capacity : Nat) (d : T) : stack T capacity :=
  { sz := 0, data := List.replicate capacity d }

/-- The entries pushed so far: `data[0]`, .., `data[sz - 1]`. -/
def stack.entries {T : Type} {capacity : Nat} (self : stack T capacity) : List T :=
  self.data.take self.sz


/-- Replaying the entries of a dynamic log: `copy e dst src` copies the fields of entry `e`
from `src` into `dst`; the entries are visited first to last, or last to first when
`rev` is set. -/
def replay {E L : Type} (copy : E → L → L → L) (rev : Bool) (entries : List E)
    (dst src : L) : L :=
  (if rev then entries.reverse else entries).foldl (fun d e => copy e d src) dst

/-! #### The `_DL` macros: a log of register names -/

/-- The state of a simulator that uses the `_DL` macros. -/
structure sim_DL (T : Type) (capacity : Nat) where
  Log : log_t T
  log : log_t T
  dlog : stack reg_name_t capacity

/-- Copy of the fields `state.reg` and `rwset.reg` of one register from `src` to `dst`. -/
def copy_reg {T : Type} (n : reg_name_t) (dst src : log_t T) : log_t T :=
  match n with
  | .reg i =>
    { state := Function.update dst.state (.reg i) (src.state (.reg i)),
      rwset := { dst.rwset with reg := Function.update dst.rwset.reg i (src.rwset.reg i) } }
  | .wire i =>
    { state := Function.update dst.state (.wire i) (src.state (.wire i)),
      rwset := { dst.rwset with wire := Function.update dst.rwset.wire i (src.rwset.wire i) } }
  | .ehr i =>
    { state := Function.update dst.state (.ehr i) (src.state (.ehr i)),
      rwset := { dst.rwset with ehr := Function.update dst.rwset.ehr i (src.rwset.ehr i) } }

/-- Modelled from the spec: the generated `dlog.apply(dst, src)` of a log of register
names is not part of the preamble.  "On failure, replay the log in reverse (or simply copy
the untouched committed fields back over the tentative ones, entry by entry) ..; on
success, apply the same entries forward from tentative into committed." -/
def apply_DL {T : Type} {capacity : Nat} (rev : Bool) (dlog : stack reg_name_t capacity)
    (dst src : log_t T) : log_t T :=
  replay copy_reg rev dlog.entries dst src

/-- The macros `READ0_DL`, `READ1_DL`, `WRITE0_DL`, `WRITE1_DL` (each pushes the register
name, then does the access), `FAIL_DL` (`dlog.apply(log, Log)`) and `COMMIT_DL`
(`dlog.apply(Log, log)`); `rev` is the order in which a failure replays the entries. -/
def DL_strategy (T : Type) (capacity : Nat) (rev : Bool) : strategy (sim_DL T capacity) T where
  read := fun p s =>
    let dlog := s.dlog.push p.name
    let res := read_access p s.Log s.log
    (res.1, res.2.1, { s with log := res.2.2, dlog := dlog })
  write := fun p val s =>
    let dlog := s.dlog.push p.name
    let res := write_access p val s.log
    (res.1, { s with log := res.2, dlog := dlog })
  FAIL := fun s => { s with log := apply_DL rev s.dlog s.log s.Log }
  COMMIT := fun s => { s with Log := apply_DL false s.dlog s.Log s.log }

/-! #### The `_DOL` macros: a log of offsets into the bytes of the logs -/

/-- The bytes of a `log_t`: those of its `state` and those of its `rwset`. -/
structure log_bytes where
  state : bytes
  rwset : bytes

/-- The state of a simulator that uses the `_DOL` macros. -/
structure sim_DOL (capacity : Nat) where
  Log : log_bytes
  log : log_bytes
  dlog : stack offsets capacity

/-- The `n` bytes of an object at offset `off`. -/
def load (m : bytes) (off n : Nat) : List Nat :=
  (List.range n).map (fun i => m (off + i))

/-- Assignment to a field of `n` bytes at offset `off`: its bytes become `bs`. -/
def store (m : bytes) (off n : Nat) (bs : List Nat) : bytes :=
  fun a => if off ≤ a ∧ a < off + n then bs.getD (a - off) 0 else m a

/-- What the compiler and the platform fix about the generated `state_t` and `rwset_t`:
where the fields of each register lie (`offsetof`, `sizeof`, as `PUSH_DOL` reads them) and
how a register value and a conflict set are represented in the bytes of their field. -/
structure layout (T : Type) where
  offsets_of : reg_name_t → offsets
  enc : T → List Nat
  dec : List Nat → T
  enc_reg : reg_rwset → List Nat
  dec_reg : List Nat → reg_rwset
  enc_wire : wire_rwset → List Nat
  dec_wire : List Nat → wire_rwset
  enc_ehr : ehr_rwset → List Nat
  dec_ehr : List Nat → ehr_rwset

/-- `PUSH_DOL(reg)`. -/
def PUSH_DOL {T : Type} {capacity : Nat} (L : layout T) (reg : reg_name_t)
    (dlog : stack offsets capacity) : stack offsets capacity :=
  dlog.push (L.offsets_of reg)

/-- The call inside `READ0_DOL` and `READ1_DOL`, on the bytes of the logs: the arguments
are the fields `state.reg`, `rwset.reg` of the register, the assignment to `rwl.r1`
rewrites the field `log.rwset.reg`. -/
def read_access_DOL {T : Type} (L : layout T) (p : read_port) (Log log : log_bytes) :
    Bool × T × log_bytes :=
  let o := L.offsets_of p.name
  let field_state := fun (l : log_bytes) => load l.state o.state_offset o.state_sz
  let field_rwset := fun (l : log_bytes) => load l.rwset o.rwset_offset o.rwset_sz
  match p with
  | .READ0_reg _ =>
    let res := read0 (L.dec (field_state Log)) (L.dec_reg (field_rwset log))
      (L.dec_reg (field_rwset Log))
    (res.1, res.2, log)
  | .READ0_ehr _ =>
    let res := read0 (L.dec (field_state Log)) (L.dec_ehr (field_rwset log))
      (L.dec_ehr (field_rwset Log))
    (res.1, res.2, log)
  | .READ1_wire _ =>
    let res := read1 (L.dec (field_state log)) (L.dec_wire (field_rwset log))
      (L.dec_wire (field_rwset Log))
    (res.1, res.2.1,
      { log with rwset := store log.rwset o.rwset_offset o.rwset_sz (L.enc_wire res.2.2) })
  | .READ1_ehr _ =>
    let res := read1 (L.dec (field_state log)) (L.dec_ehr (field_rwset log))
      (L.dec_ehr (field_rwset Log))
    (res.1, res.2.1,
      { log with rwset := store log.rwset o.rwset_offset o.rwset_sz (L.enc_ehr res.2.2) })

/-- The call inside `WRITE0_DOL` and `WRITE1_DOL`, on the bytes of the logs: the
assignments to `rl` and to `rwl.w0` / `rwl.w1` rewrite the fields `log.state.reg` and
`log.rwset.reg`. -/
def write_access_DOL {T : Type} (L : layout T) (p : write_port) (val : T) (log : log_bytes) :
    Bool × log_bytes :=
  let o := L.offsets_of p.name
  let rl := L.dec (load log.state o.state_offset o.state_sz)
  let field_rwset := load log.rwset o.rwset_offset o.rwset_sz
  match p with
  | .WRITE0_reg _ =>
    let res := write0 rl val (L.dec_reg field_rwset)
    (res.1, { state := store log.state o.state_offset o.state_sz (L.enc res.2.1),
              rwset := store log.rwset o.rwset_offset o.rwset_sz (L.enc_reg res.2.2) })
  | .WRITE0_wire _ =>
    let res := write0 rl val (L.dec_wire field_rwset)
    (res.1, { state := store log.state o.state_offset o.state_sz (L.enc res.2.1),
              rwset := store log.rwset o.rwset_offset o.rwset_sz (L.enc_wire res.2.2) })
  | .WRITE0_ehr _ =>
    let res := write0 rl val (L.dec_ehr field_rwset)
    (res.1, { state := store log.state o.state_offset o.state_sz (L.enc res.2.1),
              rwset := store log.rwset o.rwset_offset o.rwset_sz (L.enc_ehr res.2.2) })
  | .WRITE1_ehr _ =>
    let res := write1 rl val (L.dec_ehr field_rwset)
    (res.1, { state := store log.state o.state_offset o.state_sz (L.enc res.2.1),
              rwset := store log.rwset o.rwset_offset o.rwset_sz (L.enc_ehr res.2.2) })

/-- One entry of the log of offsets applied from `src` to `dst`:
`entry.memcpy(dst.state, src.state, dst.rwset, src.rwset)`. -/
def copy_offsets (o : offsets) (dst src : log_bytes) : log_bytes :=
  let res := o.memcpy dst.state src.state dst.rwset src.rwset
  { state := res.1, rwset := res.2 }

/-- Modelled from the spec: the generated `dlog.apply(dst, src)` of a log of offsets is
not part of the preamble.  "On failure, replay the log in reverse (or simply copy the
untouched committed fields back over the tentative ones, entry by entry) ..; on success,
apply the same entries forward from tentative into committed."  Each entry is applied with
`offsets::memcpy`. -/
def apply_DOL {capacity : Nat} (rev : Bool) (dlog : stack offsets capacity)
    (dst src : log_bytes) : log_bytes :=
  replay copy_offsets rev dlog.entries dst src

/-- The macros `READ0_DOL`, `READ1_DOL`, `WRITE0_DOL`, `WRITE1_DOL` (each does `PUSH_DOL`,
then the access), `FAIL_DOL` (`dlog.apply(log, Log)`) and `COMMIT_DOL`
(`dlog.apply(Log, log)`); `rev` is the order in which a failure replays the entries. -/
def DOL_strategy {T : Type} (L : layout T) (capacity : Nat) (rev : Bool) :
    strategy (sim_DOL capacity) T where
  read := fun p s =>
    let dlog := PUSH_DOL L p.name s.dlog
    let res := read_access_DOL L p s.Log s.log
    (res.1, res.2.1, { s with log := res.2.2, dlog := dlog })
  write := fun p val s =>
    let dlog := PUSH_DOL L p.name s.dlog
    let res := write_access_DOL L p val s.log
    (res.1, { s with log := res.2, dlog := dlog })
  FAIL := fun s => { s with log := apply_DOL rev s.dlog s.log s.Log }
  COMMIT := fun s => { s with Log := apply_DOL false s.dlog s.Log s.log }

/-- The static commit on the bytes of the logs, in the spec's words: the committed Log is
replaced by the tentative log. -/
def static_commit_bytes {capacity : Nat} (s : sim_DOL capacity) : sim_DOL capacity :=
  { s with Log := s.log }

/-- The `_DOL` access macros with the static commit in place of `COMMIT_DOL`. -/
def DOL_static_commit_strategy {T : Type} (L : layout T) (capacity : Nat) (rev : Bool) :
    strategy (sim_DOL capacity) T :=
  { DOL_strategy L capacity rev with COMMIT := static_commit_bytes }

/-- Whether address `a` lies in the `state` field described by the entry `o`. -/
def covers_state (a : Nat) (o : offsets) : Bool :=
  decide (o.state_offset ≤ a ∧ a < o.state_offset + o.state_sz)

/-- Whether address `a` lies in the `rwset` field described by the entry `o`. -/
def covers_rwset (a : Nat) (o : offsets) : Bool :=
  decide (o.rwset_offset ≤ a ∧ a < o.rwset_offset + o.rwset_sz)

/-- A log whose registers all hold `v` and whose conflict sets are all fresh. -/
def fresh_log {T : Type} (v : T) : log_t T :=
  { state := fun _ => v,
    rwset := { reg := fun _ => reg_rwset.init, wire := fun _ => wire_rwset.init,
               ehr := fun _ => ehr_rwset.init } }

/-- A simulator at the start of a cycle: both logs are `fresh_log v`. -/
def fresh_sim {T : Type} (v : T) : sim T := { Log := fresh_log v, log := fresh_log v }

/-- The object representation used in the examples: a register value is a 64-bit
little-endian integer, a conflict set is one byte holding `r1`, `w0`, `w1` in its low bits
(a plain register holds `w0` in bit 0). -/
def demo_layout : layout Nat where
  offsets_of := fun n =>
    match n with
    | .reg i => { state_offset := 24 * i, state_sz := 8, rwset_offset := 3 * i, rwset_sz := 1 }
    | .wire i =>
      { state_offset := 24 * i + 8, state_sz := 8, rwset_offset := 3 * i + 1, rwset_sz := 1 }
    | .ehr i =>
      { state_offset := 24 * i + 16, state_sz := 8, rwset_offset := 3 * i + 2, rwset_sz := 1 }
  enc := fun v => (List.range 8).map (fun i => v / 256 ^ i % 256)
  dec := fun bs => bs.foldr (fun b acc => b % 256 + 256 * acc) 0
  enc_reg := fun f => [f.w0.toNat]
  dec_reg := fun bs => { w0 := (bs.getD 0 0).testBit 0 }
  enc_wire := fun f => [f.r1.toNat + 2 * f.w0.toNat]
  dec_wire := fun bs => { r1 := (bs.getD 0 0).testBit 0, w0 := (bs.getD 0 0).testBit 1 }
  enc_ehr := fun f => [f.r1.toNat + 2 * f.w0.toNat + 4 * f.w1.toNat]
  dec_ehr := fun bs =>
    { r1 := (bs.getD 0 0).testBit 0, w0 := (bs.getD 0 0).testBit 1,
      w1 := (bs.getD 0 0).testBit 2 }

/-- A simulator over bytes at the start of a cycle: all bytes zero, empty log of
offsets. -/
def demo_sim_DOL (capacity : Nat) : sim_DOL capacity :=
  { Log := { state := fun _ => 0, rwset := fun _ => 0 },
    log := { state := fun _ => 0, rwset := fun _ => 0 },
    dlog := stack.init capacity ⟨0, 0, 0, 0⟩ }

/-! ### Scheduler and driver -/

/-- Modelled from the spec: the generated scheduler is not part of the preamble.  "Rules
run in a fixed, compiler-specified priority order"; "a later rule sees the effects of an
earlier rule's successful writes"; "an aborted rule has no effect and is not reattempted
this cycle": each rule function runs once on the state left by the previous one. -/
def run_rules {σ T : Type} (m : strategy σ T) (rules : List (rule T)) (s : σ) : σ :=
  rules.foldl (fun s1 body => (exec m body s1).2) s

/-- The conflict sets of a log reset with `reset()`. -/
def reset_rwsets {T : Type} (l : log_t T) : log_t T :=
  { l with rwset := { reg := fun i => (l.rwset.reg i).reset,
                      wire := fun i => (l.rwset.wire i).reset,
                      ehr := fun i => (l.rwset.ehr i).reset } }

/-- Modelled from the spec: the start of a cycle in the generated `cycle()`.  "ConflictSet:
.. Reset to all-false at the start of every cycle. Never persists across cycles." -/
def cycle_start {T : Type} (s : sim T) : sim T :=
  { Log := reset_rwsets s.Log, log := reset_rwsets s.log }

/-- Modelled from the spec: one cycle of the generated simulator with the static macros:
the conflict sets are reset, then every rule runs once in priority order. -/
def cycle {T : Type} (rules : List (rule T)) (s : sim T) : sim T :=
  run_rules (static_strategy T) rules (cycle_start s)

/-- Modelled from the spec: the driver's `run(n)`, "executes n cycles in sequence via the
Scheduler". -/
def run {T : Type} (rules : List (rule T)) (n : Nat) (s : sim T) : sim T :=
  (cycle rules)^[n] s

/-- A rule body performs no `WRITE1` on the EHR `r`, whatever values it reads. -/
def no_write1 {T : Type} (r : Nat) : rule T → Prop
  | .done => True
  | .fail => True
  | .read _ k => ∀ v, no_write1 r (k v)
  | .write p _ k => p ≠ .WRITE1_ehr r ∧ no_write1 r k

/-- Rule A of the end-to-end example: writes 1 to the plain register `r` through
`WRITE0`. -/
def toggle_rule_A (r : Nat) : rule (prims.bits 1) :=
  .write (.WRITE0_reg r) ⟨1⟩ .done

/-- Rule B of the end-to-end example: reads the plain register `r` through `READ0` and
writes its complement through `WRITE0`. -/
def toggle_rule_B (r : Nat) : rule (prims.bits 1) :=
  .read (.READ0_reg r) (fun x => .write (.WRITE0_reg r) (prims.not x) .done)

/-! ### Command-line driver -/

/-- `struct params`. -/
structure params where
  trace : Bool
  vcd_fpath : String
  trace_period : Nat
  ncycles : Nat
deriving DecidableEq, Repr

/-- `isspace` of the C library in the default locale: space, `\t`, `\n`, `\v`, `\f` and
`\r` (character codes 32 and 9 to 13). -/
def isspace (c : Char) : Bool :=
  c.toNat = 32 || (9 ≤ c.toNat && c.toNat ≤ 13)

/-- `std::stoull(str)` of the C++ standard library, in base 10: leading white space
(`isspace`) is skipped, an optional sign is read, then the longest run of decimal digits;
what follows the digits is ignored.  `none` stands for the exception thrown when there is
no digit (`std::invalid_argument`) or the number does not fit in `unsigned long long`
(`std::out_of_range`); with a minus sign the result is negated in `unsigned long long`. -/
def stoull (arg : String) : Option Nat :=
  let cs := arg.data.dropWhile isspace
  let signed : Bool × List Char :=
    match cs with
    | '-' :: rest => (true, rest)
    | '+' :: rest => (false, rest)
    | _ => (false, cs)
  let ds := signed.2.takeWhile Char.isDigit
  let n := ds.foldl (fun acc c => 10 * acc + (c.toNat - '0'.toNat)) 0
  if ds.isEmpty then none
  else if n < 2 ^ 64 then some (if signed.1 then (2 ^ 64 - n) % 2 ^ 64 else n)
  else none

/-- `params::of_cli(argc, argv)`, with `argv` the list of the `argc` arguments. -/
def params.of_cli (argv : List String) : Option params := do
  let parsed : params := { trace := false, vcd_fpath := "", trace_period := 0, ncycles := 1000 }
  let parsed ← if argv.length > 1 then
      (stoull (argv.getD 1 "")).map (fun n => { parsed with ncycles := n })
    else some parsed
  let parsed := if argv.length > 2 then
      { parsed with trace := true, vcd_fpath := argv.getD 2 "" }
    else parsed
  let parsed ← if argv.length > 3 then
      (stoull (argv.getD 3 "")).map (fun n => { parsed with trace_period := n })
    else some parsed
  return parsed

/-- What the driver asks of the simulator: `simulator(..).trace(fname, ncycles, period)`, or
`simulator(..).run(ncycles).snapshot()` followed by `dump()`. -/
inductive driver_call where
  | trace (fname : String) (ncycles : Nat) (period : Nat)
  | run_and_dump (ncycles : Nat)
deriving DecidableEq, Repr

/-- `cuttlesim::init_and_trace<simulator>(fname, ncycles, args...)`:
`simulator(args...).trace(fname, ncycles, 1)`. -/
def init_and_trace (fname : String) (ncycles : Nat) : driver_call :=
  .trace fname ncycles 1

/-- `cuttlesim::init_and_run<simulator>(ncycles, args...)` as called by `main`, which
dumps the snapshot it returns. -/
def init_and_run (ncycles : Nat) : driver_call :=
  .run_and_dump ncycles

/-- `cuttlesim::main<simulator>(argc, argv, args...)`: the call it makes on the
simulator. -/
def main (argv : List String) : Option driver_call :=
  (params.of_cli argv).map (fun params =>
    if params.trace then init_and_trace params.vcd_fpath params.ncycles
    else init_and_run params.ncycles)

/-! ### Flags and sequences of accesses -/

/-- Every flag set in the plain-register conflict set `a` is set in `b`. -/
def reg_rwset.flags_le (a b : reg_rwset) : Bool := !a.w0 || b.w0

/-- Every flag set in the wire conflict set `a` is set in `b`. -/
def wire_rwset.flags_le (a b : wire_rwset) : Bool := (!a.r1 || b.r1) && (!a.w0 || b.w0)

/-- Every flag set in the EHR conflict set `a` is set in `b`. -/
def ehr_rwset.flags_le (a b : ehr_rwset) : Bool :=
  (!a.r1 || b.r1) && (!a.w0 || b.w0) && (!a.w1 || b.w1)

/-- Every flag set in `a`, for any register, is set in `b`. -/
def rwset_t.flags_le (a b : rwset_t) : Prop :=
  (∀ r, (a.reg r).flags_le (b.reg r) = true) ∧
  (∀ r, (a.wire r).flags_le (b.wire r) = true) ∧
  (∀ r, (a.ehr r).flags_le (b.ehr r) = true)

/-- One access of a rule body: a `READ0`/`READ1`, or a `WRITE0`/`WRITE1` with its value. -/
inductive access (T : Type) where
  | read (p : read_port)
  | write (p : write_port) (val : T)
deriving DecidableEq

/-- The tentative log after one access call (the flag the call returns is dropped). -/
def access.call {T : Type} (Log : log_t T) (log : log_t T) : access T → log_t T
  | .read p => (read_access p Log log).2.2
  | .write p val => (write_access p val log).2

/-- The tentative log after a sequence of access calls with no reset in between. -/
def access.calls {T : Type} (Log : log_t T) ( as : List (access T)) (log : log_t T) : log_t T :=
  as.foldl (access.call Log) log

/-! ### The accesses a running rule performs -/

/-- One access performed by a running rule function: the access, the flag it returned and,
for a read, the value it stored through `ptr`. -/
structure event (T : Type) where
  acc : access T
  ok : Bool
  val : Option T
deriving DecidableEq

/-- The accesses that running a rule function performs, in order, following `exec`: the
run goes on after an access that returned `true` and stops after the first one that
returned `false`. -/
def events {σ T : Type} (m : strategy σ T) : rule T → σ → List (event T)
  | .done, _ => []
  | .fail, _ => []
  | .read p k, s =>
    let res := m.read p s
    ⟨.read p, res.1, some res.2.1⟩ :: (if res.1 then events m (k res.2.1) res.2.2 else [])
  | .write p val k, s =>
    let res := m.write p val s
    ⟨.write p val, res.1, none⟩ :: (if res.1 then events m k res.2 else [])

/-- The access is a `WRITE1` on the EHR `r`. -/
def access.is_write1 {T : Type} (r : Nat) : access T → Bool
  | .write (.WRITE1_ehr r2) _ => decide (r2 = r)
  | _ => false

/-- No rule of the list, run in order from `s` with the macros `READ0` .. `COMMIT`,
performs a `WRITE1` on the EHR `r` and commits. -/
def no_committed_write1 {T : Type} (r : Nat) : List (rule T) → sim T → Prop
  | [], _ => True
  | body :: rest, s =>
    ((exec (static_strategy T) body s).1 = true →
      ∀ e ∈ events (static_strategy T) body s, e.acc.is_write1 r = false) ∧
    no_committed_write1 r rest (exec (static_strategy T) body s).2

end cuttlesim

namespace prims

/-! ## Basic facts about the storage model -/

theorem le_digits {sz : Nat} (h : sz ≤ 1024) : sz ≤ digits sz := by
  unfold digits
  split_ifs <;> omega

theorem digits_pos {sz : Nat} (h1 : 1 ≤ sz) (h : sz ≤ 1024) : 0 < digits sz := by
  have := le_digits h
  omega

theorem static_cast_lt (sz : Nat) (arg : Int) : static_cast sz arg < 2 ^ digits sz := by
  unfold static_cast
  have hpos : (0 : Int) < (2 : Int) ^ digits sz := by positivity
  have h1 := Int.emod_nonneg arg (ne_of_gt hpos)
  have h2 := Int.emod_lt_of_pos arg hpos
  have h3 : ((arg % (2 : Int) ^ digits sz).toNat : Int) < ((2 ^ digits sz : Nat) : Int) := by
    rw [Int.toNat_of_nonneg h1]
    push_cast
    exact h2
  exact_mod_cast h3

theorem static_cast_natCast (sz n : Nat) : static_cast sz (n : Int) = n % 2 ^ digits sz := by
  unfold static_cast
  have : ((n : Int) % (2 : Int) ^ digits sz) = ((n % 2 ^ digits sz : Nat) : Int) := by
    push_cast
    rfl
  rw [this, Int.toNat_natCast]

theorem static_cast_of_lt (sz n : Nat) (h : n < 2 ^ digits sz) :
    static_cast sz (n : Int) = n := by
  rw [static_cast_natCast, Nat.mod_eq_of_lt h]

theorem bits.bitmask_eq {sz : Nat} (h : sz ≤ digits sz) : bits.bitmask sz = 2 ^ sz - 1 := by
  unfold bits.bitmask bits.padding_width
  obtain ⟨p, hp⟩ : ∃ p, digits sz = sz + p := ⟨digits sz - sz, by omega⟩
  rw [hp, Nat.add_sub_cancel_left]
  have h2 : 0 < 2 ^ p := by positivity
  have h3 : 0 < 2 ^ sz := by positivity
  obtain ⟨a, ha⟩ : ∃ a, 2 ^ sz = a + 1 := ⟨2 ^ sz - 1, by omega⟩
  obtain ⟨b, hb⟩ : ∃ b, 2 ^ p = b + 1 := ⟨2 ^ p - 1, by omega⟩
  rw [pow_add, ha, hb, Nat.add_sub_cancel]
  apply Nat.div_eq_of_lt_le
  · have : (a + 1) * (b + 1) = a * (b + 1) + b + 1 := by ring
    omega
  · have : (a + 1) * (b + 1) = a * (b + 1) + b + 1 := by ring
    have h4 : a.succ * (b + 1) = a * (b + 1) + b + 1 := by
      rw [Nat.succ_eq_add_one]; ring
    omega

theorem bits.invariant_iff {sz : Nat} (h : sz ≤ digits sz) (x : bits sz) :
    x.invariant ↔ x.v ≤ 2 ^ sz - 1 := by
  unfold bits.invariant
  rw [bits.bitmask_eq h]

theorem two_pow_le_digits {sz : Nat} (h : sz ≤ digits sz) : 2 ^ sz ≤ 2 ^ digits sz :=
  Nat.pow_le_pow_right (by norm_num) h

theorem mk_natCast_v (sz n : Nat) : (bits.mk sz (n : Int)).v = n % 2 ^ digits sz := by
  simp [bits.mk, static_cast_natCast]

theorem ones_v {sz : Nat} (h : sz ≤ digits sz) : (bits.ones sz).v = 2 ^ sz - 1 := by
  unfold bits.ones
  rw [mk_natCast_v, bits.bitmask_eq h]
  apply Nat.mod_eq_of_lt
  have := two_pow_le_digits h
  have : 0 < 2 ^ sz := by positivity
  omega

theorem and_v {sz : Nat} (x y : bits sz) (hy : y.v < 2 ^ digits sz) :
    (and x y).v = x.v &&& y.v := by
  unfold and
  have h0 : ((Nat.land x.v y.v : Nat) : Int) = ((x.v &&& y.v : Nat) : Int) := rfl
  rw [h0, mk_natCast_v]
  apply Nat.mod_eq_of_lt
  exact lt_of_le_of_lt Nat.and_le_right hy

/-- `mask` keeps exactly the low `sz` bits of the stored value. -/
theorem mask_v {sz : Nat} (h : sz ≤ digits sz) (x : bits sz) :
    (mask x).v = x.v % 2 ^ sz := by
  unfold mask
  have h1 := ones_v h
  have h2 := two_pow_le_digits h
  have h3 : 0 < 2 ^ sz := by positivity
  rw [and_v _ _ (by omega), h1, Nat.and_pow_two_sub_one_eq_mod]

theorem mask_le {sz : Nat} (h : sz ≤ digits sz) (x : bits sz) :
    (mask x).v ≤ 2 ^ sz - 1 := by
  rw [mask_v h]
  have h3 : 0 < 2 ^ sz := by positivity
  have := Nat.mod_lt x.v h3
  omega

theorem lt_digits_of_le {sz n : Nat} (h : sz ≤ digits sz) (hn : n ≤ 2 ^ sz - 1) :
    n < 2 ^ digits sz := by
  have h2 := two_pow_le_digits h
  have h3 : 0 < 2 ^ sz := by positivity
  omega

theorem and_le {sz : Nat} (h : sz ≤ digits sz) (x y : bits sz) (hy : y.v ≤ 2 ^ sz - 1) :
    (and x y).v ≤ 2 ^ sz - 1 := by
  rw [and_v _ _ (lt_digits_of_le h hy)]
  exact le_trans Nat.and_le_right hy

theorem or_v {sz : Nat} (h : sz ≤ digits sz) (x y : bits sz) (hx : x.v ≤ 2 ^ sz - 1)
    (hy : y.v ≤ 2 ^ sz - 1) : (or x y).v = x.v ||| y.v := by
  unfold or
  have h0 : ((Nat.lor x.v y.v : Nat) : Int) = ((x.v ||| y.v : Nat) : Int) := rfl
  rw [h0, mk_natCast_v]
  apply Nat.mod_eq_of_lt
  have h3 : 0 < 2 ^ sz := by positivity
  have : x.v ||| y.v < 2 ^ sz := Nat.or_lt_two_pow (by omega) (by omega)
  have h2 := two_pow_le_digits h
  omega

theorem or_le {sz : Nat} (h : sz ≤ digits sz) (x y : bits sz) (hx : x.v ≤ 2 ^ sz - 1)
    (hy : y.v ≤ 2 ^ sz - 1) : (or x y).v ≤ 2 ^ sz - 1 := by
  rw [or_v h x y hx hy]
  have h3 : 0 < 2 ^ sz := by positivity
  have : x.v ||| y.v < 2 ^ sz := Nat.or_lt_two_pow (by omega) (by omega)
  omega

theorem xor_v {sz : Nat} (h : sz ≤ digits sz) (x y : bits sz) (hx : x.v ≤ 2 ^ sz - 1)
    (hy : y.v ≤ 2 ^ sz - 1) : (xor x y).v = x.v ^^^ y.v := by
  unfold xor
  have h0 : ((Nat.xor x.v y.v : Nat) : Int) = ((x.v ^^^ y.v : Nat) : Int) := rfl
  rw [h0, mk_natCast_v]
  apply Nat.mod_eq_of_lt
  have h3 : 0 < 2 ^ sz := by positivity
  have : x.v ^^^ y.v < 2 ^ sz := Nat.xor_lt_two_pow (by omega) (by omega)
  have h2 := two_pow_le_digits h
  omega

theorem xor_le {sz : Nat} (h : sz ≤ digits sz) (x y : bits sz) (hx : x.v ≤ 2 ^ sz - 1)
    (hy : y.v ≤ 2 ^ sz - 1) : (xor x y).v ≤ 2 ^ sz - 1 := by
  rw [xor_v h x y hx hy]
  have h3 : 0 < 2 ^ sz := by positivity
  have : x.v ^^^ y.v < 2 ^ sz := Nat.xor_lt_two_pow (by omega) (by omega)
  omega

/-- The logical right shift of a stored value: `(data >> shift).v = data.v / 2 ^ shift`
reduced to the storage type. -/
theorem shr_v_gen {sz : Nat} (x : bits sz) (s : Nat) :
    (shr x s).v = (x.v / 2 ^ s) % 2 ^ digits sz := by
  unfold shr
  have h0 : ((x.v : Int) / (2 : Int) ^ s) = ((x.v / 2 ^ s : Nat) : Int) := by
    push_cast
    rfl
  rw [h0, mk_natCast_v]

theorem shr_v {sz : Nat} (x : bits sz) (s : Nat) (hx : x.v < 2 ^ digits sz) :
    (shr x s).v = x.v / 2 ^ s := by
  rw [shr_v_gen]
  apply Nat.mod_eq_of_lt
  exact lt_of_le_of_lt (Nat.div_le_self _ _) hx

theorem shr_le {sz : Nat} (h : sz ≤ digits sz) (x : bits sz) (s : Nat)
    (hx : x.v ≤ 2 ^ sz - 1) : (shr x s).v ≤ 2 ^ sz - 1 := by
  rw [shr_v x s (lt_digits_of_le h hx)]
  exact le_trans (Nat.div_le_self _ _) hx

theorem shr_bits_eq {sz1 sz2 : Nat} (x : bits sz1) (s : bits sz2) :
    shr_bits x s = shr x s.v := rfl

theorem shl_bits_eq {sz1 sz2 : Nat} (x : bits sz1) (s : bits sz2) :
    shl_bits x s = shl x s.v := rfl

theorem of_sbits_lt (sz : Nat) (sx : Int) : (bits.of_sbits sz sx).v < 2 ^ digits sz :=
  static_cast_lt _ _

/-- Whatever signed value it is given, `of_shifted_sbits` returns a value within the
declared width: the bit pattern is shifted right by the padding width. -/
theorem of_shifted_sbits_le {sz : Nat} (h : sz ≤ digits sz) (sx : Int) :
    (bits.of_shifted_sbits sz sx).v ≤ 2 ^ sz - 1 := by
  unfold bits.of_shifted_sbits
  have h1 := of_sbits_lt sz sx
  rw [shr_v _ _ h1]
  unfold bits.padding_width
  obtain ⟨p, hp⟩ : ∃ p, digits sz = sz + p := ⟨digits sz - sz, by omega⟩
  rw [hp, Nat.add_sub_cancel_left]
  rw [hp, pow_add] at h1
  have h2 : 0 < 2 ^ p := by positivity
  have : (bits.of_sbits sz sx).v / 2 ^ p < 2 ^ sz := by
    rw [Nat.div_lt_iff_lt_mul h2]
    exact h1
  omega

theorem widen_v_of_le {sz ret_sz : Nat} (h : ret_sz ≤ digits ret_sz) (x : bits sz)
    (hx : x.v ≤ 2 ^ ret_sz - 1) : (widen ret_sz x).v = x.v := by
  unfold widen
  rw [mk_natCast_v]
  exact Nat.mod_eq_of_lt (lt_digits_of_le h hx)

theorem pow_sub_one_mono {a b : Nat} (h : a ≤ b) : 2 ^ a - 1 ≤ 2 ^ b - 1 := by
  have := Nat.pow_le_pow_right (show 0 < 2 by norm_num) h
  omega

/-- C1. Masking invariant: for every width `1 ≤ W ≤ 64` and operands whose stored value is
at most `2 ^ W - 1`, each value-producing operation on `bits` (`&`, `|`, `^`, `~`, `+`,
`-`, `<<` and `>>` with a shift amount below the storage width, `asr`, `truncate`,
`slice`, `islice`, `slice_subst`, `concat`, `sext`, `zextl`, `zextr`) returns a value
whose stored integer is at most `2 ^ W' - 1`, where `W'` is the declared width of the
result. -/
theorem C1_masking_invariant (W : Nat) (hW1 : 1 ≤ W) (hW64 : W ≤ 64) (x y : bits W)
    (hx : x.v ≤ 2 ^ W - 1) (hy : y.v ≤ 2 ^ W - 1) :
    (and x y).v ≤ 2 ^ W - 1 ∧ (or x y).v ≤ 2 ^ W - 1 ∧ (xor x y).v ≤ 2 ^ W - 1 ∧
    (not x).v ≤ 2 ^ W - 1 ∧ (add x y).v ≤ 2 ^ W - 1 ∧ (sub x y).v ≤ 2 ^ W - 1 ∧
    (∀ s : Nat, s < digits W → (shl x s).v ≤ 2 ^ W - 1 ∧ (shr x s).v ≤ 2 ^ W - 1) ∧
    (∀ (sz2 : Nat) (s : bits sz2), s.v < digits W →
      (shl_bits x s).v ≤ 2 ^ W - 1 ∧ (shr_bits x s).v ≤ 2 ^ W - 1) ∧
    (∀ (sz2 : Nat) (s : bits sz2), (asr x s).v ≤ 2 ^ W - 1) ∧
    (∀ (sz : Nat) (d : bits sz), (truncate W d).v ≤ 2 ^ W - 1) ∧
    (∀ (sz idx : Nat) (d : bits sz), (slice idx W d).v ≤ 2 ^ W - 1) ∧
    (∀ (sz sz2 : Nat) (d : bits sz) (idx : bits sz2), (islice W d idx).v ≤ 2 ^ W - 1) ∧
    (∀ (width idx : Nat) (repl : bits width), (slice_subst idx x repl).v ≤ 2 ^ W - 1) ∧
    (∀ (sz2 : Nat) (z : bits sz2), W + sz2 ≤ 64 → z.v ≤ 2 ^ sz2 - 1 →
      (concat x z).v ≤ 2 ^ (W + sz2) - 1) ∧
    (∀ width : Nat, max W width ≤ 64 →
      (sext width x).v ≤ 2 ^ (max W width) - 1 ∧
      (zextl width x).v ≤ 2 ^ (max W width) - 1 ∧
      (zextr width x).v ≤ 2 ^ (max W width) - 1) := by
  have h : W ≤ digits W := le_digits (by omega)
  refine ⟨and_le h x y hy, or_le h x y hx hy, xor_le h x y hx hy, mask_le h _, mask_le h _,
    mask_le h _, ?_, ?_, ?_, ?_, ?_, ?_, ?_, ?_, ?_⟩
  · intro s _
    exact ⟨mask_le h _, shr_le h x s hx⟩
  · intro sz2 s _
    exact ⟨mask_le h _, shr_le h x s.v hx⟩
  · intro sz2 s
    exact of_shifted_sbits_le h _
  · intro sz d
    exact mask_le h _
  · intro sz idx d
    exact mask_le h _
  · intro sz sz2 d idx
    exact mask_le h _
  · intro width idx repl
    exact or_le h _ _ (and_le h _ _ (mask_le h _)) (mask_le h _)
  · intro sz2 z hsum hz
    have h2 : W + sz2 ≤ digits (W + sz2) := le_digits (by omega)
    have hz2 : z.v ≤ 2 ^ (W + sz2) - 1 := le_trans hz (pow_sub_one_mono (by omega))
    refine or_le h2 _ _ (mask_le h2 _) ?_
    rw [widen_v_of_le h2 z hz2]
    exact hz2
  · intro width hmax
    have h2 : max W width ≤ digits (max W width) := le_digits (by omega)
    refine ⟨of_shifted_sbits_le h2 _, ?_, mask_le h2 _⟩
    have hx2 : x.v ≤ 2 ^ (max W width) - 1 := le_trans hx (pow_sub_one_mono (le_max_left _ _))
    unfold zextl
    rw [widen_v_of_le h2 x hx2]
    exact hx2

/-- C1 at the 4-bit operands `13` and `6`. -/
theorem C1_masking_invariant_witness :
    (and (⟨13⟩ : bits 4) (⟨6⟩ : bits 4)).v ≤ 2 ^ 4 - 1 ∧
    (add (⟨13⟩ : bits 4) (⟨6⟩ : bits 4)).v ≤ 2 ^ 4 - 1 ∧
    (asr (⟨13⟩ : bits 4) (⟨1⟩ : bits 2)).v ≤ 2 ^ 4 - 1 :=
  have h := C1_masking_invariant 4 (by decide) (by decide) ⟨13⟩ ⟨6⟩ (by decide) (by decide)
  ⟨h.1, h.2.2.2.2.1, h.2.2.2.2.2.2.2.2.1 2 ⟨1⟩⟩

theorem to_signed_emod (D : Nat) (hD : 0 < D) (i : Int) :
    to_signed D i % (2 : Int) ^ D = i % (2 : Int) ^ D := by
  unfold to_signed
  rw [if_neg (by omega)]
  rw [Int.emod_def (i + (2 : Int) ^ (D - 1)) ((2 : Int) ^ D)]
  have : i + (2 : Int) ^ (D - 1) - (2 : Int) ^ D * ((i + (2 : Int) ^ (D - 1)) / (2 : Int) ^ D)
      - (2 : Int) ^ (D - 1)
      = i + (-((i + (2 : Int) ^ (D - 1)) / (2 : Int) ^ D)) * (2 : Int) ^ D := by ring
  rw [this, Int.add_mul_emod_self]

theorem static_cast_emod (sz : Nat) (i : Int) :
    static_cast sz (i % (2 : Int) ^ digits sz) = static_cast sz i := by
  unfold static_cast
  rw [Int.emod_emod_of_dvd _ (dvd_refl _)]

theorem of_sbits_v {sz : Nat} (hD : 0 < digits sz) (sx : Int) :
    (bits.of_sbits sz sx).v = static_cast sz sx := by
  unfold bits.of_sbits bits.mk
  rw [to_signed_emod _ hD, static_cast_emod]

theorem static_cast_of_nonneg_lt (sz : Nat) (arg : Int) (h0 : 0 ≤ arg)
    (h1 : arg < (2 : Int) ^ digits sz) : static_cast sz arg = arg.toNat := by
  unfold static_cast
  rw [Int.emod_eq_of_lt h0 h1]

/-- C2, as stated, fails: the constructors convert to the storage type without masking.
With `W = 4` (stored in 8 bits) `bits<4>::mk(255)`, `widen<4>` of the 8-bit value 255 and
`bits<4>::of_sbits(-1)` all hold 255, which exceeds `2 ^ 4 - 1`. -/
theorem C2_constructors_unmasked_counterexample :
    ¬ ((bits.mk 4 255).v ≤ 2 ^ 4 - 1) ∧
    ¬ ((widen 4 (⟨255⟩ : bits 8)).v ≤ 2 ^ 4 - 1) ∧
    ¬ ((bits.of_sbits 4 (-1)).v ≤ 2 ^ 4 - 1) := by
  decide

/-- C2, amended: `bits<W>::mk(arg)`, `widen<W>(x)` and `bits<W>::of_sbits(sx)` reduce their
argument to the storage type of `bits<W>` only, so the stored value is at most
`2 ^ D - 1` for the storage width `D = digits W` (8, 16, 32 or 64); it is at most
`2 ^ W - 1` when the argument already lies in `0 .. 2 ^ W - 1`, in which case it is stored
unchanged, and `truncate<W>` (which is `mask` after `widen`) is at most `2 ^ W - 1` for
every argument. -/
theorem C2_constructors_storage_bound (W : Nat) (hW1 : 1 ≤ W) (hW64 : W ≤ 64) :
    (∀ arg : Int, (bits.mk W arg).v ≤ 2 ^ digits W - 1) ∧
    (∀ (sz : Nat) (x : bits sz), (widen W x).v ≤ 2 ^ digits W - 1) ∧
    (∀ sx : Int, (bits.of_sbits W sx).v ≤ 2 ^ digits W - 1) ∧
    (∀ arg : Int, 0 ≤ arg → arg ≤ 2 ^ W - 1 →
      ((bits.mk W arg).v : Int) = arg ∧ (bits.mk W arg).v ≤ 2 ^ W - 1) ∧
    (∀ (sz : Nat) (x : bits sz), x.v ≤ 2 ^ W - 1 →
      (widen W x).v = x.v ∧ (widen W x).v ≤ 2 ^ W - 1) ∧
    (∀ sx : Int, 0 ≤ sx → sx ≤ 2 ^ W - 1 →
      ((bits.of_sbits W sx).v : Int) = sx ∧ (bits.of_sbits W sx).v ≤ 2 ^ W - 1) ∧
    (∀ (sz : Nat) (x : bits sz), (truncate W x).v ≤ 2 ^ W - 1) := by
  have h : W ≤ digits W := le_digits (by omega)
  have hD : 0 < digits W := by omega
  have hp := two_pow_le_digits h
  have hp0 : 0 < 2 ^ W := by positivity
  have key : ∀ arg : Int, 0 ≤ arg → arg ≤ 2 ^ W - 1 →
      ((static_cast W arg : Nat) : Int) = arg ∧ static_cast W arg ≤ 2 ^ W - 1 := by
    intro arg h0 h1
    have h2 : arg < (2 : Int) ^ digits W := by
      have : ((2 ^ W : Nat) : Int) ≤ ((2 ^ digits W : Nat) : Int) := by exact_mod_cast hp
      push_cast at this
      omega
    rw [static_cast_of_nonneg_lt W arg h0 h2]
    refine ⟨Int.toNat_of_nonneg h0, ?_⟩
    have h3 : (arg.toNat : Int) ≤ ((2 ^ W - 1 : Nat) : Int) := by
      rw [Int.toNat_of_nonneg h0]
      push_cast [Nat.cast_sub (show 1 ≤ 2 ^ W by omega)]
      exact h1
    exact_mod_cast h3
  refine ⟨?_, ?_, ?_, ?_, ?_, ?_, ?_⟩
  · intro arg
    have := static_cast_lt W arg
    unfold bits.mk
    simp only
    omega
  · intro sz x
    have := static_cast_lt W (x.v : Int)
    unfold widen bits.mk
    simp only
    omega
  · intro sx
    have := of_sbits_lt W sx
    omega
  · intro arg h0 h1
    exact key arg h0 h1
  · intro sz x hx
    rw [widen_v_of_le h x hx]
    exact ⟨rfl, hx⟩
  · intro sx h0 h1
    rw [of_sbits_v hD]
    exact key sx h0 h1
  · intro sz x
    exact mask_le h _

/-- C2 (amended) at `W = 4`. -/
theorem C2_constructors_storage_bound_witness :
    (bits.mk 4 255).v ≤ 2 ^ digits 4 - 1 ∧ (bits.mk 4 9).v ≤ 2 ^ 4 - 1 :=
  have h := C2_constructors_storage_bound 4 (by decide) (by decide)
  ⟨h.1 255, (h.2.2.2.1 9 (by decide) (by decide)).2⟩

/-! ## Packing -/

/-- The number denoted by a sequence of `E`-bit chunks, first chunk most significant. -/
def chunks_value (E : Nat) (l : List (bits E)) : Nat :=
  l.foldl (fun acc x => acc * 2 ^ E + x.v) 0

theorem chunks_foldl_acc (E : Nat) (l : List (bits E)) (c : Nat) :
    l.foldl (fun acc x => acc * 2 ^ E + x.v) c = c * 2 ^ (E * l.length) + chunks_value E l := by
  induction l generalizing c with
  | nil => simp [chunks_value]
  | cons x l ih =>
    unfold chunks_value
    simp only [List.foldl_cons, List.length_cons]
    rw [ih (c * 2 ^ E + x.v), ih (0 * 2 ^ E + x.v)]
    unfold chunks_value
    ring

theorem chunks_value_cons (E : Nat) (x : bits E) (l : List (bits E)) :
    chunks_value E (x :: l) = x.v * 2 ^ (E * l.length) + chunks_value E l := by
  have := chunks_foldl_acc E l (0 * 2 ^ E + x.v)
  unfold chunks_value at *
  simp only [List.foldl_cons]
  rw [this]
  ring

theorem chunks_value_snoc (E : Nat) (l : List (bits E)) (x : bits E) :
    chunks_value E (l ++ [x]) = chunks_value E l * 2 ^ E + x.v := by
  unfold chunks_value
  simp [List.foldl_append]

theorem chunks_value_lt (E : Nat) (l : List (bits E)) (hl : ∀ x ∈ l, x.v ≤ 2 ^ E - 1) :
    chunks_value E l < 2 ^ (E * l.length) := by
  induction l with
  | nil => simp [chunks_value]
  | cons x l ih =>
    rw [chunks_value_cons]
    have h1 := ih (fun y hy => hl y (List.mem_cons_of_mem _ hy))
    have h2 := hl x (List.mem_cons_self _ _)
    have h3 : 0 < 2 ^ E := by positivity
    have h4 : x.v + 1 ≤ 2 ^ E := by omega
    have h5 : (x.v + 1) * 2 ^ (E * l.length) ≤ 2 ^ E * 2 ^ (E * l.length) :=
      Nat.mul_le_mul_right _ h4
    have h6 : 2 ^ (E * (x :: l).length) = 2 ^ E * 2 ^ (E * l.length) := by
      rw [List.length_cons, ← pow_add]
      congr 1
      ring
    rw [h6]
    have h7 : (x.v + 1) * 2 ^ (E * l.length) = x.v * 2 ^ (E * l.length) + 2 ^ (E * l.length) := by
      ring
    omega

theorem shl_v_of_lt {sz : Nat} (h : sz ≤ digits sz) (x : bits sz) (s : Nat)
    (hx : x.v * 2 ^ s < 2 ^ sz) : (shl x s).v = x.v * 2 ^ s := by
  unfold shl
  rw [mask_v h]
  have h0 : ((x.v : Int) * (2 : Int) ^ s) = ((x.v * 2 ^ s : Nat) : Int) := by push_cast; rfl
  rw [h0, mk_natCast_v]
  have h2 := two_pow_le_digits h
  rw [Nat.mod_eq_of_lt (show x.v * 2 ^ s < 2 ^ digits sz by omega), Nat.mod_eq_of_lt hx]

/-- One iteration of the packing loop appends a chunk to the packed value. -/
theorem pack_step_v {E W : Nat} (h : W ≤ digits W) (packed : bits W) (x : bits E)
    (hx : x.v ≤ 2 ^ E - 1) (hp : packed.v * 2 ^ E + x.v < 2 ^ W) :
    (or (shl packed E) (widen W x)).v = packed.v * 2 ^ E + x.v := by
  have h3 : 0 < 2 ^ E := by positivity
  have h4 : x.v < 2 ^ E := by omega
  have h5 : (shl packed E).v = packed.v * 2 ^ E := shl_v_of_lt h packed E (by omega)
  have h6 : (widen W x).v = x.v := widen_v_of_le h x (by omega)
  rw [or_v h _ _ (by omega) (by omega), h5, h6, Nat.mul_comm, Nat.mul_add_lt_is_or h4]

theorem pack_foldl_v {E W : Nat} (h : W ≤ digits W) (l : List (bits E))
    (hl : ∀ x ∈ l, x.v ≤ 2 ^ E - 1) (hW : E * l.length ≤ W) :
    (l.foldl (fun packed elem => or (shl packed E) (widen W elem)) (⟨0⟩ : bits W)).v
      = chunks_value E l := by
  induction l using List.reverseRecOn with
  | nil => simp [chunks_value]
  | append_singleton l x ih =>
    have hl1 : ∀ y ∈ l, y.v ≤ 2 ^ E - 1 := fun y hy => hl y (List.mem_append_left _ hy)
    have hlen : (l ++ [x]).length = l.length + 1 := by simp
    have ih1 := ih hl1 (by rw [hlen] at hW; nlinarith)
    rw [List.foldl_append]
    simp only [List.foldl_cons, List.foldl_nil]
    have hx : x.v ≤ 2 ^ E - 1 := hl x (by simp)
    have hlt := chunks_value_lt E (l ++ [x]) hl
    rw [chunks_value_snoc] at hlt
    have hpow : 2 ^ (E * (l ++ [x]).length) ≤ 2 ^ W :=
      Nat.pow_le_pow_right (by norm_num) hW
    rw [pack_step_v h _ x hx (by rw [ih1]; omega), ih1, chunks_value_snoc]

theorem pack_array_v {E : Nat} (len : Nat) (a : List (bits E)) (hlen : a.length = len)
    (hW : len * E ≤ 1024) (ha : ∀ x ∈ a, x.v ≤ 2 ^ E - 1) :
    (pack_array len a).v = chunks_value E a := by
  unfold pack_array
  exact pack_foldl_v (le_digits hW) a ha (by rw [hlen, Nat.mul_comm])

theorem chunks_value_eq_sum (E : Nat) (l : List (bits E)) :
    chunks_value E l = Finset.sum (Finset.range l.length)
      (fun i => (l.getD i ⟨0⟩).v * 2 ^ (E * (l.length - 1 - i))) := by
  induction l using List.reverseRecOn with
  | nil => simp [chunks_value]
  | append_singleton l x ih =>
    rw [chunks_value_snoc, ih]
    have hlen : (l ++ [x]).length = l.length + 1 := by simp
    rw [hlen, Finset.sum_range_succ, Finset.sum_mul]
    congr 1
    · apply Finset.sum_congr rfl
      intro i hi
      have hi2 : i < l.length := Finset.mem_range.mp hi
      rw [List.getD_append _ _ _ _ hi2, Nat.mul_assoc, ← pow_add]
      congr 2
      have : l.length + 1 - 1 - i = (l.length - 1 - i) + 1 := by omega
      rw [this]
      ring
    · rw [List.getD_append_right _ _ _ _ (le_refl _)]
      simp

/-- C4. Array packing puts element 0 in the most-significant chunk: for an array `a` of
`len` in-range `bits<E>` values, the stored value of `pack(a)` is the sum over `i < len`
of `a[i].v * 2 ^ (E * (len - 1 - i))`; in particular (for `len ≥ 1`) the top `E` bits of
`pack(a)` are `a[0]` and the bottom `E` bits are `a[len - 1]`. -/
theorem C4_pack_array_value (E len : Nat) (a : List (bits E)) (hlen : a.length = len)
    (hW : len * E ≤ 1024) (ha : ∀ x ∈ a, x.v ≤ 2 ^ E - 1) :
    (pack_array len a).v = Finset.sum (Finset.range len)
      (fun i => (a.getD i ⟨0⟩).v * 2 ^ (E * (len - 1 - i))) ∧
    (pack_array len a).v < 2 ^ (E * len) ∧
    (1 ≤ len →
      (pack_array len a).v / 2 ^ (E * (len - 1)) = (a.getD 0 ⟨0⟩).v ∧
      (pack_array len a).v % 2 ^ E = (a.getD (len - 1) ⟨0⟩).v) := by
  rw [pack_array_v len a hlen hW ha]
  subst hlen
  refine ⟨chunks_value_eq_sum E a, chunks_value_lt E a ha, ?_⟩
  intro h1
  have hE : 0 < 2 ^ E := by positivity
  constructor
  · cases a with
    | nil => simp at h1
    | cons x l =>
      rw [chunks_value_cons]
      have hlt := chunks_value_lt E l (fun y hy => ha y (List.mem_cons_of_mem _ hy))
      simp only [List.length_cons, Nat.add_sub_cancel, List.getD_cons_zero]
      have hp : 0 < 2 ^ (E * l.length) := by positivity
      rw [Nat.add_comm, Nat.add_mul_div_right _ _ hp, Nat.div_eq_of_lt hlt, Nat.zero_add]
  · rcases List.eq_nil_or_concat a with hnil | ⟨l, y, hly⟩
    · subst hnil; simp at h1
    · subst hly
      have hy : y.v ≤ 2 ^ E - 1 := ha y (by simp)
      rw [List.concat_eq_append] at *
      rw [chunks_value_snoc]
      have hlen : (l ++ [y]).length - 1 = l.length := by simp
      rw [hlen, List.getD_append_right _ _ _ _ (le_refl _)]
      simp only [Nat.sub_self, List.getD_cons_zero]
      rw [Nat.add_comm, Nat.add_mul_mod_self_right, Nat.mod_eq_of_lt (by omega)]

/-- C4 at the three 4-bit chunks `5, 10, 3`. -/
theorem C4_pack_array_value_witness :
    (pack_array 3 [(⟨5⟩ : bits 4), ⟨10⟩, ⟨3⟩]).v / 2 ^ (4 * (3 - 1)) = 5 ∧
    (pack_array 3 [(⟨5⟩ : bits 4), ⟨10⟩, ⟨3⟩]).v % 2 ^ 4 = 3 :=
  (C4_pack_array_value 4 3 [⟨5⟩, ⟨10⟩, ⟨3⟩] rfl (by decide) (by decide)).2.2 (by decide)

theorem bits_ext {sz : Nat} {x y : bits sz} (h : x.v = y.v) : x = y := by
  cases x; cases y; simp only at h; rw [h]

/-- `truncate<ret_sz>` keeps exactly the low `ret_sz` bits of the stored value. -/
theorem truncate_v {sz ret_sz : Nat} (h : ret_sz ≤ digits ret_sz) (x : bits sz) :
    (truncate ret_sz x).v = x.v % 2 ^ ret_sz := by
  unfold truncate
  rw [mask_v h]
  unfold widen
  rw [mk_natCast_v]
  exact Nat.mod_mod_of_dvd _ (pow_dvd_pow 2 h)

theorem set_replicate_append {T : Type} (n : Nat) (d x : T) (suf : List T) :
    (List.replicate (n + 1) d ++ suf).set n x = List.replicate n d ++ x :: suf := by
  rw [List.replicate_succ', List.append_assoc]
  have hlen : (List.replicate n d).length = n := List.length_replicate _ _
  rw [List.set_append]
  simp [hlen]

/-- State of the unpacking loop after `suf.length` iterations on the packed value of
`pre ++ suf`: the chunks of `suf` have been written, `bs` holds the chunks of `pre`. -/
theorem unpack_loop_state {E : Nat} (len : Nat) (hW : len * E ≤ 1024) (k : Nat) :
    ∀ (pre suf : List (bits E)), suf.length = k → (pre ++ suf).length = len →
      (∀ x ∈ pre ++ suf, x.v ≤ 2 ^ E - 1) →
      (List.range k).foldl (unpack_step E len)
          ((⟨chunks_value E (pre ++ suf)⟩ : bits (len * E)),
            List.replicate len (⟨0⟩ : bits E))
        = ((⟨chunks_value E pre⟩ : bits (len * E)),
            List.replicate pre.length (⟨0⟩ : bits E) ++ suf) := by
  induction k with
  | zero =>
    intro pre suf hk hlen _
    have : suf = [] := List.length_eq_zero.mp hk
    subst this
    simp at hlen
    simp [hlen]
  | succ k ih =>
    intro pre suf hk hlen hall
    cases suf with
    | nil => simp at hk
    | cons x suf =>
      have hk2 : suf.length = k := by simpa using hk
      have happ : pre ++ x :: suf = (pre ++ [x]) ++ suf := by simp
      rw [List.range_succ, List.foldl_append, happ,
        ih (pre ++ [x]) suf hk2 (by rw [← happ]; exact hlen) (by rw [← happ]; exact hall)]
      simp only [List.foldl_cons, List.foldl_nil, unpack_step, unpack_bits]
      have hlen2 : pre.length + (k + 1) = len := by
        rw [← hlen, List.length_append, List.length_cons, hk2]
      have hE : E ≤ 1024 := by
        have : 1 ≤ len := by omega
        nlinarith
      have hx : x.v ≤ 2 ^ E - 1 := hall x (by simp)
      have hE0 : 0 < 2 ^ E := by positivity
      have hidx : len - 1 - k = pre.length := by omega
      have hpre : (pre ++ [x]).length = pre.length + 1 := by simp
      have hlt : chunks_value E (pre ++ [x]) < 2 ^ digits (len * E) := by
        have h1 := chunks_value_lt E (pre ++ [x])
          (fun y hy => hall y (by rw [happ]; exact List.mem_append_left _ hy))
        have h2 : E * (pre ++ [x]).length ≤ len * E := by
          rw [hpre, ← hlen2, Nat.mul_comm]
          exact Nat.mul_le_mul_right _ (by omega)
        have h3 := le_digits hW
        have h4 : 2 ^ (E * (pre ++ [x]).length) ≤ 2 ^ digits (len * E) :=
          Nat.pow_le_pow_right (by norm_num) (le_trans h2 h3)
        omega
      have hs : shr (⟨chunks_value E (pre ++ [x])⟩ : bits (len * E)) E
          = (⟨chunks_value E pre⟩ : bits (len * E)) := by
        apply bits_ext
        rw [shr_v (⟨chunks_value E (pre ++ [x])⟩ : bits (len * E)) E hlt]
        show chunks_value E (pre ++ [x]) / 2 ^ E = chunks_value E pre
        rw [chunks_value_snoc, Nat.add_comm, Nat.add_mul_div_right _ _ hE0,
          Nat.div_eq_of_lt (by omega), Nat.zero_add]
      have ht : truncate E (⟨chunks_value E (pre ++ [x])⟩ : bits (len * E)) = x := by
        apply bits_ext
        rw [truncate_v (le_digits hE) (⟨chunks_value E (pre ++ [x])⟩ : bits (len * E))]
        show chunks_value E (pre ++ [x]) % 2 ^ E = x.v
        rw [chunks_value_snoc, Nat.add_comm, Nat.add_mul_mod_self_right,
          Nat.mod_eq_of_lt (by omega)]
      rw [hs, ht, hidx, hpre, set_replicate_append]

/-- C3. Pack/unpack round trip: for every array `a` of `len` in-range `bits<E>` values,
`unpack<array<bits<E>, len>>(pack(a))` equals `a` element by element; and for every
`bits<W>` value `v`, `unpack<bits<W>>(pack(v))` equals `v`. -/
theorem C3_unpack_pack (E len : Nat) (a : List (bits E)) (hlen : a.length = len)
    (hW : len * E ≤ 1024) (ha : ∀ x ∈ a, x.v ≤ 2 ^ E - 1) :
    unpack_array E len (pack_array len a) = a ∧
    (∀ i : Nat, i < len → (unpack_array E len (pack_array len a)).get? i = a.get? i) ∧
    (∀ (W : Nat) (v : bits W), unpack_bits W (pack_bits v) = v) := by
  have hp : pack_array len a = (⟨chunks_value E a⟩ : bits (len * E)) :=
    bits_ext (pack_array_v len a hlen hW ha)
  have key : unpack_array E len (pack_array len a) = a := by
    unfold unpack_array
    rw [hp]
    have := unpack_loop_state len hW len [] a hlen (by simpa using hlen) (by simpa using ha)
    simp only [List.nil_append] at this
    rw [this]
    simp
  refine ⟨key, ?_, ?_⟩
  · intro i _
    rw [key]
  · intro W v
    rfl

/-- C3 at the three 4-bit chunks `5, 10, 3`. -/
theorem C3_unpack_pack_witness :
    unpack_array 4 3 (pack_array 3 [(⟨5⟩ : bits 4), ⟨10⟩, ⟨3⟩]) = [⟨5⟩, ⟨10⟩, ⟨3⟩] :=
  (C3_unpack_pack 4 3 [⟨5⟩, ⟨10⟩, ⟨3⟩] rfl (by decide) (by decide)).1

end prims

namespace cuttlesim

/-! ## Rule execution -/

/-- A rule function ends in the `FAIL` block or in `COMMIT`, run on a state reached through
its accesses: a property every access preserves holds of that state. -/
theorem exec_reaches {σ T : Type} (m : strategy σ T) (Inv : σ → Prop)
    (hr : ∀ p s, Inv s → Inv (m.read p s).2.2)
    (hw : ∀ p val s, Inv s → Inv (m.write p val s).2) :
    ∀ (body : rule T) (s : σ), Inv s →
      ∃ s1, Inv s1 ∧ (exec m body s = (false, m.FAIL s1) ∨ exec m body s = (true, m.COMMIT s1)) := by
  intro body
  induction body with
  | done => intro s hs; exact ⟨s, hs, Or.inr rfl⟩
  | fail => intro s hs; exact ⟨s, hs, Or.inl rfl⟩
  | read p k ih =>
    intro s hs
    have h1 := hr p s hs
    by_cases hok : (m.read p s).1 = true
    · obtain ⟨s1, hs1, h⟩ := ih (m.read p s).2.1 (m.read p s).2.2 h1
      refine ⟨s1, hs1, ?_⟩
      simpa [exec, hok] using h
    · refine ⟨(m.read p s).2.2, h1, Or.inl ?_⟩
      simp [exec, hok]
  | write p val k ih =>
    intro s hs
    have h1 := hw p val s hs
    by_cases hok : (m.write p val s).1 = true
    · obtain ⟨s1, hs1, h⟩ := ih (m.write p val s).2 h1
      refine ⟨s1, hs1, ?_⟩
      simpa [exec, hok] using h
    · refine ⟨(m.write p val s).2, h1, Or.inl ?_⟩
      simp [exec, hok]

/-- C5. Commit/rollback atomicity: for every committed Log and every rule body made of
READ0/READ1/WRITE0/WRITE1 accesses, if the rule fails (at any access, after any number of
successful ones), the committed Log after the attempt, every register value and every
conflict set, equals the committed Log before the attempt.  This holds for the static
strategy (`FAIL`, reset) and for the dynamic strategies (`FAIL_DL`, `FAIL_DOL`:
`dlog.apply(log, Log)`, in either replay order). -/
theorem C5_rollback_atomicity {T : Type} (body : rule T) :
    (∀ s : sim T, (exec (static_strategy T) body s).1 = false →
      (exec (static_strategy T) body s).2.Log = s.Log) ∧
    (∀ (capacity : Nat) (rev : Bool) (s : sim_DL T capacity),
      (exec (DL_strategy T capacity rev) body s).1 = false →
      (exec (DL_strategy T capacity rev) body s).2.Log = s.Log) ∧
    (∀ (L : layout T) (capacity : Nat) (rev : Bool) (s : sim_DOL capacity),
      (exec (DOL_strategy L capacity rev) body s).1 = false →
      (exec (DOL_strategy L capacity rev) body s).2.Log = s.Log) := by
  refine ⟨?_, ?_, ?_⟩
  · intro s hfail
    obtain ⟨s1, hs1, h | h⟩ := exec_reaches (static_strategy T) (fun s1 => s1.Log = s.Log)
      (fun _ _ h => h) (fun _ _ _ h => h) body s rfl
    · rw [h]; exact hs1
    · rw [h] at hfail; simp at hfail
  · intro capacity rev s hfail
    obtain ⟨s1, hs1, h | h⟩ := exec_reaches (DL_strategy T capacity rev)
      (fun s1 => s1.Log = s.Log) (fun _ _ h => h) (fun _ _ _ h => h) body s rfl
    · rw [h]; exact hs1
    · rw [h] at hfail; simp at hfail
  · intro L capacity rev s hfail
    obtain ⟨s1, hs1, h | h⟩ := exec_reaches (DOL_strategy L capacity rev)
      (fun s1 => s1.Log = s.Log) (fun _ _ h => h) (fun _ _ _ h => h) body s rfl
    · rw [h]; exact hs1
    · rw [h] at hfail; simp at hfail

/-- C5 on a rule that fails at its second access, after a successful `WRITE0`. -/
theorem C5_rollback_atomicity_witness :
    (exec (static_strategy Nat)
        (.write (.WRITE0_reg 0) 1 (.write (.WRITE0_reg 0) 2 .done)) (fresh_sim 0)).1 = false ∧
    (exec (static_strategy Nat)
        (.write (.WRITE0_reg 0) 1 (.write (.WRITE0_reg 0) 2 .done)) (fresh_sim 0)).2.Log
      = (fresh_sim 0).Log :=
  ⟨by decide, (C5_rollback_atomicity
    (.write (.WRITE0_reg 0) 1 (.write (.WRITE0_reg 0) 2 .done))).1 (fresh_sim 0) (by decide)⟩

/-! ## The log of offsets -/

theorem std_memcpy_same (dst src : bytes) (off n a : Nat) :
    std_memcpy dst off src off n a = if off ≤ a ∧ a < off + n then src a else dst a := by
  unfold std_memcpy
  by_cases h : off ≤ a ∧ a < off + n
  · rw [if_pos h, if_pos h]
    congr 1
    omega
  · rw [if_neg h, if_neg h]

theorem copy_offsets_state (o : offsets) (dst src : log_bytes) (a : Nat) :
    (copy_offsets o dst src).state a
      = if covers_state a o then src.state a else dst.state a := by
  simp [copy_offsets, offsets.memcpy, std_memcpy_same, covers_state]

theorem copy_offsets_rwset (o : offsets) (dst src : log_bytes) (a : Nat) :
    (copy_offsets o dst src).rwset a
      = if covers_rwset a o then src.rwset a else dst.rwset a := by
  simp [copy_offsets, offsets.memcpy, std_memcpy_same, covers_rwset]

/-- Copying a list of entries from `src`, in the order of the list: a byte covered by some
entry comes from `src`, every other byte is untouched. -/
theorem foldl_copy_offsets (es : List offsets) (src : log_bytes) (a : Nat) :
    ∀ dst : log_bytes,
      ((es.foldl (fun d e => copy_offsets e d src) dst).state a
        = if es.any (covers_state a) then src.state a else dst.state a) ∧
      ((es.foldl (fun d e => copy_offsets e d src) dst).rwset a
        = if es.any (covers_rwset a) then src.rwset a else dst.rwset a) := by
  induction es with
  | nil => intro dst; simp
  | cons e es ih =>
    intro dst
    simp only [List.foldl_cons, List.any_cons]
    rw [(ih _).1, (ih _).2, copy_offsets_state, copy_offsets_rwset]
    constructor
    · by_cases h1 : covers_state a e = true <;> by_cases h2 : es.any (covers_state a) = true <;>
        simp [h1, h2]
    · by_cases h1 : covers_rwset a e = true <;> by_cases h2 : es.any (covers_rwset a) = true <;>
        simp [h1, h2]

theorem any_reverse_eq {E : Type} (f : E → Bool) (es : List E) :
    es.reverse.any f = es.any f := by
  rw [Bool.eq_iff_iff]
  simp [List.any_eq_true]

/-- The effect of `dlog.apply(dst, src)` on each byte, in either replay order. -/
theorem apply_DOL_bytes {capacity : Nat} (rev : Bool) (dlog : stack offsets capacity)
    (dst src : log_bytes) (a : Nat) :
    ((apply_DOL rev dlog dst src).state a
      = if dlog.entries.any (covers_state a) then src.state a else dst.state a) ∧
    ((apply_DOL rev dlog dst src).rwset a
      = if dlog.entries.any (covers_rwset a) then src.rwset a else dst.rwset a) := by
  unfold apply_DOL replay
  cases rev with
  | false => simpa using foldl_copy_offsets dlog.entries src a dst
  | true =>
    have := foldl_copy_offsets dlog.entries.reverse src a dst
    simpa [any_reverse_eq] using this

theorem entries_push {T : Type} {capacity : Nat} (dlog : stack T capacity) (value : T)
    (h : dlog.sz < dlog.data.length) :
    (dlog.push value).entries = dlog.entries ++ [value] := by
  unfold stack.entries stack.push
  simp only
  apply List.ext_getElem
  · simp [List.length_take]
    omega
  · intro i h1 h2
    simp only [List.length_take, List.length_set] at h1
    by_cases hi : i < dlog.sz
    · rw [List.getElem_append_left (by simp [List.length_take]; omega)]
      simp [List.getElem_take, List.getElem_set, Nat.ne_of_gt hi]
    · have hi2 : i = dlog.sz := by omega
      subst hi2
      rw [List.getElem_append_right (by simp [List.length_take])]
      simp [List.getElem_take, List.getElem_set]

theorem store_frame (m : bytes) (off n : Nat) (bs : List Nat) (a : Nat)
    (h : ¬ (off ≤ a ∧ a < off + n)) : store m off n bs a = m a := by
  unfold store
  rw [if_neg h]

/-- A read access changes no byte of the tentative log outside the fields of its
register. -/
theorem read_access_DOL_frame {T : Type} (L : layout T) (p : read_port) (Log log : log_bytes)
    (a : Nat) :
    (covers_state a (L.offsets_of p.name) = false →
      (read_access_DOL L p Log log).2.2.state a = log.state a) ∧
    (covers_rwset a (L.offsets_of p.name) = false →
      (read_access_DOL L p Log log).2.2.rwset a = log.rwset a) := by
  cases p <;> refine ⟨fun _ => rfl, fun h => ?_⟩ <;>
    first
    | rfl
    | (simp only [covers_rwset, decide_eq_false_iff_not] at h
       exact store_frame _ _ _ _ _ h)

/-- A write access changes no byte of the tentative log outside the fields of its
register. -/
theorem write_access_DOL_frame {T : Type} (L : layout T) (p : write_port) (val : T)
    (log : log_bytes) (a : Nat) :
    (covers_state a (L.offsets_of p.name) = false →
      (write_access_DOL L p val log).2.state a = log.state a) ∧
    (covers_rwset a (L.offsets_of p.name) = false →
      (write_access_DOL L p val log).2.rwset a = log.rwset a) := by
  cases p <;> refine ⟨fun h => ?_, fun h => ?_⟩
  all_goals
    first
    | (simp only [covers_state, decide_eq_false_iff_not] at h
       exact store_frame _ _ _ _ _ h)
    | (simp only [covers_rwset, decide_eq_false_iff_not] at h
       exact store_frame _ _ _ _ _ h)

/-- The invariant of a rule run with the `_DOL` macros from a state whose logs both equal
`L0`: the committed Log is `L0`, and as long as the log of offsets has not overflowed,
every byte of the tentative log that differs from `L0` lies in a pushed entry. -/
def DOL_inv {capacity : Nat} (L0 : log_bytes) (s : sim_DOL capacity) : Prop :=
  s.Log = L0 ∧ s.dlog.data.length = capacity ∧
  (s.dlog.sz ≤ capacity → ∀ a : Nat,
    (s.dlog.entries.any (covers_state a) = false → s.log.state a = L0.state a) ∧
    (s.dlog.entries.any (covers_rwset a) = false → s.log.rwset a = L0.rwset a))

theorem DOL_inv_step {capacity : Nat} (L0 : log_bytes) (s : sim_DOL capacity) (o : offsets)
    (log1 : log_bytes) (hs : DOL_inv L0 s)
    (hframe : ∀ a : Nat, (covers_state a o = false → log1.state a = s.log.state a) ∧
      (covers_rwset a o = false → log1.rwset a = s.log.rwset a)) :
    DOL_inv L0 { s with log := log1, dlog := s.dlog.push o } := by
  obtain ⟨h1, h2, h3⟩ := hs
  refine ⟨h1, ?_, ?_⟩
  · simp [stack.push, h2]
  · intro hsz a
    have hsz1 : s.dlog.sz + 1 ≤ capacity := hsz
    have hent := entries_push s.dlog o (by omega)
    simp only [hent, List.any_append, List.any_cons, List.any_nil, Bool.or_false,
      Bool.or_eq_false_iff]
    constructor
    · rintro ⟨ha, hb⟩
      rw [(hframe a).1 hb]
      exact ((h3 (by omega)) a).1 ha
    · rintro ⟨ha, hb⟩
      rw [(hframe a).2 hb]
      exact ((h3 (by omega)) a).2 ha

theorem DOL_inv_read {T : Type} (L : layout T) (capacity : Nat) (rev : Bool) (L0 : log_bytes)
    (p : read_port) (s : sim_DOL capacity) (hs : DOL_inv L0 s) :
    DOL_inv L0 ((DOL_strategy L capacity rev).read p s).2.2 :=
  DOL_inv_step L0 s (L.offsets_of p.name) _ hs (read_access_DOL_frame L p s.Log s.log)

theorem DOL_inv_write {T : Type} (L : layout T) (capacity : Nat) (rev : Bool) (L0 : log_bytes)
    (p : write_port) (val : T) (s : sim_DOL capacity) (hs : DOL_inv L0 s) :
    DOL_inv L0 ((DOL_strategy L capacity rev).write p val s).2 :=
  DOL_inv_step L0 s (L.offsets_of p.name) _ hs (write_access_DOL_frame L p val s.log)

theorem DOL_inv_init {capacity : Nat} (s : sim_DOL capacity) (hlog : s.log = s.Log)
    (hcap : s.dlog.data.length = capacity) : DOL_inv s.Log s := by
  refine ⟨rfl, hcap, ?_⟩
  intro _ a
  rw [hlog]
  exact ⟨fun _ => rfl, fun _ => rfl⟩

theorem log_bytes_ext {x y : log_bytes} (h1 : ∀ a, x.state a = y.state a)
    (h2 : ∀ a, x.rwset a = y.rwset a) : x = y := by
  cases x; cases y
  simp only [log_bytes.mk.injEq]
  exact ⟨funext h1, funext h2⟩

/-- After `FAIL_DOL` on a state satisfying the invariant the tentative log is `L0`. -/
theorem DOL_fail_restores {capacity : Nat} (rev : Bool) (L0 : log_bytes)
    (s : sim_DOL capacity) (hs : DOL_inv L0 s) (hsz : s.dlog.sz ≤ capacity) :
    apply_DOL rev s.dlog s.log s.Log = L0 := by
  obtain ⟨h1, _, h3⟩ := hs
  apply log_bytes_ext
  · intro a
    rw [(apply_DOL_bytes rev s.dlog s.log s.Log a).1, h1]
    by_cases hc : s.dlog.entries.any (covers_state a) = true
    · rw [if_pos hc]
    · rw [if_neg hc]
      exact ((h3 hsz) a).1 (by simpa using hc)
  · intro a
    rw [(apply_DOL_bytes rev s.dlog s.log s.Log a).2, h1]
    by_cases hc : s.dlog.entries.any (covers_rwset a) = true
    · rw [if_pos hc]
    · rw [if_neg hc]
      exact ((h3 hsz) a).2 (by simpa using hc)

/-- After `COMMIT_DOL` on a state satisfying the invariant the committed Log is the whole
tentative log. -/
theorem DOL_commit_copies {capacity : Nat} (rev : Bool) (L0 : log_bytes)
    (s : sim_DOL capacity) (hs : DOL_inv L0 s) (hsz : s.dlog.sz ≤ capacity) :
    apply_DOL rev s.dlog s.Log s.log = s.log := by
  obtain ⟨h1, _, h3⟩ := hs
  apply log_bytes_ext
  · intro a
    rw [(apply_DOL_bytes rev s.dlog s.Log s.log a).1, h1]
    by_cases hc : s.dlog.entries.any (covers_state a) = true
    · rw [if_pos hc]
    · rw [if_neg hc]
      exact (((h3 hsz) a).1 (by simpa using hc)).symm
  · intro a
    rw [(apply_DOL_bytes rev s.dlog s.Log s.log a).2, h1]
    by_cases hc : s.dlog.entries.any (covers_rwset a) = true
    · rw [if_pos hc]
    · rw [if_neg hc]
      exact (((h3 hsz) a).2 (by simpa using hc)).symm

/-- Two strategies with the same accesses and the same `FAIL` block end a rule on the same
reached state, one in its own `COMMIT`, the other in its own. -/
theorem exec_reaches_pair {σ T : Type} (m m2 : strategy σ T) (Inv : σ → Prop)
    (hread : m2.read = m.read) (hwrite : m2.write = m.write) (hFAIL : m2.FAIL = m.FAIL)
    (hr : ∀ p s, Inv s → Inv (m.read p s).2.2)
    (hw : ∀ p val s, Inv s → Inv (m.write p val s).2) :
    ∀ (body : rule T) (s : σ), Inv s →
      ∃ s1, Inv s1 ∧
        ((exec m body s = (false, m.FAIL s1) ∧ exec m2 body s = (false, m.FAIL s1)) ∨
         (exec m body s = (true, m.COMMIT s1) ∧ exec m2 body s = (true, m2.COMMIT s1))) := by
  intro body
  induction body with
  | done => intro s hs; exact ⟨s, hs, Or.inr ⟨rfl, rfl⟩⟩
  | fail => intro s hs; exact ⟨s, hs, Or.inl ⟨rfl, by simp [exec, hFAIL]⟩⟩
  | read p k ih =>
    intro s hs
    have h1 := hr p s hs
    by_cases hok : (m.read p s).1 = true
    · obtain ⟨s1, hs1, h⟩ := ih (m.read p s).2.1 (m.read p s).2.2 h1
      refine ⟨s1, hs1, ?_⟩
      simpa [exec, hok, hread] using h
    · refine ⟨(m.read p s).2.2, h1, Or.inl ?_⟩
      simp [exec, hok, hread, hFAIL]
  | write p val k ih =>
    intro s hs
    have h1 := hw p val s hs
    by_cases hok : (m.write p val s).1 = true
    · obtain ⟨s1, hs1, h⟩ := ih (m.write p val s).2 h1
      refine ⟨s1, hs1, ?_⟩
      simpa [exec, hok, hwrite] using h
    · refine ⟨(m.write p val s).2, h1, Or.inl ?_⟩
      simp [exec, hok, hwrite, hFAIL]

/-- C6. Dynamic rollback restores the pre-rule state: if the tentative log equals the
committed Log when a rule starts (and the log of offsets has room for the entries pushed),
then, every access pushing its register's `offsets` entry before touching the register,
a failure that replays every pushed entry with `offsets::memcpy(dst = tentative,
src = committed)` leaves the tentative state and conflict sets equal to the committed
ones in every byte, in forward and in reverse replay order, also when a register appears
several times in the log. -/
theorem C6_dynamic_rollback_restores {T : Type} (L : layout T) (capacity : Nat) (rev : Bool)
    (body : rule T) (s : sim_DOL capacity) (hlog : s.log = s.Log)
    (hcap : s.dlog.data.length = capacity)
    (hroom : (exec (DOL_strategy L capacity rev) body s).2.dlog.sz ≤ capacity)
    (hfail : (exec (DOL_strategy L capacity rev) body s).1 = false) :
    (exec (DOL_strategy L capacity rev) body s).2.log = s.Log ∧
    (exec (DOL_strategy L capacity rev) body s).2.Log = s.Log ∧
    (∀ a : Nat,
      (exec (DOL_strategy L capacity rev) body s).2.log.state a
        = (exec (DOL_strategy L capacity rev) body s).2.Log.state a ∧
      (exec (DOL_strategy L capacity rev) body s).2.log.rwset a
        = (exec (DOL_strategy L capacity rev) body s).2.Log.rwset a) := by
  obtain ⟨s1, hs1, h | h⟩ := exec_reaches (DOL_strategy L capacity rev) (DOL_inv s.Log)
    (fun p s0 h0 => DOL_inv_read L capacity rev s.Log p s0 h0)
    (fun p val s0 h0 => DOL_inv_write L capacity rev s.Log p val s0 h0)
    body s (DOL_inv_init s hlog hcap)
  · rw [h] at hroom ⊢
    have hsz : s1.dlog.sz ≤ capacity := hroom
    have hrest := DOL_fail_restores rev s.Log s1 hs1 hsz
    have hL : s1.Log = s.Log := hs1.1
    have e1 : ((DOL_strategy L capacity rev).FAIL s1).log = s.Log := hrest
    have e2 : ((DOL_strategy L capacity rev).FAIL s1).Log = s.Log := hL
    refine ⟨e1, e2, ?_⟩
    intro a
    simp only
    rw [e1, e2]
    exact ⟨rfl, rfl⟩
  · rw [h] at hfail
    simp at hfail

/-- C6 on a rule that writes the same EHR twice through port 0 and fails at the second
write, with reverse replay. -/
theorem C6_dynamic_rollback_restores_witness :
    (exec (DOL_strategy demo_layout 4 true)
        (.write (.WRITE0_ehr 0) 5 (.write (.WRITE0_ehr 0) 6 .done)) (demo_sim_DOL 4)).2.log
      = (demo_sim_DOL 4).Log :=
  (C6_dynamic_rollback_restores demo_layout 4 true
    (.write (.WRITE0_ehr 0) 5 (.write (.WRITE0_ehr 0) 6 .done)) (demo_sim_DOL 4)
    rfl (by decide) (by decide) (by decide)).1

/-- C7. The dynamic and static commit strategies are equivalent: if the tentative log
equals the committed Log when a rule starts (and the log of offsets has room for the
entries pushed), then, every access pushing its register's `offsets` entry before touching
it, on success `COMMIT_DOL` (`dlog.apply(Log, log)`) leaves the committed Log equal to the
whole tentative log; the rule run with `COMMIT_DOL` ends in the same state as the rule run
with a static commit that replaces the committed Log by the tentative log. -/
theorem C7_dynamic_commit_equiv_static {T : Type} (L : layout T) (capacity : Nat) (rev : Bool)
    (body : rule T) (s : sim_DOL capacity) (hlog : s.log = s.Log)
    (hcap : s.dlog.data.length = capacity)
    (hroom : (exec (DOL_strategy L capacity rev) body s).2.dlog.sz ≤ capacity)
    (hok : (exec (DOL_strategy L capacity rev) body s).1 = true) :
    (exec (DOL_strategy L capacity rev) body s).2.Log
      = (exec (DOL_strategy L capacity rev) body s).2.log ∧
    exec (DOL_strategy L capacity rev) body s
      = exec (DOL_static_commit_strategy L capacity rev) body s := by
  obtain ⟨s1, hs1, h | h⟩ := exec_reaches_pair (DOL_strategy L capacity rev)
    (DOL_static_commit_strategy L capacity rev) (DOL_inv s.Log) rfl rfl rfl
    (fun p s0 h0 => DOL_inv_read L capacity rev s.Log p s0 h0)
    (fun p val s0 h0 => DOL_inv_write L capacity rev s.Log p val s0 h0)
    body s (DOL_inv_init s hlog hcap)
  · rw [h.1] at hok
    simp at hok
  · rw [h.1] at hroom ⊢
    rw [h.2]
    have hsz : s1.dlog.sz ≤ capacity := hroom
    have hcopy := DOL_commit_copies false s.Log s1 hs1 hsz
    have e1 : ((DOL_strategy L capacity rev).COMMIT s1).Log = s1.log := hcopy
    have e2 : ((DOL_strategy L capacity rev).COMMIT s1).log = s1.log := rfl
    refine ⟨by simp only; rw [e1, e2], ?_⟩
    congr 1
    show ({ s1 with Log := apply_DOL false s1.dlog s1.Log s1.log } : sim_DOL capacity)
      = { s1 with Log := s1.log }
    rw [hcopy]

/-- C7 on a rule that writes an EHR through port 0, reads it through port 1 and writes it
through port 1. -/
theorem C7_dynamic_commit_equiv_static_witness :
    (exec (DOL_strategy demo_layout 4 false)
        (.write (.WRITE0_ehr 0) 5 (.read (.READ1_ehr 0) (fun v => .write (.WRITE1_ehr 0) (v + 1)
          .done))) (demo_sim_DOL 4)).2.Log
      = (exec (DOL_strategy demo_layout 4 false)
        (.write (.WRITE0_ehr 0) 5 (.read (.READ1_ehr 0) (fun v => .write (.WRITE1_ehr 0) (v + 1)
          .done))) (demo_sim_DOL 4)).2.log :=
  (C7_dynamic_commit_equiv_static demo_layout 4 false
    (.write (.WRITE0_ehr 0) 5 (.read (.READ1_ehr 0) (fun v => .write (.WRITE1_ehr 0) (v + 1)
      .done))) (demo_sim_DOL 4) rfl (by decide) (by decide) (by decide)).1

/-! ## Conflict sets -/

/-- C8. Starting from a fresh EHR conflict set (default-constructed or just `reset()`, all
flags false), the accesses read0, write0, read1, write1 performed in that order on the same
register all return success: as calls of the four access functions, as the accesses of one
rule, and as the accesses of four rules run one after the other. -/
theorem C8_ehr_port_order {T : Type} (s : sim T) (r : Nat) (v0 v1 : T)
    (hL : s.Log.rwset.ehr r = ehr_rwset.init) (hl : s.log.rwset.ehr r = ehr_rwset.init) :
    (∀ x : ehr_rwset, x.reset = ehr_rwset.init) ∧
    (∀ rL rl : T,
      (read0 rL ehr_rwset.init ehr_rwset.init).1 = true ∧
      (write0 rl v0 ehr_rwset.init).1 = true ∧
      (read1 (write0 rl v0 ehr_rwset.init).2.1 (write0 rl v0 ehr_rwset.init).2.2
        ehr_rwset.init).1 = true ∧
      (write1 (write0 rl v0 ehr_rwset.init).2.1 v1
        (read1 (write0 rl v0 ehr_rwset.init).2.1 (write0 rl v0 ehr_rwset.init).2.2
          ehr_rwset.init).2.2).1 = true) ∧
    (exec (static_strategy T)
      (.read (.READ0_ehr r) (fun _ => .write (.WRITE0_ehr r) v0
        (.read (.READ1_ehr r) (fun _ => .write (.WRITE1_ehr r) v1 .done)))) s).1 = true ∧
    ((exec (static_strategy T) (.read (.READ0_ehr r) (fun _ => .done)) s).1 = true ∧
     (exec (static_strategy T) (.write (.WRITE0_ehr r) v0 .done)
        (exec (static_strategy T) (.read (.READ0_ehr r) (fun _ => .done)) s).2).1 = true ∧
     (exec (static_strategy T) (.read (.READ1_ehr r) (fun _ => .done))
        (exec (static_strategy T) (.write (.WRITE0_ehr r) v0 .done)
          (exec (static_strategy T) (.read (.READ0_ehr r) (fun _ => .done)) s).2).2).1 = true ∧
     (exec (static_strategy T) (.write (.WRITE1_ehr r) v1 .done)
        (exec (static_strategy T) (.read (.READ1_ehr r) (fun _ => .done))
          (exec (static_strategy T) (.write (.WRITE0_ehr r) v0 .done)
            (exec (static_strategy T) (.read (.READ0_ehr r) (fun _ => .done)) s).2).2).2).1
        = true) := by
  refine ⟨fun _ => rfl, fun _ _ => ⟨rfl, rfl, rfl, rfl⟩, ?_, ?_⟩
  · simp [exec, static_strategy, read_access, write_access, read0, read1, write0, write1,
      has_read0.may_read0, has_read1.may_read1, has_write0.may_write0, has_write1.may_write1,
      has_read1.set_r1, has_write0.set_w0, has_write1.set_w1, hL, hl, ehr_rwset.init,
      ehr_rwset.may_read0, ehr_rwset.may_read1, ehr_rwset.may_write0, ehr_rwset.may_write1]
  · simp [exec, static_strategy, read_access, write_access, read0, read1, write0, write1,
      has_read0.may_read0, has_read1.may_read1, has_write0.may_write0, has_write1.may_write1,
      has_read1.set_r1, has_write0.set_w0, has_write1.set_w1, hL, hl, ehr_rwset.init,
      ehr_rwset.may_read0, ehr_rwset.may_read1, ehr_rwset.may_write0, ehr_rwset.may_write1,
      commit_rule]

/-- C8 on a simulator at the start of a cycle. -/
theorem C8_ehr_port_order_witness :
    (exec (static_strategy Nat)
      (.read (.READ0_ehr 0) (fun _ => .write (.WRITE0_ehr 0) 1
        (.read (.READ1_ehr 0) (fun _ => .write (.WRITE1_ehr 0) 2 .done)))) (fresh_sim 0)).1
      = true :=
  (C8_ehr_port_order (fresh_sim 0) 0 1 2 rfl rfl).2.2.1

/-- C9. Write legality follows the table for every register kind, given the flags recorded
by earlier accesses: on a plain register write0 succeeds iff `w0` is not set; on a wire
write0 succeeds iff neither `r1` nor `w0` is set; on an EHR write0 succeeds iff none of
`r1`, `w0`, `w1` is set and write1 succeeds iff `w1` is not set.  Consequently, on an EHR
a write0 after a write1 fails and the second of two write1 accesses fails. -/
theorem C9_write_legality {T : Type} (rl val : T) :
    (∀ rwl : reg_rwset, (write0 rl val rwl).1 = true ↔ rwl.w0 = false) ∧
    (∀ rwl : wire_rwset, (write0 rl val rwl).1 = true ↔ (rwl.r1 = false ∧ rwl.w0 = false)) ∧
    (∀ rwl : ehr_rwset, (write0 rl val rwl).1 = true ↔
      (rwl.r1 = false ∧ rwl.w0 = false ∧ rwl.w1 = false)) ∧
    (∀ rwl : ehr_rwset, (write1 rl val rwl).1 = true ↔ rwl.w1 = false) ∧
    (∀ (rwl : ehr_rwset) (val2 : T),
      (write0 (write1 rl val rwl).2.1 val2 (write1 rl val rwl).2.2).1 = false) ∧
    (∀ (rwl : ehr_rwset) (val2 : T),
      (write1 (write1 rl val rwl).2.1 val2 (write1 rl val rwl).2.2).1 = false) ∧
    (∀ (p : write_port) (log : log_t T),
      (write_access p val log).1 = true ↔
        match p with
        | .WRITE0_reg r => (log.rwset.reg r).w0 = false
        | .WRITE0_wire r => (log.rwset.wire r).r1 = false ∧ (log.rwset.wire r).w0 = false
        | .WRITE0_ehr r => (log.rwset.ehr r).r1 = false ∧ (log.rwset.ehr r).w0 = false ∧
            (log.rwset.ehr r).w1 = false
        | .WRITE1_ehr r => (log.rwset.ehr r).w1 = false) := by
  refine ⟨?_, ?_, ?_, ?_, ?_, ?_, ?_⟩
  · intro rwl
    simp [write0, has_write0.may_write0, reg_rwset.may_write0]
  · intro rwl
    simp [write0, has_write0.may_write0, wire_rwset.may_write0]
  · intro rwl
    simp [write0, has_write0.may_write0, ehr_rwset.may_write0, and_assoc]
  · intro rwl
    simp [write1, has_write1.may_write1, ehr_rwset.may_write1]
  · intro rwl val2
    simp [write0, write1, has_write0.may_write0, has_write1.set_w1, ehr_rwset.may_write0]
  · intro rwl val2
    simp [write1, has_write1.may_write1, has_write1.set_w1, ehr_rwset.may_write1]
  · intro p log
    cases p <;>
      simp [write_access, write0, write1, has_write0.may_write0, has_write1.may_write1,
        reg_rwset.may_write0, wire_rwset.may_write0, ehr_rwset.may_write0,
        ehr_rwset.may_write1, and_assoc]

/-- C10, as stated, fails for a read0 in the same rule as the write0: on a simulator
at the start of a cycle, the read0 that follows a write0 on the same EHR inside one rule
returns success, and so does the rule made of these two accesses. -/
theorem C10_read0_after_write0_same_rule_counterexample :
    (read0 (0 : Nat) (write0 (0 : Nat) 1 ehr_rwset.init).2.2 ehr_rwset.init).1 = true ∧
    (exec (static_strategy Nat)
      (.write (.WRITE0_ehr 0) 1 (.read (.READ0_ehr 0) (fun _ => .done))) (fresh_sim 0)).1
      = true := by
  decide

/-- C10, amended: on an EHR whose conflict sets are fresh at the start of the cycle, once a
write0 has been performed and its rule has committed, a read0 of that register by a later
rule in the same cycle returns failure.  The legality of read0 is decided by the committed
conflict set alone (`w0` and `w1` unset there), so a read0 in the same rule as the write0,
where only the tentative conflict set records `w0`, succeeds. -/
theorem C10_read0_after_committed_write0 {T : Type} (s : sim T) (r : Nat) (v : T)
    (hL : s.Log.rwset.ehr r = ehr_rwset.init) (hl : s.log.rwset.ehr r = ehr_rwset.init) :
    (exec (static_strategy T) (.write (.WRITE0_ehr r) v .done) s).1 = true ∧
    (∀ k : T → rule T,
      (exec (static_strategy T) (.read (.READ0_ehr r) k)
        (exec (static_strategy T) (.write (.WRITE0_ehr r) v .done) s).2).1 = false) ∧
    (∀ (rL : T) (rwl rwL : ehr_rwset),
      (read0 rL rwl rwL).1 = true ↔ (rwL.w0 = false ∧ rwL.w1 = false)) ∧
    (exec (static_strategy T)
      (.write (.WRITE0_ehr r) v (.read (.READ0_ehr r) (fun _ => .done))) s).1 = true := by
  refine ⟨?_, ?_, ?_, ?_⟩
  · simp [exec, static_strategy, write_access, write0, has_write0.may_write0, hl,
      ehr_rwset.init, ehr_rwset.may_write0]
  · intro k
    simp [exec, static_strategy, read_access, write_access, read0, write0,
      has_read0.may_read0, has_write0.may_write0, has_write0.set_w0, hl, ehr_rwset.init,
      ehr_rwset.may_read0, ehr_rwset.may_write0, commit_rule]
  · intro rL rwl rwL
    simp [read0, has_read0.may_read0, ehr_rwset.may_read0, and_comm]
  · simp [exec, static_strategy, read_access, write_access, read0, write0,
      has_read0.may_read0, has_write0.may_write0, has_write0.set_w0, hL, hl, ehr_rwset.init,
      ehr_rwset.may_read0, ehr_rwset.may_write0]

/-- C10 (amended) on a simulator at the start of a cycle. -/
theorem C10_read0_after_committed_write0_witness :
    (exec (static_strategy Nat) (.read (.READ0_ehr 0) (fun _ => .done))
      (exec (static_strategy Nat) (.write (.WRITE0_ehr 0) 1 .done) (fresh_sim 0)).2).1
      = false :=
  (C10_read0_after_committed_write0 (fresh_sim 0) 0 1 rfl rfl).2.1 (fun _ => .done)

/-- C11, as stated, fails for a read1 in the same rule as the write1: on a simulator at
the start of a cycle, the read1 that follows a write1 on the same EHR inside one rule
returns success although the tentative conflict set has `w1` set, and so does the rule
made of these two accesses. -/
theorem C11_read1_after_write1_same_rule_counterexample :
    (write1 (0 : Nat) 1 ehr_rwset.init).2.2.w1 = true ∧
    (read1 (1 : Nat) (write1 (0 : Nat) 1 ehr_rwset.init).2.2 ehr_rwset.init).1 = true ∧
    (exec (static_strategy Nat)
      (.write (.WRITE1_ehr 0) 1 (.read (.READ1_ehr 0) (fun _ => .done))) (fresh_sim 0)).1
      = true := by
  decide

/-- C11, amended: EHR read1 returns success iff write1 has not occurred on that register
this cycle as recorded in the register's committed conflict set (flag `w1` unset in
`Log.rwset.reg`); the tentative conflict set plays no part.  On an EHR whose conflict sets
are fresh, a read1 by a rule that runs after a rule that performed write1 and committed
fails, and a read1 that follows a write1 inside the same rule succeeds. -/
theorem C11_read1_legality_committed {T : Type} (s : sim T) (r : Nat) (v : T)
    (hL : s.Log.rwset.ehr r = ehr_rwset.init) (hl : s.log.rwset.ehr r = ehr_rwset.init) :
    (∀ (rl : T) (rwl rwL : ehr_rwset), (read1 rl rwl rwL).1 = true ↔ rwL.w1 = false) ∧
    (∀ (Log log : log_t T) (r2 : Nat),
      (read_access (.READ1_ehr r2) Log log).1 = true ↔ (Log.rwset.ehr r2).w1 = false) ∧
    (exec (static_strategy T) (.write (.WRITE1_ehr r) v .done) s).1 = true ∧
    (∀ k : T → rule T,
      (exec (static_strategy T) (.read (.READ1_ehr r) k)
        (exec (static_strategy T) (.write (.WRITE1_ehr r) v .done) s).2).1 = false) ∧
    (exec (static_strategy T)
      (.write (.WRITE1_ehr r) v (.read (.READ1_ehr r) (fun _ => .done))) s).1 = true := by
  refine ⟨?_, ?_, ?_, ?_, ?_⟩
  · intro rl rwl rwL
    simp [read1, has_read1.may_read1, ehr_rwset.may_read1]
  · intro Log log r2
    simp [read_access, read1, has_read1.may_read1, ehr_rwset.may_read1]
  · simp [exec, static_strategy, write_access, write1, has_write1.may_write1, hl,
      ehr_rwset.init, ehr_rwset.may_write1]
  · intro k
    simp [exec, static_strategy, read_access, write_access, read1, write1,
      has_read1.may_read1, has_write1.may_write1, has_write1.set_w1, hl, ehr_rwset.init,
      ehr_rwset.may_read1, ehr_rwset.may_write1, commit_rule]
  · simp [exec, static_strategy, read_access, write_access, read1, write1,
      has_read1.may_read1, has_write1.may_write1, has_write1.set_w1, hL, hl, ehr_rwset.init,
      ehr_rwset.may_read1, ehr_rwset.may_write1]

/-- C11 (amended) on a simulator at the start of a cycle. -/
theorem C11_read1_legality_committed_witness :
    (exec (static_strategy Nat) (.read (.READ1_ehr 0) (fun _ => .done))
      (exec (static_strategy Nat) (.write (.WRITE1_ehr 0) 1 .done) (fresh_sim 0)).2).1
      = false :=
  (C11_read1_legality_committed (fresh_sim 0) 0 1 rfl rfl).2.2.2.1 (fun _ => .done)

/-- C12. On a wire register, read1 returns success in every conflict state (fresh, after a
write0, after earlier read1s); a write0 performed after a read1 in the same cycle fails,
in the same rule and in a later rule after the reader committed; and a write0 on a fresh
conflict set succeeds. -/
theorem C12_wire_legality {T : Type} (s : sim T) (r : Nat) (v : T)
    (hl : s.log.rwset.wire r = wire_rwset.init) :
    (∀ (rl : T) (rwl rwL : wire_rwset), (read1 rl rwl rwL).1 = true) ∧
    (∀ (Log log : log_t T) (r2 : Nat), (read_access (.READ1_wire r2) Log log).1 = true) ∧
    (∀ (rl rl2 val : T) (rwl rwL : wire_rwset),
      (write0 rl2 val (read1 rl rwl rwL).2.2).1 = false) ∧
    (∀ (s2 : sim T) (r2 : Nat) (val : T) (k : rule T),
      (exec (static_strategy T) (.read (.READ1_wire r2) (fun _ => .write (.WRITE0_wire r2) val k))
        s2).1 = false) ∧
    (∀ (s2 : sim T) (r2 : Nat) (val : T) (k : rule T),
      (exec (static_strategy T) (.read (.READ1_wire r2) (fun _ => .done)) s2).1 = true ∧
      (exec (static_strategy T) (.write (.WRITE0_wire r2) val k)
        (exec (static_strategy T) (.read (.READ1_wire r2) (fun _ => .done)) s2).2).1 = false) ∧
    (∀ rl : T, (write0 rl v wire_rwset.init).1 = true ∧
      (∀ x : wire_rwset, (write0 rl v x.reset).1 = true)) ∧
    (exec (static_strategy T) (.write (.WRITE0_wire r) v .done) s).1 = true := by
  refine ⟨?_, ?_, ?_, ?_, ?_, ?_, ?_⟩
  · intro rl rwl rwL
    rfl
  · intro Log log r2
    rfl
  · intro rl rl2 val rwl rwL
    simp [write0, read1, has_write0.may_write0, has_read1.set_r1, wire_rwset.may_write0]
  · intro s2 r2 val k
    simp [exec, static_strategy, read_access, write_access, read1, write0,
      has_read1.may_read1, has_read1.set_r1, has_write0.may_write0, wire_rwset.may_read1,
      wire_rwset.may_write0]
  · intro s2 r2 val k
    simp [exec, static_strategy, read_access, write_access, read1, write0,
      has_read1.may_read1, has_read1.set_r1, has_write0.may_write0, wire_rwset.may_read1,
      wire_rwset.may_write0, commit_rule]
  · intro rl
    exact ⟨rfl, fun _ => rfl⟩
  · simp [exec, static_strategy, write_access, write0, has_write0.may_write0, hl,
      wire_rwset.init, wire_rwset.may_write0]

/-- C12 on a simulator at the start of a cycle. -/
theorem C12_wire_legality_witness :
    (exec (static_strategy Nat) (.write (.WRITE0_wire 0) 1 .done) (fresh_sim 0)).1 = true :=
  (C12_wire_legality (fresh_sim 0) 0 1 rfl).2.2.2.2.2.2

/-- C13, as stated, fails: a read of a plain register after an earlier rule of the same
cycle has committed a write0 to it returns failure; so does `read0` on a fresh tentative
conflict set when the committed one has `w0` set. -/
theorem C13_plain_read_after_committed_write0_counterexample :
    (read0 (0 : Nat) reg_rwset.init ({ w0 := true } : reg_rwset)).1 = false ∧
    (exec (static_strategy Nat) (.write (.WRITE0_reg 0) 1 .done) (fresh_sim 0)).1 = true ∧
    (exec (static_strategy Nat) (.read (.READ0_reg 0) (fun _ => .done))
      (exec (static_strategy Nat) (.write (.WRITE0_reg 0) 1 .done) (fresh_sim 0)).2).1
      = false := by
  decide

/-- C13, amended: a read of a plain register (read0 on a `reg_rwset`) sets no conflict flag
and its legality does not depend on the tentative conflict set; it returns success iff
`w0` is unset in the committed conflict set.  So it succeeds as long as no write0 to the
register has committed this cycle (also after a write0 earlier in the same rule), and it
returns failure after an earlier rule in the same cycle has committed a write0 to it. -/
theorem C13_plain_read_legality {T : Type} (s : sim T) (r : Nat) (v : T)
    (hL : s.Log.rwset.reg r = reg_rwset.init) (hl : s.log.rwset.reg r = reg_rwset.init) :
    (∀ (rL : T) (rwl rwL : reg_rwset), (read0 rL rwl rwL).1 = true ↔ rwL.w0 = false) ∧
    (∀ (Log log : log_t T) (r2 : Nat),
      ((read_access (.READ0_reg r2) Log log).1 = true ↔ (Log.rwset.reg r2).w0 = false) ∧
      (read_access (.READ0_reg r2) Log log).2.2 = log) ∧
    (exec (static_strategy T)
      (.write (.WRITE0_reg r) v (.read (.READ0_reg r) (fun _ => .done))) s).1 = true ∧
    (exec (static_strategy T) (.write (.WRITE0_reg r) v .done) s).1 = true ∧
    (∀ k : T → rule T,
      (exec (static_strategy T) (.read (.READ0_reg r) k)
        (exec (static_strategy T) (.write (.WRITE0_reg r) v .done) s).2).1 = false) := by
  refine ⟨?_, ?_, ?_, ?_, ?_⟩
  · intro rL rwl rwL
    simp [read0, has_read0.may_read0, reg_rwset.may_read0]
  · intro Log log r2
    refine ⟨?_, rfl⟩
    simp [read_access, read0, has_read0.may_read0, reg_rwset.may_read0]
  · simp [exec, static_strategy, read_access, write_access, read0, write0,
      has_read0.may_read0, has_write0.may_write0, has_write0.set_w0, hL, hl, reg_rwset.init,
      reg_rwset.may_read0, reg_rwset.may_write0]
  · simp [exec, static_strategy, write_access, write0, has_write0.may_write0, hl,
      reg_rwset.init, reg_rwset.may_write0]
  · intro k
    simp [exec, static_strategy, read_access, write_access, read0, write0,
      has_read0.may_read0, has_write0.may_write0, has_write0.set_w0, hl, reg_rwset.init,
      reg_rwset.may_read0, reg_rwset.may_write0, commit_rule]

/-- C13 (amended) on a simulator at the start of a cycle. -/
theorem C13_plain_read_legality_witness :
    (exec (static_strategy Nat)
      (.write (.WRITE0_reg 0) 1 (.read (.READ0_reg 0) (fun _ => .done))) (fresh_sim 0)).1
      = true :=
  (C13_plain_read_legality (fresh_sim 0) 0 1 rfl rfl).2.2.1

/-- A rule run with the static macros that returns `false` leaves both logs equal to the
committed Log it started from. -/
theorem static_exec_fail {T : Type} (body : rule T) (s : sim T)
    (h : (exec (static_strategy T) body s).1 = false) :
    (exec (static_strategy T) body s).2 = { Log := s.Log, log := s.Log } := by
  obtain ⟨s1, hs1, h1 | h1⟩ := exec_reaches (static_strategy T) (fun s1 => s1.Log = s.Log)
    (fun _ _ h => h) (fun _ _ _ h => h) body s rfl
  · rw [h1]
    show ({ s1 with log := s1.Log } : sim T) = _
    rw [hs1]
  · rw [h1] at h
    simp at h

/-- C14, as stated, fails: a failing write0 or write1 has stored its value and set its
flag, a failing read1 has set `r1`.  On an EHR with `r1` set a write0 of 7 over the value
0 returns failure, yet the value is 7 and `w0` is set; on a plain register holding 1 after
a first write0, a second write0 of 7 returns failure and leaves 7 in the tentative log. -/
theorem C14_failing_access_mutates_counterexample :
    write0 (0 : Nat) 7 ({ r1 := true, w0 := false, w1 := false } : ehr_rwset)
      = (false, 7, { r1 := true, w0 := true, w1 := false }) ∧
    write1 (0 : Nat) 7 ({ r1 := false, w0 := false, w1 := true } : ehr_rwset)
      = (false, 7, { r1 := false, w0 := false, w1 := true }) ∧
    read1 (0 : Nat) ({ r1 := false, w0 := false, w1 := false } : ehr_rwset)
        ({ r1 := false, w0 := false, w1 := true } : ehr_rwset)
      = (false, 0, { r1 := true, w0 := false, w1 := false }) ∧
    (write_access (.WRITE0_reg 0) 1 (fresh_log (0 : Nat))).2.state (.reg 0) = 1 ∧
    (write_access (.WRITE0_reg 0) 7
      (write_access (.WRITE0_reg 0) 1 (fresh_log (0 : Nat))).2).1 = false ∧
    (write_access (.WRITE0_reg 0) 7
      (write_access (.WRITE0_reg 0) 1 (fresh_log (0 : Nat))).2).2.state (.reg 0) = 7 := by
  decide

/-- C14, amended: an illegal read0 mutates nothing (read0 never assigns to the tentative
log).  write0 and write1 store the value and set their port flag, and read1 sets `r1`,
whether or not they return success; what undoes the mutation of a failing access is the
`FAIL` block of the access macro: after it the tentative register values and conflict sets
equal the committed ones (the state at the start of the rule), and the rule returns
`false`. -/
theorem C14_failing_access_undone_by_fail {T : Type} (s : sim T) :
    (∀ (Log log : log_t T) (r : Nat),
      (read_access (.READ0_reg r) Log log).2.2 = log ∧
      (read_access (.READ0_ehr r) Log log).2.2 = log) ∧
    (∀ (rl val : T),
      (∀ rwl : reg_rwset, (write0 rl val rwl).2.1 = val ∧ (write0 rl val rwl).2.2.w0 = true) ∧
      (∀ rwl : wire_rwset, (write0 rl val rwl).2.1 = val ∧ (write0 rl val rwl).2.2.w0 = true) ∧
      (∀ rwl : ehr_rwset, (write0 rl val rwl).2.1 = val ∧ (write0 rl val rwl).2.2.w0 = true) ∧
      (∀ rwl : ehr_rwset, (write1 rl val rwl).2.1 = val ∧ (write1 rl val rwl).2.2.w1 = true) ∧
      (∀ rwl rwL : wire_rwset, (read1 rl rwl rwL).2.2.r1 = true) ∧
      (∀ rwl rwL : ehr_rwset, (read1 rl rwl rwL).2.2.r1 = true)) ∧
    (∀ (p : write_port) (val : T) (log : log_t T),
      (write_access p val log).2.state p.name = val) ∧
    (∀ (p : write_port) (val : T) (k : rule T), (write_access p val s.log).1 = false →
      exec (static_strategy T) (.write p val k) s = (false, { Log := s.Log, log := s.Log })) ∧
    (∀ (p : read_port) (k : T → rule T), (read_access p s.Log s.log).1 = false →
      exec (static_strategy T) (.read p k) s = (false, { Log := s.Log, log := s.Log })) := by
  refine ⟨fun _ _ _ => ⟨rfl, rfl⟩, ?_, ?_, ?_, ?_⟩
  · intro rl val
    exact ⟨fun _ => ⟨rfl, rfl⟩, fun _ => ⟨rfl, rfl⟩, fun _ => ⟨rfl, rfl⟩, fun _ => ⟨rfl, rfl⟩,
      fun _ _ => rfl, fun _ _ => rfl⟩
  · intro p val log
    cases p <;> simp [write_access, write_port.name, write0, write1]
  · intro p val k h
    have h1 : (exec (static_strategy T) (.write p val k) s).1 = false := by
      simp [exec, static_strategy, h]
    have h2 := static_exec_fail (.write p val k) s h1
    exact Prod.ext h1 h2
  · intro p k h
    have h1 : (exec (static_strategy T) (.read p k) s).1 = false := by
      simp [exec, static_strategy, h]
    have h2 := static_exec_fail (.read p k) s h1
    exact Prod.ext h1 h2

/-! ## Forwarding within a cycle -/

/-- The EHR `r` of a log holds `v`, written through port 0 and not overwritten through
port 1: `w0` is set and `w1` is not. -/
def forwarded {T : Type} (r : Nat) (v : T) (L : log_t T) : Prop :=
  L.state (.ehr r) = v ∧ (L.rwset.ehr r).w0 = true ∧ (L.rwset.ehr r).w1 = false

theorem forwarded_read {T : Type} (r : Nat) (v : T) (p : read_port) (Log log : log_t T)
    (h : forwarded r v log) : forwarded r v (read_access p Log log).2.2 := by
  obtain ⟨h1, h2, h3⟩ := h
  cases p with
  | READ0_reg r2 => exact ⟨h1, h2, h3⟩
  | READ0_ehr r2 => exact ⟨h1, h2, h3⟩
  | READ1_wire r2 => exact ⟨h1, h2, h3⟩
  | READ1_ehr r2 =>
    refine ⟨h1, ?_, ?_⟩
    · by_cases hr : r = r2
      · subst hr
        simp [read_access, read1, has_read1.set_r1, h2]
      · simp [read_access, read1, has_read1.set_r1, Function.update, hr, h2]
    · by_cases hr : r = r2
      · subst hr
        simp [read_access, read1, has_read1.set_r1, h3]
      · simp [read_access, read1, has_read1.set_r1, Function.update, hr, h3]

theorem forwarded_write {T : Type} (r : Nat) (v : T) (p : write_port) (val : T)
    (log : log_t T) (hp : p ≠ .WRITE1_ehr r) (h : forwarded r v log)
    (hok : (write_access p val log).1 = true) : forwarded r v (write_access p val log).2 := by
  obtain ⟨h1, h2, h3⟩ := h
  cases p with
  | WRITE0_reg r2 =>
    refine ⟨?_, h2, h3⟩
    simp [write_access, Function.update, h1]
  | WRITE0_wire r2 =>
    refine ⟨?_, h2, h3⟩
    simp [write_access, Function.update, h1]
  | WRITE0_ehr r2 =>
    by_cases hr : r = r2
    · subst hr
      simp [write_access, write0, has_write0.may_write0, ehr_rwset.may_write0, h2] at hok
    · have hr2 : ¬ (reg_name_t.ehr r = reg_name_t.ehr r2) := by
        intro he
        exact hr (reg_name_t.ehr.inj he)
      refine ⟨?_, ?_, ?_⟩
      · simp [write_access, Function.update, hr2, h1]
      · simp [write_access, Function.update, hr, h2]
      · simp [write_access, Function.update, hr, h3]
  | WRITE1_ehr r2 =>
    have hr : ¬ (r = r2) := by
      intro he
      exact hp (by rw [he])
    have hr2 : ¬ (reg_name_t.ehr r = reg_name_t.ehr r2) := by
      intro he
      exact hr (reg_name_t.ehr.inj he)
    refine ⟨?_, ?_, ?_⟩
    · simp [write_access, Function.update, hr2, h1]
    · simp [write_access, Function.update, hr, h2]
    · simp [write_access, Function.update, hr, h3]

/-- A rule without `WRITE1` on `r` that starts with the forwarded value in its tentative log
and commits leaves the forwarded value in both logs. -/
theorem static_exec_commit_forwarded {T : Type} (r : Nat) (v : T) :
    ∀ (body : rule T) (s : sim T), no_write1 r body → forwarded r v s.log →
      (exec (static_strategy T) body s).1 = true →
      forwarded r v (exec (static_strategy T) body s).2.Log ∧
      forwarded r v (exec (static_strategy T) body s).2.log := by
  intro body
  induction body with
  | done =>
    intro s _ hl _
    exact ⟨hl, hl⟩
  | fail =>
    intro s _ _ hok
    simp [exec] at hok
  | read p k ih =>
    intro s hb hl hok
    by_cases hacc : (read_access p s.Log s.log).1 = true
    · have hstep : exec (static_strategy T) (.read p k) s
          = exec (static_strategy T) (k (read_access p s.Log s.log).2.1)
              { s with log := (read_access p s.Log s.log).2.2 } := by
        simp [exec, static_strategy, hacc]
      rw [hstep] at hok ⊢
      exact ih _ _ (hb _) (forwarded_read r v p s.Log s.log hl) hok
    · simp [exec, static_strategy, hacc] at hok
  | write p val k ih =>
    intro s hb hl hok
    by_cases hacc : (write_access p val s.log).1 = true
    · have hstep : exec (static_strategy T) (.write p val k) s
          = exec (static_strategy T) k { s with log := (write_access p val s.log).2 } := by
        simp [exec, static_strategy, hacc]
      rw [hstep] at hok ⊢
      exact ih _ hb.2 (forwarded_write r v p val s.log hb.1 hl hacc) hok
    · simp [exec, static_strategy, hacc] at hok

theorem static_exec_forwarded {T : Type} (r : Nat) (v : T) (body : rule T) (s : sim T)
    (hb : no_write1 r body) (hL : forwarded r v s.Log) (hl : forwarded r v s.log) :
    forwarded r v (exec (static_strategy T) body s).2.Log ∧
    forwarded r v (exec (static_strategy T) body s).2.log := by
  by_cases hok : (exec (static_strategy T) body s).1 = true
  · exact static_exec_commit_forwarded r v body s hb hl hok
  · rw [static_exec_fail body s (by simpa using hok)]
    exact ⟨hL, hL⟩

theorem run_rules_forwarded {T : Type} (r : Nat) (v : T) :
    ∀ (mid : List (rule T)) (s : sim T), (∀ m ∈ mid, no_write1 r m) →
      forwarded r v s.Log → forwarded r v s.log →
      forwarded r v (run_rules (static_strategy T) mid s).Log ∧
      forwarded r v (run_rules (static_strategy T) mid s).log := by
  intro mid
  induction mid with
  | nil => intro s _ hL hl; exact ⟨hL, hl⟩
  | cons m mid ih =>
    intro s hm hL hl
    have h1 := static_exec_forwarded r v m s (hm m (List.mem_cons_self _ _)) hL hl
    exact ih _ (fun m2 h2 => hm m2 (List.mem_cons_of_mem _ h2)) h1.1 h1.2

theorem read1_forwarded {T : Type} (r : Nat) (v : T) (s : sim T)
    (hL : forwarded r v s.Log) (hl : forwarded r v s.log) :
    (read_access (.READ1_ehr r) s.Log s.log).1 = true ∧
    (read_access (.READ1_ehr r) s.Log s.log).2.1 = v ∧
    (∀ kB : T → rule T, exec (static_strategy T) (.read (.READ1_ehr r) kB) s
      = exec (static_strategy T) (kB v)
          { s with log := (read_access (.READ1_ehr r) s.Log s.log).2.2 }) := by
  have h1 : (read_access (.READ1_ehr r) s.Log s.log).1 = true := by
    simp [read_access, read1, has_read1.may_read1, ehr_rwset.may_read1, hL.2.2]
  have h2 : (read_access (.READ1_ehr r) s.Log s.log).2.1 = v := hl.1
  refine ⟨h1, h2, ?_⟩
  intro kB
  simp only [exec, static_strategy, h1, if_true, h2]

theorem forwarded_after_write0 {T : Type} (r : Nat) (v : T) (log : log_t T)
    (hok : (write_access (.WRITE0_ehr r) v log).1 = true) :
    forwarded r v (write_access (.WRITE0_ehr r) v log).2 := by
  have hw1 : (log.rwset.ehr r).w1 = false := by
    simp [write_access, write0, has_write0.may_write0, ehr_rwset.may_write0] at hok
    exact hok.2
  refine ⟨?_, ?_, ?_⟩
  · simp [write_access, write0]
  · simp [write_access, write0, has_write0.set_w0]
  · simp [write_access, write0, has_write0.set_w0, hw1]

theorem is_write1_false_ne {T : Type} (r : Nat) (p : write_port) (val : T)
    (h : (access.write p val).is_write1 r = false) : p ≠ .WRITE1_ehr r := by
  intro hp
  subst hp
  simp [access.is_write1] at h

/-- A rule that starts with the forwarded value in its tentative log, performs no `WRITE1`
on `r` and commits leaves the forwarded value in both logs. -/
theorem events_commit_forwarded {T : Type} (r : Nat) (v : T) :
    ∀ (body : rule T) (s : sim T),
      (∀ e ∈ events (static_strategy T) body s, e.acc.is_write1 r = false) →
      forwarded r v s.log → (exec (static_strategy T) body s).1 = true →
      forwarded r v (exec (static_strategy T) body s).2.Log ∧
      forwarded r v (exec (static_strategy T) body s).2.log := by
  intro body
  induction body with
  | done =>
    intro s _ hl _
    exact ⟨hl, hl⟩
  | fail =>
    intro s _ _ hok
    simp [exec] at hok
  | read p k ih =>
    intro s hev hl hok
    by_cases hacc : (read_access p s.Log s.log).1 = true
    · have hstep : exec (static_strategy T) (.read p k) s
          = exec (static_strategy T) (k (read_access p s.Log s.log).2.1)
              { s with log := (read_access p s.Log s.log).2.2 } := by
        simp [exec, static_strategy, hacc]
      have hevs : ∀ e ∈ events (static_strategy T) (k (read_access p s.Log s.log).2.1)
          { s with log := (read_access p s.Log s.log).2.2 }, e.acc.is_write1 r = false := by
        intro e he
        apply hev e
        simp only [events, static_strategy, hacc, if_true]
        exact List.mem_cons_of_mem _ he
      rw [hstep] at hok ⊢
      exact ih _ _ hevs (forwarded_read r v p s.Log s.log hl) hok
    · simp [exec, static_strategy, hacc] at hok
  | write p val k ih =>
    intro s hev hl hok
    by_cases hacc : (write_access p val s.log).1 = true
    · have hstep : exec (static_strategy T) (.write p val k) s
          = exec (static_strategy T) k { s with log := (write_access p val s.log).2 } := by
        simp [exec, static_strategy, hacc]
      have hhead : p ≠ .WRITE1_ehr r := by
        apply is_write1_false_ne r p val
        apply hev ⟨.write p val, (write_access p val s.log).1, none⟩
        simp only [events, static_strategy]
        exact List.mem_cons_self _ _
      have hevs : ∀ e ∈ events (static_strategy T) k
          { s with log := (write_access p val s.log).2 }, e.acc.is_write1 r = false := by
        intro e he
        apply hev e
        simp only [events, static_strategy, hacc, if_true]
        exact List.mem_cons_of_mem _ he
      rw [hstep] at hok ⊢
      exact ih _ hevs (forwarded_write r v p val s.log hhead hl hacc) hok
    · simp [exec, static_strategy, hacc] at hok

/-- A rule that performs a `WRITE0` of `v` on `r`, performs no `WRITE1` on `r` and commits
leaves the forwarded value in both logs. -/
theorem events_writer_forwarded {T : Type} (r : Nat) (v : T) :
    ∀ (body : rule T) (s : sim T),
      (∃ e ∈ events (static_strategy T) body s, e.acc = .write (.WRITE0_ehr r) v) →
      (∀ e ∈ events (static_strategy T) body s, e.acc.is_write1 r = false) →
      (exec (static_strategy T) body s).1 = true →
      forwarded r v (exec (static_strategy T) body s).2.Log ∧
      forwarded r v (exec (static_strategy T) body s).2.log := by
  intro body
  induction body with
  | done =>
    intro s hex _ _
    obtain ⟨e, he, _⟩ := hex
    simp [events] at he
  | fail =>
    intro s _ _ hok
    simp [exec] at hok
  | read p k ih =>
    intro s hex hev hok
    by_cases hacc : (read_access p s.Log s.log).1 = true
    · have hstep : exec (static_strategy T) (.read p k) s
          = exec (static_strategy T) (k (read_access p s.Log s.log).2.1)
              { s with log := (read_access p s.Log s.log).2.2 } := by
        simp [exec, static_strategy, hacc]
      have hevents : events (static_strategy T) (.read p k) s
          = ⟨.read p, true, some (read_access p s.Log s.log).2.1⟩ ::
            events (static_strategy T) (k (read_access p s.Log s.log).2.1)
              { s with log := (read_access p s.Log s.log).2.2 } := by
        simp only [events, static_strategy, hacc, if_true]
      rw [hevents] at hex hev
      rw [hstep] at hok ⊢
      obtain ⟨e, he, hacc2⟩ := hex
      rcases List.mem_cons.mp he with h1 | h1
      · rw [h1] at hacc2
        simp at hacc2
      · exact ih _ _ ⟨e, h1, hacc2⟩ (fun e2 h2 => hev e2 (List.mem_cons_of_mem _ h2)) hok
    · simp [exec, static_strategy, hacc] at hok
  | write p val k ih =>
    intro s hex hev hok
    by_cases hacc : (write_access p val s.log).1 = true
    · have hstep : exec (static_strategy T) (.write p val k) s
          = exec (static_strategy T) k { s with log := (write_access p val s.log).2 } := by
        simp [exec, static_strategy, hacc]
      have hevents : events (static_strategy T) (.write p val k) s
          = ⟨.write p val, true, none⟩ ::
            events (static_strategy T) k { s with log := (write_access p val s.log).2 } := by
        simp only [events, static_strategy, hacc, if_true]
      rw [hevents] at hex hev
      rw [hstep] at hok ⊢
      have htail : ∀ e2 ∈ events (static_strategy T) k
          { s with log := (write_access p val s.log).2 }, e2.acc.is_write1 r = false :=
        fun e2 h2 => hev e2 (List.mem_cons_of_mem _ h2)
      obtain ⟨e, he, hacc2⟩ := hex
      rcases List.mem_cons.mp he with h1 | h1
      · rw [h1] at hacc2
        simp only [access.write.injEq] at hacc2
        obtain ⟨hp, hval⟩ := hacc2
        subst hp
        subst hval
        exact events_commit_forwarded r val k _ htail
          (forwarded_after_write0 r val s.log hacc) hok
      · exact ih _ ⟨e, h1, hacc2⟩ htail hok
    · simp [exec, static_strategy, hacc] at hok

/-- Rules in between that do not perform a `WRITE1` on `r` and commit keep the forwarded
value in both logs. -/
theorem run_rules_events_forwarded {T : Type} (r : Nat) (v : T) :
    ∀ (mid : List (rule T)) (s : sim T), no_committed_write1 r mid s →
      forwarded r v s.Log → forwarded r v s.log →
      forwarded r v (run_rules (static_strategy T) mid s).Log ∧
      forwarded r v (run_rules (static_strategy T) mid s).log := by
  intro mid
  induction mid with
  | nil => intro s _ hL hl; exact ⟨hL, hl⟩
  | cons m mid ih =>
    intro s hm hL hl
    obtain ⟨hm1, hm2⟩ := hm
    have h1 : forwarded r v (exec (static_strategy T) m s).2.Log ∧
        forwarded r v (exec (static_strategy T) m s).2.log := by
      by_cases hok : (exec (static_strategy T) m s).1 = true
      · exact events_commit_forwarded r v m s (hm1 hok) hl hok
      · rw [static_exec_fail m s (by simpa using hok)]
        exact ⟨hL, hL⟩
    exact ih _ hm2 h1.1 h1.2

/-- In a running rule that starts with the forwarded value in its tentative log and no
committed `w1` on `r`, every `READ1` on `r` performed before a `WRITE1` on `r` succeeds
and reads the forwarded value. -/
theorem events_reader_forwarded {T : Type} (r : Nat) (v : T) :
    ∀ (body : rule T) (s : sim T), (s.Log.rwset.ehr r).w1 = false → forwarded r v s.log →
      ∀ (pre : List (event T)) (e : event T) (post : List (event T)),
        events (static_strategy T) body s = pre ++ e :: post →
        e.acc = .read (.READ1_ehr r) →
        (∀ e2 ∈ pre, e2.acc.is_write1 r = false) →
        e.ok = true ∧ e.val = some v := by
  intro body
  induction body with
  | done =>
    intro s _ _ pre e post hev _ _
    simp [events] at hev
  | fail =>
    intro s _ _ pre e post hev _ _
    simp [events] at hev
  | read p k ih =>
    intro s hL hl pre e post hev hacc hpre
    simp only [events, static_strategy] at hev
    cases pre with
    | nil =>
      simp only [List.nil_append, List.cons.injEq] at hev
      obtain ⟨he, _⟩ := hev
      rw [← he] at hacc ⊢
      simp only [access.read.injEq] at hacc
      subst hacc
      have h1 : (read_access (.READ1_ehr r) s.Log s.log).1 = true := by
        simp [read_access, read1, has_read1.may_read1, ehr_rwset.may_read1, hL]
      have h2 : (read_access (.READ1_ehr r) s.Log s.log).2.1 = v := hl.1
      exact ⟨h1, by rw [h2]⟩
    | cons e0 pre2 =>
      simp only [List.cons_append, List.cons.injEq] at hev
      obtain ⟨_, hrest⟩ := hev
      by_cases hok : (read_access p s.Log s.log).1 = true
      · rw [if_pos hok] at hrest
        exact ih _ { s with log := (read_access p s.Log s.log).2.2 } hL
          (forwarded_read r v p s.Log s.log hl) pre2 e post hrest hacc
          (fun e2 h2 => hpre e2 (List.mem_cons_of_mem _ h2))
      · rw [if_neg hok] at hrest
        simp at hrest
  | write p val k ih =>
    intro s hL hl pre e post hev hacc hpre
    simp only [events, static_strategy] at hev
    cases pre with
    | nil =>
      simp only [List.nil_append, List.cons.injEq] at hev
      obtain ⟨he, _⟩ := hev
      rw [← he] at hacc
      simp at hacc
    | cons e0 pre2 =>
      simp only [List.cons_append, List.cons.injEq] at hev
      obtain ⟨he0, hrest⟩ := hev
      by_cases hok : (write_access p val s.log).1 = true
      · rw [if_pos hok] at hrest
        have hhead : p ≠ .WRITE1_ehr r := by
          apply is_write1_false_ne r p val
          have := hpre e0 (List.mem_cons_self _ _)
          rw [← he0] at this
          exact this
        exact ih { s with log := (write_access p val s.log).2 } hL
          (forwarded_write r v p val s.log hhead hl hok) pre2 e post hrest hacc
          (fun e2 h2 => hpre e2 (List.mem_cons_of_mem _ h2))
      · rw [if_neg hok] at hrest
        simp at hrest

/-- C15, as stated, fails: from a simulator at the start of a cycle, (1) the rule READ0,
WRITE0 1, READ1, WRITE1 2 on the EHR 0 performs write0(r, 1) and commits, and a READ1 by a
later rule fails; (2) after the rule WRITE0 5 has committed and a rule in between has
committed a WRITE1 9, a READ1 by a later rule fails; (3) after the rule WRITE0 5 has
committed, a later rule that does WRITE1 9 and then READ1 reads 9. -/
theorem C15_forwarding_port0_counterexample :
    (exec (static_strategy Nat)
      (.read (.READ0_ehr 0) (fun _ => .write (.WRITE0_ehr 0) 1
        (.read (.READ1_ehr 0) (fun _ => .write (.WRITE1_ehr 0) 2 .done))))
      (fresh_sim 0)).1 = true ∧
    events (static_strategy Nat) (.read (.READ1_ehr 0) (fun _ => .done))
      (exec (static_strategy Nat)
        (.read (.READ0_ehr 0) (fun _ => .write (.WRITE0_ehr 0) 1
          (.read (.READ1_ehr 0) (fun _ => .write (.WRITE1_ehr 0) 2 .done))))
        (fresh_sim 0)).2
      = [⟨.read (.READ1_ehr 0), false, some 2⟩] ∧
    (exec (static_strategy Nat) (.read (.READ1_ehr 0) (fun _ => .done))
      (exec (static_strategy Nat)
        (.read (.READ0_ehr 0) (fun _ => .write (.WRITE0_ehr 0) 1
          (.read (.READ1_ehr 0) (fun _ => .write (.WRITE1_ehr 0) 2 .done))))
        (fresh_sim 0)).2).1 = false ∧
    (exec (static_strategy Nat) (.write (.WRITE0_ehr 0) 5 .done) (fresh_sim 0)).1 = true ∧
    (exec (static_strategy Nat) (.write (.WRITE1_ehr 0) 9 .done)
      (exec (static_strategy Nat) (.write (.WRITE0_ehr 0) 5 .done) (fresh_sim 0)).2).1
      = true ∧
    events (static_strategy Nat) (.read (.READ1_ehr 0) (fun _ => .done))
      (run_rules (static_strategy Nat) [.write (.WRITE1_ehr 0) 9 .done]
        (exec (static_strategy Nat) (.write (.WRITE0_ehr 0) 5 .done) (fresh_sim 0)).2)
      = [⟨.read (.READ1_ehr 0), false, some 9⟩] ∧
    events (static_strategy Nat)
      (.write (.WRITE1_ehr 0) 9 (.read (.READ1_ehr 0) (fun _ => .done)))
      (exec (static_strategy Nat) (.write (.WRITE0_ehr 0) 5 .done) (fresh_sim 0)).2
      = [⟨.write (.WRITE1_ehr 0) 9, true, none⟩, ⟨.read (.READ1_ehr 0), true, some 9⟩] := by
  refine ⟨by decide, by decide, by decide, by decide, by decide, by decide, by decide⟩

/-- C15, amended. Same-cycle forwarding through port 0: if a rule performs write0(r, v) on
an EHR `r`, performs no write1 on `r`, and commits, and no rule run between it and the
reader performs a write1 on `r` and commits, then every read1 on `r` that a rule later in
priority order performs before a write1 on `r` of its own succeeds, and the value it reads
is `v`; in particular a read1 on `r` as the later rule's first access does.  With a fresh
tentative conflict set for `r`, the rule made of the write0 alone commits. -/
theorem C15_forwarding_port0 {T : Type} (r : Nat) (v : T) (s : sim T) (writer : rule T)
    (mid : List (rule T))
    (hcommit : (exec (static_strategy T) writer s).1 = true)
    (hw0 : ∃ e ∈ events (static_strategy T) writer s, e.acc = .write (.WRITE0_ehr r) v)
    (hw1 : ∀ e ∈ events (static_strategy T) writer s, e.acc.is_write1 r = false)
    (hmid : no_committed_write1 r mid (exec (static_strategy T) writer s).2) :
    (∀ (reader : rule T) (pre : List (event T)) (e : event T) (post : List (event T)),
      events (static_strategy T) reader
          (run_rules (static_strategy T) mid (exec (static_strategy T) writer s).2)
        = pre ++ e :: post →
      e.acc = .read (.READ1_ehr r) →
      (∀ e2 ∈ pre, e2.acc.is_write1 r = false) →
      e.ok = true ∧ e.val = some v) ∧
    (read_access (.READ1_ehr r)
      (run_rules (static_strategy T) mid (exec (static_strategy T) writer s).2).Log
      (run_rules (static_strategy T) mid (exec (static_strategy T) writer s).2).log).1
      = true ∧
    (read_access (.READ1_ehr r)
      (run_rules (static_strategy T) mid (exec (static_strategy T) writer s).2).Log
      (run_rules (static_strategy T) mid (exec (static_strategy T) writer s).2).log).2.1
      = v ∧
    (s.log.rwset.ehr r = ehr_rwset.init →
      (exec (static_strategy T) (.write (.WRITE0_ehr r) v .done) s).1 = true) := by
  have h1 := events_writer_forwarded r v writer s hw0 hw1 hcommit
  have h2 := run_rules_events_forwarded r v mid _ hmid h1.1 h1.2
  have h3 := read1_forwarded r v _ h2.1 h2.2
  refine ⟨?_, h3.1, h3.2.1, ?_⟩
  · intro reader pre e post hev hacc hpre
    exact events_reader_forwarded r v reader _ h2.1.2.2 h2.2 pre e post hev hacc hpre
  · intro hl
    simp [exec, static_strategy, write_access, write0, has_write0.may_write0, hl,
      ehr_rwset.init, ehr_rwset.may_write0]

/-- C15 on a simulator at the start of a cycle: the writer READ0, WRITE0 5, READ1 commits,
a rule in between does WRITE1 9 and aborts, and a later rule's first READ1 delivers 5. -/
theorem C15_forwarding_port0_witness :
    (read_access (.READ1_ehr 0)
      (run_rules (static_strategy Nat) [.write (.WRITE1_ehr 0) 9 .fail]
        (exec (static_strategy Nat)
          (.read (.READ0_ehr 0) (fun _ => .write (.WRITE0_ehr 0) 5
            (.read (.READ1_ehr 0) (fun _ => .done))))
          (fresh_sim 0)).2).Log
      (run_rules (static_strategy Nat) [.write (.WRITE1_ehr 0) 9 .fail]
        (exec (static_strategy Nat)
          (.read (.READ0_ehr 0) (fun _ => .write (.WRITE0_ehr 0) 5
            (.read (.READ1_ehr 0) (fun _ => .done))))
          (fresh_sim 0)).2).log).2.1 = 5 :=
  (C15_forwarding_port0 0 5 (fresh_sim 0)
    (.read (.READ0_ehr 0) (fun _ => .write (.WRITE0_ehr 0) 5
      (.read (.READ1_ehr 0) (fun _ => .done))))
    [.write (.WRITE1_ehr 0) 9 .fail]
    (by decide)
    ⟨⟨.write (.WRITE0_ehr 0) 5, true, none⟩, by decide, rfl⟩
    (by decide)
    ⟨fun h => absurd h (by decide), trivial⟩).2.2.1

/-- As long as neither `w0` nor `w1` of the EHR `r` is set in a log, the log holds `v0`
for `r`. -/
def start_value {T : Type} (r : Nat) (v0 : T) (L : log_t T) : Prop :=
  ((L.rwset.ehr r).w0 = false ∧ (L.rwset.ehr r).w1 = false) → L.state (.ehr r) = v0

theorem start_value_read {T : Type} (r : Nat) (v0 : T) (p : read_port) (Log log : log_t T)
    (h : start_value r v0 log) : start_value r v0 (read_access p Log log).2.2 := by
  cases p with
  | READ0_reg r2 => exact h
  | READ0_ehr r2 => exact h
  | READ1_wire r2 => exact h
  | READ1_ehr r2 =>
    intro hf
    apply h
    by_cases hr : r = r2
    · subst hr
      simpa [read_access, read1, has_read1.set_r1] using hf
    · simpa [read_access, read1, has_read1.set_r1, Function.update, hr] using hf

theorem start_value_write {T : Type} (r : Nat) (v0 : T) (p : write_port) (val : T)
    (log : log_t T) (h : start_value r v0 log) :
    start_value r v0 (write_access p val log).2 := by
  cases p with
  | WRITE0_reg r2 =>
    intro hf
    have := h hf
    simpa [write_access, Function.update] using this
  | WRITE0_wire r2 =>
    intro hf
    have := h hf
    simpa [write_access, Function.update] using this
  | WRITE0_ehr r2 =>
    intro hf
    by_cases hr : r = r2
    · subst hr
      simp [write_access, write0, has_write0.set_w0] at hf
    · have hr2 : ¬ (reg_name_t.ehr r = reg_name_t.ehr r2) := fun he =>
        hr (reg_name_t.ehr.inj he)
      have hf2 : (log.rwset.ehr r).w0 = false ∧ (log.rwset.ehr r).w1 = false := by
        simpa [write_access, Function.update, hr] using hf
      have := h hf2
      simpa [write_access, Function.update, hr2] using this
  | WRITE1_ehr r2 =>
    intro hf
    by_cases hr : r = r2
    · subst hr
      simp [write_access, write1, has_write1.set_w1] at hf
    · have hr2 : ¬ (reg_name_t.ehr r = reg_name_t.ehr r2) := fun he =>
        hr (reg_name_t.ehr.inj he)
      have hf2 : (log.rwset.ehr r).w0 = false ∧ (log.rwset.ehr r).w1 = false := by
        simpa [write_access, Function.update, hr] using hf
      have := h hf2
      simpa [write_access, Function.update, hr2] using this

theorem static_exec_start_value {T : Type} (r : Nat) (v0 : T) (body : rule T) (s : sim T)
    (hL : start_value r v0 s.Log) (hl : start_value r v0 s.log) :
    start_value r v0 (exec (static_strategy T) body s).2.Log ∧
    start_value r v0 (exec (static_strategy T) body s).2.log := by
  obtain ⟨s1, hs1, h | h⟩ := exec_reaches (static_strategy T)
    (fun s1 => start_value r v0 s1.Log ∧ start_value r v0 s1.log)
    (fun p s1 h1 => ⟨h1.1, start_value_read r v0 p s1.Log s1.log h1.2⟩)
    (fun p val s1 h1 => ⟨h1.1, start_value_write r v0 p val s1.log h1.2⟩) body s ⟨hL, hl⟩
  · rw [h]
    exact ⟨hs1.1, hs1.1⟩
  · rw [h]
    exact ⟨hs1.2, hs1.2⟩

theorem run_rules_start_value {T : Type} (r : Nat) (v0 : T) :
    ∀ (rules : List (rule T)) (s : sim T), start_value r v0 s.Log → start_value r v0 s.log →
      start_value r v0 (run_rules (static_strategy T) rules s).Log ∧
      start_value r v0 (run_rules (static_strategy T) rules s).log := by
  intro rules
  induction rules with
  | nil => intro s hL hl; exact ⟨hL, hl⟩
  | cons m rules ih =>
    intro s hL hl
    have h1 := static_exec_start_value r v0 m s hL hl
    exact ih _ h1.1 h1.2

theorem read0_exec_step {T : Type} (r : Nat) (Log log2 : log_t T) (k : T → rule T)
    (hok : (read_access (.READ0_ehr r) Log log2).1 = true) :
    exec (static_strategy T) (.read (.READ0_ehr r) k) { Log := Log, log := log2 }
      = exec (static_strategy T) (k (read_access (.READ0_ehr r) Log log2).2.1)
          { Log := Log, log := log2 } := by
  have h1 : ((static_strategy T).read (.READ0_ehr r) { Log := Log, log := log2 }).1 = true :=
    hok
  rw [exec]
  simp only [h1, if_true]
  rfl

/-- C17. Whenever a read0 on an EHR succeeds, the value it delivers is the value the
register held at the start of the current cycle, for every sequence of committed and
aborted rules that ran earlier in the cycle (at the start of the cycle the tentative log
is a copy of the committed one, of which only the value of the register is used; commit
copies the rule's tentative values and flags into the committed Log).  `log2` is the
tentative log at the time of the read0, whatever the current rule has done to it so far:
the accesses of the current rule do not change the committed Log. -/
theorem C17_read0_start_of_cycle_value {T : Type} (rules : List (rule T)) (s0 : sim T)
    (r : Nat) (hst : s0.log.state (.ehr r) = s0.Log.state (.ehr r)) (log2 : log_t T)
    (hok : (read_access (.READ0_ehr r)
      (run_rules (static_strategy T) rules s0).Log log2).1 = true) :
    (read_access (.READ0_ehr r) (run_rules (static_strategy T) rules s0).Log log2).2.1
      = s0.Log.state (.ehr r) ∧
    (∀ k : T → rule T,
      exec (static_strategy T) (.read (.READ0_ehr r) k)
          { Log := (run_rules (static_strategy T) rules s0).Log, log := log2 }
        = exec (static_strategy T) (k (s0.Log.state (.ehr r)))
          { Log := (run_rules (static_strategy T) rules s0).Log, log := log2 }) := by
  have h0L : start_value r (s0.Log.state (.ehr r)) s0.Log := fun _ => rfl
  have h0l : start_value r (s0.Log.state (.ehr r)) s0.log := fun _ => hst
  have hinv := (run_rules_start_value r (s0.Log.state (.ehr r)) rules s0 h0L h0l).1
  have hflags : ((run_rules (static_strategy T) rules s0).Log.rwset.ehr r).w0 = false ∧
      ((run_rules (static_strategy T) rules s0).Log.rwset.ehr r).w1 = false := by
    simp [read_access, read0, has_read0.may_read0, ehr_rwset.may_read0] at hok
    exact ⟨hok.2, hok.1⟩
  have hval : (read_access (.READ0_ehr r)
      (run_rules (static_strategy T) rules s0).Log log2).2.1 = s0.Log.state (.ehr r) :=
    hinv hflags
  refine ⟨hval, ?_⟩
  intro k
  rw [← hval]
  exact read0_exec_step r _ log2 k hok

/-- C17 after a rule that wrote the EHR through port 0 and then failed at a second write0:
the aborted rule has no effect and the next read0 delivers the start value 0. -/
theorem C17_read0_start_of_cycle_value_witness :
    (read_access (.READ0_ehr 0)
      (run_rules (static_strategy Nat)
        [.write (.WRITE0_ehr 0) 5 (.write (.WRITE0_ehr 0) 6 .done)] (fresh_sim 0)).Log
      (fresh_log 0)).2.1 = (fresh_sim (0 : Nat)).Log.state (.ehr 0) :=
  (C17_read0_start_of_cycle_value
    [.write (.WRITE0_ehr 0) 5 (.write (.WRITE0_ehr 0) 6 .done)] (fresh_sim 0) 0 rfl
    (fresh_log 0) (by decide)).1

/-! ## End to end -/

/-- One cycle of the two rules of the end-to-end example, from any state: rule A commits
its write of 1, rule B fails at its read (the committed conflict set has `w0`) and is
discarded. -/
theorem toggle_cycle (r : Nat) (s : sim (prims.bits 1)) :
    (cycle [toggle_rule_A r, toggle_rule_B r] s).Log.state (.reg r) = ⟨1⟩ ∧
    (exec (static_strategy (prims.bits 1)) (toggle_rule_A r) (cycle_start s)).1 = true ∧
    (exec (static_strategy (prims.bits 1)) (toggle_rule_B r)
      (exec (static_strategy (prims.bits 1)) (toggle_rule_A r) (cycle_start s)).2).1
      = false := by
  refine ⟨?_, ?_, ?_⟩ <;>
    simp [cycle, run_rules, cycle_start, reset_rwsets, toggle_rule_A, toggle_rule_B, exec,
      static_strategy, read_access, write_access, read0, write0, has_read0.may_read0,
      has_write0.may_write0, has_write0.set_w0, reg_rwset.may_read0, reg_rwset.may_write0,
      reg_rwset.reset, commit_rule, reset_rule]

/-- C18. End to end: for a 1-bit plain register initialised to 0 and two rules in priority
order, rule A writing 1 via write0 unconditionally and rule B reading the register and
writing its complement via write0, the committed value after one cycle is 1 (the
complement of the pre-cycle value 0), and after 1000 cycles, indeed after every `n ≥ 1`
cycles, it is still 1.  (In every cycle rule A commits and rule B aborts.) -/
theorem C18_toggle_end_to_end (s : sim (prims.bits 1)) (r : Nat)
    (h0 : s.Log.state (.reg r) = ⟨0⟩) :
    (run [toggle_rule_A r, toggle_rule_B r] 1 s).Log.state (.reg r) = ⟨1⟩ ∧
    (run [toggle_rule_A r, toggle_rule_B r] 1 s).Log.state (.reg r)
      = prims.not (s.Log.state (.reg r)) ∧
    (run [toggle_rule_A r, toggle_rule_B r] 1000 s).Log.state (.reg r) = ⟨1⟩ ∧
    (∀ n : Nat, 1 ≤ n →
      (run [toggle_rule_A r, toggle_rule_B r] n s).Log.state (.reg r) = ⟨1⟩) ∧
    (∀ n : Nat,
      (exec (static_strategy (prims.bits 1)) (toggle_rule_A r)
        (cycle_start (run [toggle_rule_A r, toggle_rule_B r] n s))).1 = true ∧
      (exec (static_strategy (prims.bits 1)) (toggle_rule_B r)
        (exec (static_strategy (prims.bits 1)) (toggle_rule_A r)
          (cycle_start (run [toggle_rule_A r, toggle_rule_B r] n s))).2).1 = false) := by
  have hn : ∀ n : Nat, 1 ≤ n →
      (run [toggle_rule_A r, toggle_rule_B r] n s).Log.state (.reg r) = ⟨1⟩ := by
    intro n hn1
    obtain ⟨m, rfl⟩ : ∃ m, n = m + 1 := ⟨n - 1, by omega⟩
    unfold run
    rw [Function.iterate_succ_apply']
    exact (toggle_cycle r _).1
  refine ⟨hn 1 (le_refl _), ?_, hn 1000 (by norm_num), hn, ?_⟩
  · rw [hn 1 (le_refl _), h0]
    decide
  · intro n
    exact (toggle_cycle r _).2

/-- C18 on a simulator whose registers all hold 0. -/
theorem C18_toggle_end_to_end_witness :
    (run [toggle_rule_A 0, toggle_rule_B 0] 1000 (fresh_sim ⟨0⟩)).Log.state (.reg 0) = ⟨1⟩ :=
  (C18_toggle_end_to_end (fresh_sim ⟨0⟩) 0 rfl).2.2.1

end cuttlesim

namespace prims

/-! ## Addition and subtraction -/

/-- The stored value of `x + y`, for any stored operands. -/
theorem add_v {W : Nat} (h : W ≤ digits W) (x y : bits W) :
    (add x y).v = (x.v + y.v) % 2 ^ W := by
  unfold add
  rw [mask_v h]
  have h0 : ((x.v : Int) + (y.v : Int)) = ((x.v + y.v : Nat) : Int) := by push_cast; rfl
  rw [h0, mk_natCast_v]
  exact Nat.mod_mod_of_dvd _ (pow_dvd_pow 2 h)

/-- C19. Addition wraps around with no overflow signal: for every width `1 ≤ W ≤ 64` and
all in-range `x`, `y` of width `W`, the stored value of `x + y` equals
`(x.v + y.v) mod 2 ^ W`, also when the sum overflows the native storage type (`W = 64`):
the sum itself when it fits in `W` bits, the sum minus `2 ^ W` otherwise. -/
theorem C19_add_wraps (W : Nat) (hW1 : 1 ≤ W) (hW64 : W ≤ 64) (x y : bits W)
    (hx : x.v ≤ 2 ^ W - 1) (hy : y.v ≤ 2 ^ W - 1) :
    (add x y).v = (x.v + y.v) % 2 ^ W ∧
    (x.v + y.v < 2 ^ W → (add x y).v = x.v + y.v) ∧
    (2 ^ W ≤ x.v + y.v → (add x y).v = x.v + y.v - 2 ^ W) := by
  have h : W ≤ digits W := le_digits (by omega)
  have hv := add_v h x y
  have hp : 0 < 2 ^ W := by positivity
  refine ⟨hv, ?_, ?_⟩
  · intro hlt
    rw [hv, Nat.mod_eq_of_lt hlt]
  · intro hge
    rw [hv, Nat.mod_eq_sub_mod hge, Nat.mod_eq_of_lt (by omega)]

/-- C19 at `W = 64`, where the sum overflows the 64-bit storage type. -/
theorem C19_add_wraps_witness :
    (add (⟨2 ^ 64 - 1⟩ : bits 64) (⟨2⟩ : bits 64)).v = (2 ^ 64 - 1 + 2) % 2 ^ 64 :=
  (C19_add_wraps 64 (by decide) (by decide) ⟨2 ^ 64 - 1⟩ ⟨2⟩ (by decide) (by decide)).1

/-- The expression `x.v + ~y.v + 1`, converted to the storage type, is `x.v - y.v` modulo
`2 ^ digits`. -/
theorem static_cast_sub (sz x y : Nat) :
    static_cast sz ((x : Int) + lnot_storage sz y + 1)
      = static_cast sz ((x : Int) - (y : Int)) := by
  unfold lnot_storage
  by_cases hd : digits sz < 32
  · rw [if_pos hd]
    congr 1
    ring
  · rw [if_neg hd]
    unfold static_cast
    congr 1
    have e : (x : Int) + ((2 : Int) ^ digits sz - 1 - (y : Int) % (2 : Int) ^ digits sz) + 1
        = ((x : Int) - (y : Int))
          + (1 + (y : Int) / (2 : Int) ^ digits sz) * (2 : Int) ^ digits sz := by
      have := Int.emod_add_ediv (y : Int) ((2 : Int) ^ digits sz)
      linear_combination (-1 : Int) * this
    rw [e, Int.add_mul_emod_self]

/-- The stored value of `x - y`, for any stored operands. -/
theorem sub_v {W : Nat} (h : W ≤ digits W) (x y : bits W) :
    ((sub x y).v : Int) = ((x.v : Int) - (y.v : Int)) % (2 : Int) ^ W := by
  unfold sub
  rw [mask_v h]
  unfold bits.mk
  simp only
  rw [static_cast_sub]
  unfold static_cast
  have hpos : (0 : Int) < (2 : Int) ^ digits W := by positivity
  have hnn := Int.emod_nonneg ((x.v : Int) - (y.v : Int)) (ne_of_gt hpos)
  push_cast
  rw [Int.toNat_of_nonneg hnn]
  exact Int.emod_emod_of_dvd _ (pow_dvd_pow 2 h)

/-- C20. Subtraction is two's-complement wraparound: for every width `1 ≤ W ≤ 64` and all
in-range `x`, `y` of width `W`, the stored value of `x - y` (computed as `x.v + ~y.v + 1`
on the storage type, then masked) equals `(x.v - y.v) mod 2 ^ W`, that is `x.v - y.v` when
`x.v ≥ y.v` and `x.v - y.v + 2 ^ W` otherwise; hence `(x + y) - y = x`. -/
theorem C20_sub_wraps (W : Nat) (hW1 : 1 ≤ W) (hW64 : W ≤ 64) (x y : bits W)
    (hx : x.v ≤ 2 ^ W - 1) (hy : y.v ≤ 2 ^ W - 1) :
    ((sub x y).v : Int) = ((x.v : Int) - (y.v : Int)) % (2 : Int) ^ W ∧
    (y.v ≤ x.v → (sub x y).v = x.v - y.v) ∧
    (x.v < y.v → (sub x y).v + y.v = x.v + 2 ^ W) ∧
    sub (add x y) y = x := by
  have h : W ≤ digits W := le_digits (by omega)
  have hv := sub_v h x y
  have hp : 0 < 2 ^ W := by positivity
  have hpI : ((2 ^ W : Nat) : Int) = (2 : Int) ^ W := by push_cast; rfl
  have hxI : (x.v : Int) < (2 : Int) ^ W := by
    rw [← hpI]
    exact_mod_cast (show x.v < 2 ^ W by omega)
  have hyI : (y.v : Int) < (2 : Int) ^ W := by
    rw [← hpI]
    exact_mod_cast (show y.v < 2 ^ W by omega)
  refine ⟨hv, ?_, ?_, ?_⟩
  · intro hle
    have h1 : ((x.v : Int) - (y.v : Int)) % (2 : Int) ^ W = (x.v : Int) - (y.v : Int) :=
      Int.emod_eq_of_lt (by omega) (by omega)
    rw [h1] at hv
    omega
  · intro hlt
    have h1 : ((x.v : Int) - (y.v : Int)) % (2 : Int) ^ W
        = (x.v : Int) - (y.v : Int) + (2 : Int) ^ W := by
      rw [← Int.add_emod_self]
      exact Int.emod_eq_of_lt (by omega) (by omega)
    rw [h1, ← hpI] at hv
    omega
  · apply bits_ext
    have hs := sub_v h (add x y) y
    have ha := add_v h x y
    have haI : ((add x y).v : Int) = ((x.v : Int) + (y.v : Int)) % (2 : Int) ^ W := by
      rw [ha]
      push_cast
      rfl
    rw [haI, Int.sub_emod, Int.emod_emod_of_dvd _ (dvd_refl _), ← Int.sub_emod] at hs
    have h2 : (x.v : Int) + (y.v : Int) - (y.v : Int) = (x.v : Int) := by ring
    rw [h2, Int.emod_eq_of_lt (by omega) hxI] at hs
    exact_mod_cast hs

/-- C20 at `W = 64` with `x < y`: `3 - 5` is `2 ^ 64 - 2`. -/
theorem C20_sub_wraps_witness :
    (sub (⟨3⟩ : bits 64) (⟨5⟩ : bits 64)).v + 5 = 3 + 2 ^ 64 :=
  (C20_sub_wraps 64 (by decide) (by decide) ⟨3⟩ ⟨5⟩ (by decide) (by decide)).2.2.1 (by decide)

/-! ## Shifts -/

/-- The stored value of `x << s`, for any stored operand. -/
theorem shl_v {W : Nat} (h : W ≤ digits W) (x : bits W) (s : Nat) :
    (shl x s).v = (x.v * 2 ^ s) % 2 ^ W := by
  unfold shl
  rw [mask_v h]
  have h0 : ((x.v : Int) * (2 : Int) ^ s) = ((x.v * 2 ^ s : Nat) : Int) := by push_cast; rfl
  rw [h0, mk_natCast_v]
  exact Nat.mod_mod_of_dvd _ (pow_dvd_pow 2 h)

theorem shift_facts {W : Nat} (h : W ≤ digits W) (x : bits W) (hx : x.v ≤ 2 ^ W - 1)
    (s : Nat) (hs : s < W) :
    (shl x s).v = (x.v * 2 ^ s) % 2 ^ W ∧ (shr x s).v = x.v / 2 ^ s ∧
    (shl x s).v % 2 ^ s = 0 ∧ (shr x s).v < 2 ^ (W - s) := by
  have hp : 0 < 2 ^ W := by positivity
  have hs2 : 0 < 2 ^ s := by positivity
  have hshr := shr_v x s (lt_digits_of_le h hx)
  refine ⟨shl_v h x s, hshr, ?_, ?_⟩
  · rw [shl_v h x s, Nat.mod_mod_of_dvd _ (pow_dvd_pow 2 (le_of_lt hs))]
    exact Nat.mul_mod_left _ _
  · rw [hshr, Nat.div_lt_iff_lt_mul hs2, ← pow_add, Nat.sub_add_cancel (le_of_lt hs)]
    omega

/-- C21. Shifts `<<` and `>>` are logical shifts at the declared width: for every in-range
`x` of width `W` and every shift amount `s < W` (given as `size_t` or as a `bits` value),
`(x << s).v = (x.v * 2 ^ s) mod 2 ^ W` and `(x >> s).v = floor(x.v / 2 ^ s)`, with zeros
shifted in on both sides: the low `s` bits of `x << s` and the high `s` bits of `x >> s`
are zero. -/
theorem C21_logical_shifts (W : Nat) (hW : W ≤ 1024) (x : bits W)
    (hx : x.v ≤ 2 ^ W - 1) :
    (∀ s : Nat, s < W →
      (shl x s).v = (x.v * 2 ^ s) % 2 ^ W ∧ (shr x s).v = x.v / 2 ^ s ∧
      (shl x s).v % 2 ^ s = 0 ∧ (shr x s).v < 2 ^ (W - s)) ∧
    (∀ (sz2 : Nat) (s : bits sz2), s.v < W →
      (shl_bits x s).v = (x.v * 2 ^ s.v) % 2 ^ W ∧ (shr_bits x s).v = x.v / 2 ^ s.v ∧
      (shl_bits x s).v % 2 ^ s.v = 0 ∧ (shr_bits x s).v < 2 ^ (W - s.v)) := by
  have h : W ≤ digits W := le_digits hW
  exact ⟨fun s hs => shift_facts h x hx s hs, fun _ s hs => shift_facts h x hx s.v hs⟩

/-- C21 on the 4-bit value 13 shifted by 2. -/
theorem C21_logical_shifts_witness :
    (shl (⟨13⟩ : bits 4) 2).v = (13 * 2 ^ 2) % 2 ^ 4 ∧ (shr (⟨13⟩ : bits 4) 2).v = 13 / 2 ^ 2 :=
  have h := (C21_logical_shifts 4 (by decide) ⟨13⟩ (by decide)).1 2 (by decide)
  ⟨h.1, h.2.1⟩

/-! ## Concatenation and slices -/

/-- The stored value of `slice<idx, width>(d)` for an in-range `d`. -/
theorem slice_v {sz1 : Nat} (idx width : Nat) (h1 : sz1 ≤ digits sz1)
    (h2 : width ≤ digits width) (d : bits sz1) (hd : d.v ≤ 2 ^ sz1 - 1) :
    (slice idx width d).v = d.v / 2 ^ idx % 2 ^ width := by
  unfold slice
  rw [truncate_v h2, shr_v d idx (lt_digits_of_le h1 hd)]

/-- C25. Concatenation puts its first operand in the high bits: for all in-range `x` of
width `sz1` and `y` of width `sz2` (`sz1 + sz2 ≤ 64`),
`concat(x, y).v = x.v * 2 ^ sz2 + y.v`; hence `slice<sz2, sz1>(concat(x, y)) = x` and
`slice<0, sz2>(concat(x, y)) = y`. -/
theorem C25_concat_high_low (sz1 sz2 : Nat) (hsz : sz1 + sz2 ≤ 64) (x : bits sz1)
    (y : bits sz2) (hx : x.v ≤ 2 ^ sz1 - 1) (hy : y.v ≤ 2 ^ sz2 - 1) :
    (concat x y).v = x.v * 2 ^ sz2 + y.v ∧
    slice sz2 sz1 (concat x y) = x ∧
    slice 0 sz2 (concat x y) = y := by
  have h : sz1 + sz2 ≤ digits (sz1 + sz2) := le_digits (by omega)
  have h1 : sz1 ≤ digits sz1 := le_digits (by omega)
  have h2 : sz2 ≤ digits sz2 := le_digits (by omega)
  have hp1 : 0 < 2 ^ sz1 := by positivity
  have hp2 : 0 < 2 ^ sz2 := by positivity
  have hxy : x.v * 2 ^ sz2 + y.v < 2 ^ (sz1 + sz2) := by
    have : (x.v + 1) * 2 ^ sz2 ≤ 2 ^ sz1 * 2 ^ sz2 := Nat.mul_le_mul_right _ (by omega)
    rw [pow_add]
    have e : (x.v + 1) * 2 ^ sz2 = x.v * 2 ^ sz2 + 2 ^ sz2 := by ring
    omega
  have hwx : (widen (sz1 + sz2) x).v = x.v :=
    widen_v_of_le h x (le_trans hx (pow_sub_one_mono (by omega)))
  have hc : (concat x y).v = x.v * 2 ^ sz2 + y.v := by
    unfold concat
    rw [pack_step_v h (widen (sz1 + sz2) x) y hy (by rw [hwx]; exact hxy), hwx]
  have hcr : (concat x y).v ≤ 2 ^ (sz1 + sz2) - 1 := by rw [hc]; omega
  refine ⟨hc, ?_, ?_⟩
  · apply bits_ext
    rw [slice_v sz2 sz1 h h1 _ hcr, hc, Nat.add_comm, Nat.add_mul_div_right _ _ hp2,
      Nat.div_eq_of_lt (by omega), Nat.zero_add, Nat.mod_eq_of_lt (by omega)]
  · apply bits_ext
    rw [slice_v 0 sz2 h h2 _ hcr, hc, pow_zero, Nat.div_one, Nat.add_comm,
      Nat.add_mul_mod_self_right, Nat.mod_eq_of_lt (by omega)]

/-- C25 on the 4-bit value 13 and the 3-bit value 2. -/
theorem C25_concat_high_low_witness :
    (concat (⟨13⟩ : bits 4) (⟨2⟩ : bits 3)).v = 13 * 2 ^ 3 + 2 :=
  (C25_concat_high_low 4 3 (by decide) ⟨13⟩ ⟨2⟩ (by decide) (by decide)).1

/-! ## Signed views -/

theorem two_pow_pred_Int {D : Nat} (hD : 0 < D) : (2 : Int) ^ D = (2 : Int) ^ (D - 1) * 2 := by
  obtain ⟨d, rfl⟩ : ∃ d, D = d + 1 := ⟨D - 1, by omega⟩
  rw [Nat.add_sub_cancel, pow_succ]

theorem two_pow_pred_Nat {D : Nat} (hD : 0 < D) : 2 ^ D = 2 ^ (D - 1) * 2 := by
  obtain ⟨d, rfl⟩ : ∃ d, D = d + 1 := ⟨D - 1, by omega⟩
  rw [Nat.add_sub_cancel, pow_succ]

/-- `to_signed D i` is the representative of `i` modulo `2 ^ D` in
`[-2 ^ (D - 1), 2 ^ (D - 1))`. -/
theorem to_signed_unique {D : Nat} (hD : 0 < D) (i j k : Int)
    (h : i = j + k * (2 : Int) ^ D) (hlo : -((2 : Int) ^ (D - 1)) ≤ j)
    (hhi : j < (2 : Int) ^ (D - 1)) : to_signed D i = j := by
  unfold to_signed
  rw [if_neg (by omega), h]
  have e : j + k * (2 : Int) ^ D + (2 : Int) ^ (D - 1)
      = (j + (2 : Int) ^ (D - 1)) + k * (2 : Int) ^ D := by ring
  rw [e, Int.add_mul_emod_self, Int.emod_eq_of_lt (by omega)
    (by rw [two_pow_pred_Int hD]; omega)]
  ring

theorem to_signed_congr (D : Nat) (i j : Int) (h : i % (2 : Int) ^ D = j % (2 : Int) ^ D) :
    to_signed D i = to_signed D j := by
  unfold to_signed
  by_cases hD : D = 0
  · rw [if_pos hD, if_pos hD]
  · rw [if_neg hD, if_neg hD, Int.add_emod i, Int.add_emod j, h]

/-- The spec's signed value lies in the signed range and differs from the pattern by a
multiple of `2 ^ W`. -/
theorem signed_value_facts {W : Nat} (hW : 0 < W) (v : Nat) (hv : v < 2 ^ W) :
    -((2 : Int) ^ (W - 1)) ≤ signed_value W v ∧ signed_value W v < (2 : Int) ^ (W - 1) ∧
    (signed_value W v = (v : Int) ∨ signed_value W v = (v : Int) - (2 : Int) ^ W) := by
  have hvI : (v : Int) < (2 : Int) ^ W := by exact_mod_cast hv
  have h2 := two_pow_pred_Int hW
  unfold signed_value
  by_cases hlt : v < 2 ^ (W - 1)
  · rw [if_pos hlt]
    have hltI : (v : Int) < (2 : Int) ^ (W - 1) := by exact_mod_cast hlt
    have hpos : (0 : Int) < (2 : Int) ^ (W - 1) := by positivity
    exact ⟨by omega, hltI, Or.inl rfl⟩
  · rw [if_neg hlt]
    have hgeI : (2 : Int) ^ (W - 1) ≤ (v : Int) := by exact_mod_cast (Nat.le_of_not_lt hlt)
    exact ⟨by omega, by omega, Or.inr rfl⟩

theorem to_signed_natCast {D : Nat} (hD : 0 < D) (n : Nat) (hn : n < 2 ^ D) :
    to_signed D (n : Int) = signed_value D n := by
  obtain ⟨h1, h2, h3 | h3⟩ := signed_value_facts hD n hn
  · exact to_signed_unique hD _ _ 0 (by rw [h3]; ring) h1 h2
  · exact to_signed_unique hD _ _ 1 (by rw [h3]; ring) h1 h2

/-- Shifting a pattern to the top of a wider word multiplies its signed value. -/
theorem signed_value_shift (W p : Nat) (hW : 0 < W) (v : Nat) :
    signed_value (W + p) (v * 2 ^ p) = signed_value W v * (2 : Int) ^ p := by
  unfold signed_value
  have hp : 0 < 2 ^ p := by positivity
  have e : W + p - 1 = (W - 1) + p := by omega
  have hiff : v * 2 ^ p < 2 ^ (W + p - 1) ↔ v < 2 ^ (W - 1) := by
    rw [e, pow_add]
    exact Nat.mul_lt_mul_right hp
  by_cases hlt : v < 2 ^ (W - 1)
  · rw [if_pos hlt, if_pos (hiff.mpr hlt)]
    push_cast
    ring
  · rw [if_neg hlt, if_neg (fun h => hlt (hiff.mp h))]
    push_cast
    ring

/-- For an in-range `x`, `to_shifted_sbits` is the signed value at the declared width,
shifted to the top of the storage type. -/
theorem to_shifted_sbits_eq {W : Nat} (hW : 0 < W) (h : W ≤ digits W) (x : bits W)
    (hx : x.v ≤ 2 ^ W - 1) :
    x.to_shifted_sbits = signed_value W x.v * (2 : Int) ^ bits.padding_width W := by
  have hD : 0 < digits W := by omega
  have hp : 0 < 2 ^ W := by positivity
  unfold bits.to_shifted_sbits bits.to_sbits
  have hc : to_signed (digits W) (to_signed (digits W) (x.v : Int)
        * (2 : Int) ^ bits.padding_width W)
      = to_signed (digits W) (((x.v * 2 ^ bits.padding_width W : Nat) : Int)) := by
    apply to_signed_congr
    rw [Int.mul_emod, to_signed_emod _ hD, ← Int.mul_emod]
    push_cast
    rfl
  rw [hc]
  have hdig : digits W = W + bits.padding_width W := by
    unfold bits.padding_width
    omega
  have hlt : x.v * 2 ^ bits.padding_width W < 2 ^ digits W := by
    have : 0 < 2 ^ bits.padding_width W := by positivity
    rw [hdig, pow_add]
    exact Nat.mul_lt_mul_of_pos_right (by omega) this
  rw [to_signed_natCast hD _ hlt]
  conv_lhs => rw [hdig]
  exact signed_value_shift W _ hW x.v

theorem int_mod_mul_div (q a b : Int) (ha : 0 < a) (hb : 0 < b) :
    q % (b * a) / b = q / b % a := by
  have h1 := Int.emod_add_ediv q b
  have h2 := Int.emod_add_ediv (q / b) a
  have r1 := Int.emod_nonneg q (ne_of_gt hb)
  have r1b := Int.emod_lt_of_pos q hb
  have r2 := Int.emod_nonneg (q / b) (ne_of_gt ha)
  have r2b := Int.emod_lt_of_pos (q / b) ha
  have hba : 0 < b * a := Int.mul_pos hb ha
  have hmod : q % (b * a) = q % b + b * (q / b % a) := by
    have hq : q % b + b * (q / b % a) + (b * a) * (q / b / a) = q := by
      have : b * (q / b) = b * (q / b % a) + b * a * (q / b / a) := by
        rw [mul_assoc, ← mul_add, h2]
      linarith
    have hlo : 0 ≤ q % b + b * (q / b % a) :=
      Int.add_nonneg r1 (Int.mul_nonneg (le_of_lt hb) r2)
    have hhi : q % b + b * (q / b % a) < b * a := by
      have : b * (q / b % a) ≤ b * (a - 1) := Int.mul_le_mul_of_nonneg_left (by omega) (le_of_lt hb)
      have e : b * (a - 1) = b * a - b := by ring
      linarith
    exact ((Int.ediv_emod_unique hba).2 ⟨hq, hlo, hhi⟩).2
  rw [hmod, Int.add_mul_ediv_left _ _ (ne_of_gt hb), Int.ediv_eq_zero_of_lt r1 r1b, zero_add]

/-- The stored value of `of_shifted_sbits(sx)`: the top `W` bits of the storage pattern of
`sx`. -/
theorem of_shifted_sbits_v {W : Nat} (hW : 0 < W) (h : W ≤ digits W) (sx : Int) :
    ((bits.of_shifted_sbits W sx).v : Int)
      = sx / (2 : Int) ^ bits.padding_width W % (2 : Int) ^ W := by
  have hD : 0 < digits W := by omega
  unfold bits.of_shifted_sbits
  rw [shr_v _ _ (of_sbits_lt W sx), of_sbits_v hD]
  unfold static_cast
  have hpos : (0 : Int) < (2 : Int) ^ digits W := by positivity
  have hnn := Int.emod_nonneg sx (ne_of_gt hpos)
  push_cast
  rw [Int.toNat_of_nonneg hnn]
  have hdig : digits W = bits.padding_width W + W := by
    unfold bits.padding_width
    omega
  conv_lhs => rw [hdig, pow_add]
  exact int_mod_mul_div sx _ _ (by positivity) (by positivity)

theorem int_div_div (q a b : Int) (ha : 0 < a) (hb : 0 < b) : q / b / a = q / (b * a) := by
  have h2 := Int.emod_add_ediv (q / b) a
  have r1 := Int.emod_nonneg q (ne_of_gt hb)
  have r1b := Int.emod_lt_of_pos q hb
  have r2 := Int.emod_nonneg (q / b) (ne_of_gt ha)
  have r2b := Int.emod_lt_of_pos (q / b) ha
  have h1 := Int.emod_add_ediv q b
  have hba : 0 < b * a := Int.mul_pos hb ha
  have hq : q % b + b * (q / b % a) + (b * a) * (q / b / a) = q := by
    have : b * (q / b) = b * (q / b % a) + b * a * (q / b / a) := by
      rw [mul_assoc, ← mul_add, h2]
    linarith
  have hlo : 0 ≤ q % b + b * (q / b % a) :=
    Int.add_nonneg r1 (Int.mul_nonneg (le_of_lt hb) r2)
  have hhi : q % b + b * (q / b % a) < b * a := by
    have : b * (q / b % a) ≤ b * (a - 1) := Int.mul_le_mul_of_nonneg_left (by omega) (le_of_lt hb)
    have e : b * (a - 1) = b * a - b := by ring
    linarith
  exact (((Int.ediv_emod_unique hba).2 ⟨hq, hlo, hhi⟩).1).symm

theorem int_emod_neg_range (t P : Int) (h1 : -P ≤ t) (h2 : t < 0) : t % P = t + P := by
  rw [← Int.add_emod_self]
  exact Int.emod_eq_of_lt (by omega) (by omega)

/-- The stored value of `asr(x, s)` for an in-range `x`. -/
theorem asr_v {W sz2 : Nat} (hW : 0 < W) (h : W ≤ digits W) (x : bits W)
    (hx : x.v ≤ 2 ^ W - 1) (s : bits sz2) :
    ((asr x s).v : Int) = signed_value W x.v / (2 : Int) ^ s.v % (2 : Int) ^ W := by
  unfold asr
  rw [of_shifted_sbits_v hW h, to_shifted_sbits_eq hW h x hx,
    int_div_div _ _ _ (by positivity) (by positivity),
    Int.mul_ediv_mul_of_pos_left _ _ (by positivity)]

theorem nat_of_int_emod (r a P : Nat) (ha : a < P) (h : (r : Int) = (a : Int) % (P : Int)) :
    r = a := by
  rw [Int.emod_eq_of_lt (by omega) (by omega)] at h
  omega

theorem nat_of_int_emod_neg (r a Q P : Nat) (haQ : a < Q) (hQP : Q ≤ P)
    (h : (r : Int) = ((a : Int) - (Q : Int)) % (P : Int)) : r = a + (P - Q) := by
  rw [int_emod_neg_range _ _ (by omega) (by omega)] at h
  omega

/-- C22. Arithmetic shift right sign-extends from the top declared bit, not the storage
top bit: for every in-range `x` of width `W` (also when `W` is smaller than the storage
width) and every shift `s < W`, `asr(x, s).v = floor(signed_W(x) / 2 ^ s) mod 2 ^ W`,
where `signed_W(x) = x.v` if `x.v < 2 ^ (W - 1)` and `x.v - 2 ^ W` otherwise; that is,
the vacated high bits are copies of bit `W - 1` of `x`: zeros when it is 0, the `s` ones
`2 ^ W - 2 ^ (W - s)` when it is 1. -/
theorem C22_asr_sign_extends (W : Nat) (hW1 : 1 ≤ W) (hW64 : W ≤ 64) (x : bits W)
    (hx : x.v ≤ 2 ^ W - 1) :
    ∀ (sz2 : Nat) (s : bits sz2), s.v < W →
      ((asr x s).v : Int) = signed_value W x.v / (2 : Int) ^ s.v % (2 : Int) ^ W ∧
      (x.v < 2 ^ (W - 1) → (asr x s).v = x.v / 2 ^ s.v) ∧
      (2 ^ (W - 1) ≤ x.v → (asr x s).v = x.v / 2 ^ s.v + (2 ^ W - 2 ^ (W - s.v))) := by
  intro sz2 s hs
  have h : W ≤ digits W := le_digits (by omega)
  have hv := asr_v hW1 h x hx s
  have hp : 0 < 2 ^ W := by positivity
  have hps : 0 < 2 ^ s.v := by positivity
  have hxlt : x.v < 2 ^ W := by omega
  have hdiv : x.v / 2 ^ s.v < 2 ^ (W - s.v) := by
    rw [Nat.div_lt_iff_lt_mul hps, ← pow_add, Nat.sub_add_cancel (le_of_lt hs)]
    exact hxlt
  have hQP : 2 ^ (W - s.v) ≤ 2 ^ W := Nat.pow_le_pow_right (by norm_num) (Nat.sub_le _ _)
  have hdivI : ((x.v : Int) / (2 : Int) ^ s.v) = ((x.v / 2 ^ s.v : Nat) : Int) := by
    norm_cast
  have hPI : (2 : Int) ^ W = ((2 ^ W : Nat) : Int) := by norm_cast
  have hQI : (2 : Int) ^ (W - s.v) = ((2 ^ (W - s.v) : Nat) : Int) := by norm_cast
  refine ⟨hv, ?_, ?_⟩
  · intro hlt
    unfold signed_value at hv
    rw [if_pos hlt, hdivI, hPI] at hv
    exact nat_of_int_emod _ _ _ (lt_of_lt_of_le hdiv hQP) hv
  · intro hge
    unfold signed_value at hv
    rw [if_neg (Nat.not_lt.mpr hge)] at hv
    have hsplit : (2 : Int) ^ W = (2 : Int) ^ (W - s.v) * (2 : Int) ^ s.v := by
      rw [← pow_add, Nat.sub_add_cancel (le_of_lt hs)]
    have e : (x.v : Int) - (2 : Int) ^ W
        = (x.v : Int) + (-((2 : Int) ^ (W - s.v))) * (2 : Int) ^ s.v := by
      rw [hsplit]
      ring
    have hne : ((2 : Int) ^ s.v) ≠ 0 := by positivity
    rw [e, Int.add_mul_ediv_right _ _ hne, hdivI, hPI, hQI, ← sub_eq_add_neg] at hv
    exact nat_of_int_emod_neg _ _ _ _ hdiv hQP hv

/-- C22 on the 4-bit value 13 (stored in 8 bits) shifted by 1: the result is 14. -/
theorem C22_asr_sign_extends_witness :
    (asr (⟨13⟩ : bits 4) (⟨1⟩ : bits 2)).v = 13 / 2 ^ 1 + (2 ^ 4 - 2 ^ (4 - 1)) :=
  ((C22_asr_sign_extends 4 (by decide) (by decide) ⟨13⟩ (by decide)) 2 ⟨1⟩
    (by decide)).2.2 (by decide)

theorem of_bool_v (b : Bool) : (bits.of_bool b).v = if b then 1 else 0 := by
  cases b <;> decide

/-- C23. Signed ordering comparisons use the two's-complement value at the declared width:
for every width `1 ≤ W ≤ 64` and all in-range `x`, `y`, `slt(x, y)`, `sle(x, y)`,
`sgt(x, y)`, `sge(x, y)` return 1 exactly when `signed_W(x)` is `<`, `≤`, `>`, `≥`
`signed_W(y)` respectively, and 0 otherwise, where `signed_W(v) = v` if `v < 2 ^ (W - 1)`
and `v - 2 ^ W` otherwise. -/
theorem C23_signed_comparisons (W : Nat) (hW1 : 1 ≤ W) (hW64 : W ≤ 64) (x y : bits W)
    (hx : x.v ≤ 2 ^ W - 1) (hy : y.v ≤ 2 ^ W - 1) :
    (slt x y).v = (if signed_value W x.v < signed_value W y.v then 1 else 0) ∧
    (sle x y).v = (if signed_value W x.v ≤ signed_value W y.v then 1 else 0) ∧
    (sgt x y).v = (if signed_value W x.v > signed_value W y.v then 1 else 0) ∧
    (sge x y).v = (if signed_value W x.v ≥ signed_value W y.v then 1 else 0) := by
  have h : W ≤ digits W := le_digits (by omega)
  have ex := to_shifted_sbits_eq hW1 h x hx
  have ey := to_shifted_sbits_eq hW1 h y hy
  have hpos : (0 : Int) < (2 : Int) ^ bits.padding_width W := by positivity
  have hlt : ∀ a b : Int, a * (2 : Int) ^ bits.padding_width W
      < b * (2 : Int) ^ bits.padding_width W ↔ a < b := fun a b => mul_lt_mul_right hpos
  have hle : ∀ a b : Int, a * (2 : Int) ^ bits.padding_width W
      ≤ b * (2 : Int) ^ bits.padding_width W ↔ a ≤ b := fun a b => mul_le_mul_right hpos
  refine ⟨?_, ?_, ?_, ?_⟩
  · unfold slt
    rw [of_bool_v, ex, ey]
    simp only [decide_eq_true_eq, hlt]
  · unfold sle
    rw [of_bool_v, ex, ey]
    simp only [decide_eq_true_eq, hle]
  · unfold sgt
    rw [of_bool_v, ex, ey]
    simp only [decide_eq_true_eq, gt_iff_lt, hlt]
  · unfold sge
    rw [of_bool_v, ex, ey]
    simp only [decide_eq_true_eq, ge_iff_le, hle]

/-- C23 on the 4-bit values 13 (signed -3) and 2. -/
theorem C23_signed_comparisons_witness :
    (slt (⟨13⟩ : bits 4) (⟨2⟩ : bits 4)).v
      = (if signed_value 4 13 < signed_value 4 2 then 1 else 0) :=
  (C23_signed_comparisons 4 (by decide) (by decide) ⟨13⟩ ⟨2⟩ (by decide) (by decide)).1

/-! ## Sign extension -/

/-- The stored value of `sext<width>(x)` for an in-range `x`: the signed value of `x`
reduced to the result width. -/
theorem sext_v_int {sz : Nat} (width : Nat) (hsz : 0 < sz) (hN : max sz width ≤ 1024)
    (x : bits sz) (hx : x.v ≤ 2 ^ sz - 1) :
    ((sext width x).v : Int) = signed_value sz x.v % (2 : Int) ^ (max sz width) := by
  have hdig : max sz width ≤ digits (max sz width) := le_digits hN
  have hN0 : 0 < max sz width := lt_of_lt_of_le hsz (le_max_left _ _)
  have hsum : max sz width = sz + (if width ≥ sz then width - sz else 0) := by
    by_cases hw : width ≥ sz
    · rw [if_pos hw, max_eq_right hw]
      omega
    · rw [if_neg hw, max_eq_left (by omega)]
      omega
  have hp : 0 < 2 ^ sz := by positivity
  have hpow : 2 ^ max sz width = 2 ^ sz * 2 ^ (if width ≥ sz then width - sz else 0) := by
    rw [← pow_add, ← hsum]
  have hwv : (widen (max sz width) x).v = x.v :=
    widen_v_of_le hdig x (le_trans hx (pow_sub_one_mono (le_max_left _ _)))
  have hlt : x.v * 2 ^ (if width ≥ sz then width - sz else 0) < 2 ^ max sz width := by
    rw [hpow]
    exact Nat.mul_lt_mul_of_pos_right (by omega) (by positivity)
  have hyv : (shl (widen (max sz width) x) (if width ≥ sz then width - sz else 0)).v
      = x.v * 2 ^ (if width ≥ sz then width - sz else 0) := by
    rw [shl_v_of_lt hdig _ _ (by rw [hwv]; exact hlt), hwv]
  have hsv : signed_value (max sz width)
        (shl (widen (max sz width) x) (if width ≥ sz then width - sz else 0)).v
      = signed_value sz x.v * (2 : Int) ^ (if width ≥ sz then width - sz else 0) := by
    rw [hyv]
    conv_lhs => rw [hsum]
    exact signed_value_shift sz _ hsz x.v
  have hdef : sext width x = bits.of_shifted_sbits (max sz width)
      ((shl (widen (max sz width) x) (if width ≥ sz then width - sz else 0)).to_shifted_sbits
        / (2 : Int) ^ (if width ≥ sz then width - sz else 0)) := rfl
  rw [hdef, of_shifted_sbits_v hN0 hdig,
    to_shifted_sbits_eq hN0 hdig _ (by rw [hyv]; omega), hsv]
  have e : signed_value sz x.v * (2 : Int) ^ (if width ≥ sz then width - sz else 0)
        * (2 : Int) ^ bits.padding_width (max sz width)
      = signed_value sz x.v * (2 : Int) ^ bits.padding_width (max sz width)
        * (2 : Int) ^ (if width ≥ sz then width - sz else 0) := by ring
  rw [e, Int.mul_ediv_cancel _ (by positivity), Int.mul_ediv_cancel _ (by positivity)]

/-- The bits of `sext<width>(x)`: `x` itself when its top bit is 0, `x` with ones in the
bits from `sz` up when it is 1. -/
theorem sext_v_nat {sz : Nat} (width : Nat) (hsz : 0 < sz) (hN : max sz width ≤ 1024)
    (x : bits sz) (hx : x.v ≤ 2 ^ sz - 1) :
    (sext width x).v
      = if x.v < 2 ^ (sz - 1) then x.v else x.v + (2 ^ (max sz width) - 2 ^ sz) := by
  have hv := sext_v_int width hsz hN x hx
  have hp : 0 < 2 ^ sz := by positivity
  have hle : 2 ^ sz ≤ 2 ^ max sz width := Nat.pow_le_pow_right (by norm_num) (le_max_left _ _)
  have hPI : (2 : Int) ^ (max sz width) = ((2 ^ (max sz width) : Nat) : Int) := by norm_cast
  have hQI : (2 : Int) ^ sz = ((2 ^ sz : Nat) : Int) := by norm_cast
  unfold signed_value at hv
  by_cases hlt : x.v < 2 ^ (sz - 1)
  · rw [if_pos hlt] at hv ⊢
    rw [hPI] at hv
    exact nat_of_int_emod _ _ _ (by omega) hv
  · rw [if_neg hlt] at hv ⊢
    rw [hPI, hQI] at hv
    exact nat_of_int_emod_neg _ _ _ _ (by omega) hle hv

/-- C24. Sign extension preserves the signed value: for every in-range `x` of width `sz`
and every target width `≥ sz` (both `≤ 64`), `sext<width>(x)` is the `width`-bit value
whose low `sz` bits equal `x` and whose bits `sz .. width - 1` all equal bit `sz - 1` of
`x`, so `signed_width(sext<width>(x)) = signed_sz(x)` and
`truncate<sz>(sext<width>(x)) = x`; for `width ≤ sz`, `sext<width>(x) = x`. -/
theorem C24_sext_preserves_signed_value (sz width : Nat) (hsz1 : 1 ≤ sz) (hsz64 : sz ≤ 64)
    (hw64 : width ≤ 64) (x : bits sz) (hx : x.v ≤ 2 ^ sz - 1) :
    (sz ≤ width →
      (sext width x).v % 2 ^ sz = x.v ∧
      (sext width x).v / 2 ^ sz = (if x.v < 2 ^ (sz - 1) then 0 else 2 ^ (width - sz) - 1) ∧
      (sext width x).v ≤ 2 ^ width - 1 ∧
      signed_value width (sext width x).v = signed_value sz x.v ∧
      truncate sz (sext width x) = x) ∧
    (width ≤ sz → (sext width x).v = x.v) := by
  have hN : max sz width ≤ 1024 := by
    have : max sz width ≤ 64 := max_le hsz64 hw64
    omega
  have hv0 := sext_v_nat width hsz1 hN x hx
  have hp : 0 < 2 ^ sz := by positivity
  have h1 : sz ≤ digits sz := le_digits (by omega)
  constructor
  · intro hle
    have hv : (sext width x).v
        = if x.v < 2 ^ (sz - 1) then x.v else x.v + (2 ^ width - 2 ^ sz) := by
      rw [hv0, max_eq_right hle]
    have hsplit : 2 ^ width = 2 ^ (width - sz) * 2 ^ sz := by
      rw [← pow_add, Nat.sub_add_cancel hle]
    have hK : 0 < 2 ^ (width - sz) := by positivity
    have hsub : 2 ^ width - 2 ^ sz = (2 ^ (width - sz) - 1) * 2 ^ sz := by
      rw [Nat.sub_mul, one_mul, ← hsplit]
    have hA := two_pow_pred_Nat hsz1
    have hB := two_pow_pred_Nat (lt_of_lt_of_le hsz1 hle)
    have hAB : 2 ^ (sz - 1) ≤ 2 ^ (width - 1) :=
      Nat.pow_le_pow_right (by norm_num) (by omega)
    have hQP : 2 ^ sz ≤ 2 ^ width := Nat.pow_le_pow_right (by norm_num) hle
    have hmod : (sext width x).v % 2 ^ sz = x.v := by
      rw [hv]
      by_cases hlt : x.v < 2 ^ (sz - 1)
      · rw [if_pos hlt, Nat.mod_eq_of_lt (by omega)]
      · rw [if_neg hlt, hsub, Nat.add_mul_mod_self_right, Nat.mod_eq_of_lt (by omega)]
    refine ⟨hmod, ?_, ?_, ?_, ?_⟩
    · rw [hv]
      by_cases hlt : x.v < 2 ^ (sz - 1)
      · rw [if_pos hlt, if_pos hlt, Nat.div_eq_of_lt (by omega)]
      · rw [if_neg hlt, if_neg hlt, hsub, Nat.add_mul_div_right _ _ hp,
          Nat.div_eq_of_lt (by omega), Nat.zero_add]
    · rw [hv]
      by_cases hlt : x.v < 2 ^ (sz - 1)
      · rw [if_pos hlt]
        omega
      · rw [if_neg hlt]
        omega
    · unfold signed_value
      by_cases hlt : x.v < 2 ^ (sz - 1)
      · rw [if_pos hlt] at hv
        rw [hv, if_pos hlt, if_pos (lt_of_lt_of_le hlt hAB)]
      · rw [if_neg hlt] at hv
        have hge : ¬ ((sext width x).v < 2 ^ (width - 1)) := by
          rw [hv]
          omega
        rw [if_neg hlt, if_neg hge]
        have hnat : (sext width x).v + 2 ^ sz = x.v + 2 ^ width := by
          rw [hv]
          omega
        have hint : ((sext width x).v : Int) + (2 : Int) ^ sz
            = (x.v : Int) + (2 : Int) ^ width := by exact_mod_cast hnat
        linarith
    · apply bits_ext
      rw [truncate_v h1]
      exact hmod
  · intro hle
    rw [hv0, max_eq_left hle]
    by_cases hlt : x.v < 2 ^ (sz - 1)
    · rw [if_pos hlt]
    · rw [if_neg hlt, Nat.sub_self, Nat.add_zero]

/-- C24 on the 4-bit value 13 extended to 8 bits: the result is 253, whose top four bits
are ones. -/
theorem C24_sext_preserves_signed_value_witness :
    (sext 8 (⟨13⟩ : bits 4)).v / 2 ^ 4 = (if 13 < 2 ^ (4 - 1) then 0 else 2 ^ (8 - 4) - 1) :=
  ((C24_sext_preserves_signed_value 4 8 (by decide) (by decide) (by decide) ⟨13⟩
    (by decide)).1 (by decide)).2.1

/-! ## Slice replacement -/

/-- The stored value of `~x` for an in-range `x`: the complement within the declared
width. -/
theorem not_v {W : Nat} (h : W ≤ digits W) (x : bits W) (hx : x.v ≤ 2 ^ W - 1) :
    (not x).v = 2 ^ W - (x.v + 1) := by
  have hp : 0 < 2 ^ W := by positivity
  have hI : ((not x).v : Int) = (((0 : Nat) : Int) - ((x.v + 1 : Nat) : Int))
      % ((2 ^ W : Nat) : Int) := by
    unfold not
    rw [mask_v h]
    unfold bits.mk
    simp only
    have hc : static_cast W (lnot_storage W x.v) = static_cast W (-(x.v : Int) - 1) := by
      have := static_cast_sub W 0 x.v
      have e1 : ((0 : Nat) : Int) + lnot_storage W x.v + 1 = lnot_storage W x.v + 1 := by
        push_cast
        ring
      unfold static_cast at this ⊢
      rw [e1] at this
      have e2 : (lnot_storage W x.v + 1) % (2 : Int) ^ digits W
          = (((0 : Nat) : Int) - (x.v : Int)) % (2 : Int) ^ digits W := by
        have h3 := congrArg (fun n : Nat => (n : Int)) this
        simp only at h3
        rw [Int.toNat_of_nonneg (Int.emod_nonneg _ (by positivity)),
          Int.toNat_of_nonneg (Int.emod_nonneg _ (by positivity))] at h3
        exact h3
      congr 1
      have e3 : lnot_storage W x.v = (lnot_storage W x.v + 1) + (-1) := by ring
      have e4 : -(x.v : Int) - 1 = (((0 : Nat) : Int) - (x.v : Int)) + (-1) := by
        push_cast
        ring
      rw [e3, e4, Int.add_emod, e2, ← Int.add_emod]
    rw [hc]
    unfold static_cast
    have hpos : (0 : Int) < (2 : Int) ^ digits W := by positivity
    have hnn := Int.emod_nonneg (-(x.v : Int) - 1) (ne_of_gt hpos)
    push_cast
    rw [Int.toNat_of_nonneg hnn, Int.emod_emod_of_dvd _ (pow_dvd_pow 2 h)]
    congr 1
    ring
  have := nat_of_int_emod_neg _ 0 (x.v + 1) (2 ^ W) (by omega) (by omega) hI
  omega

/-- Bit `j` of `slice_subst<idx>(data, repl)` for in-range operands with
`idx + width ≤ sz1`. -/
theorem slice_subst_testBit {sz1 width : Nat} (idx : Nat) (h1 : sz1 ≤ digits sz1)
    (h2 : width ≤ digits width) (hiw : idx + width ≤ sz1) (data : bits sz1)
    (repl : bits width) (hd : data.v ≤ 2 ^ sz1 - 1) (hr : repl.v ≤ 2 ^ width - 1) (j : Nat) :
    (slice_subst idx data repl).v.testBit j
      = if idx ≤ j ∧ j < idx + width then repl.v.testBit (j - idx) else data.v.testBit j := by
  have hp1 : 0 < 2 ^ sz1 := by positivity
  have hpw : 0 < 2 ^ width := by positivity
  have hpi : 0 < 2 ^ idx := by positivity
  have hpow : 2 ^ (idx + width) ≤ 2 ^ sz1 := Nat.pow_le_pow_right (by norm_num) hiw
  have hsplit : 2 ^ (idx + width) = 2 ^ width * 2 ^ idx := by rw [pow_add, Nat.mul_comm]
  have hw1 : 2 ^ width ≤ 2 ^ sz1 := Nat.pow_le_pow_right (by norm_num) (by omega)
  -- the mask before complement
  have hones : (widen sz1 (bits.ones width)).v = 2 ^ width - 1 := by
    rw [widen_v_of_le h1 _ (by rw [ones_v h2]; omega), ones_v h2]
  have hMlt : (2 ^ width - 1) * 2 ^ idx < 2 ^ sz1 := by
    have : (2 ^ width - 1) * 2 ^ idx < 2 ^ width * 2 ^ idx :=
      Nat.mul_lt_mul_of_pos_right (by omega) hpi
    omega
  have hM : (shl (widen sz1 (bits.ones width)) idx).v = (2 ^ width - 1) * 2 ^ idx := by
    rw [shl_v_of_lt h1 _ _ (by rw [hones]; exact hMlt), hones]
  have hmask : (not (shl (widen sz1 (bits.ones width)) idx)).v
      = 2 ^ sz1 - ((2 ^ width - 1) * 2 ^ idx + 1) := by
    rw [not_v h1 _ (by rw [hM]; omega), hM]
  have hrepl : (widen sz1 repl).v = repl.v := widen_v_of_le h1 repl (by omega)
  have hRlt : repl.v * 2 ^ idx < 2 ^ sz1 := by
    have : repl.v * 2 ^ idx < 2 ^ width * 2 ^ idx :=
      Nat.mul_lt_mul_of_pos_right (by omega) hpi
    omega
  have hshl : (shl (widen sz1 repl) idx).v = repl.v * 2 ^ idx := by
    rw [shl_v_of_lt h1 _ _ (by rw [hrepl]; exact hRlt), hrepl]
  have hand : (and data (not (shl (widen sz1 (bits.ones width)) idx))).v
      = data.v &&& (2 ^ sz1 - ((2 ^ width - 1) * 2 ^ idx + 1)) := by
    rw [and_v _ _ (lt_digits_of_le h1 (by rw [hmask]; omega)), hmask]
  have hval : (slice_subst idx data repl).v
      = (data.v &&& (2 ^ sz1 - ((2 ^ width - 1) * 2 ^ idx + 1))) ||| (repl.v * 2 ^ idx) := by
    unfold slice_subst
    simp only
    rw [or_v h1 _ _ (by rw [hand]; exact le_trans Nat.and_le_left hd)
      (by rw [hshl]; omega), hand, hshl]
  rw [hval, Nat.testBit_or, Nat.testBit_and, Nat.testBit_two_pow_sub_succ hMlt,
    Nat.mul_comm (2 ^ width - 1), Nat.mul_comm repl.v, Nat.testBit_mul_pow_two,
    Nat.testBit_mul_pow_two, Nat.testBit_two_pow_sub_one]
  by_cases hin : idx ≤ j ∧ j < idx + width
  · rw [if_pos hin]
    have h3 : j - idx < width := by omega
    simp [hin.1, h3]
  · rw [if_neg hin]
    by_cases hji : idx ≤ j
    · have h3 : ¬ (j - idx < width) := by omega
      have h4 : repl.v.testBit (j - idx) = false :=
        Nat.testBit_lt_two_pow (lt_of_lt_of_le (by omega : repl.v < 2 ^ width)
          (Nat.pow_le_pow_right (by norm_num) (by omega)))
      by_cases hjn : j < sz1
      · simp [hji, h3, h4, hjn]
      · have h5 : data.v.testBit j = false :=
          Nat.testBit_lt_two_pow (lt_of_lt_of_le (by omega : data.v < 2 ^ sz1)
            (Nat.pow_le_pow_right (by norm_num) (by omega)))
        simp [h5, h4]
    · have hjn : j < sz1 := by omega
      simp [hji, hjn]

/-- C26. Slice replace then read: for every in-range `data` of width `sz1`, every in-range
`repl` of width `width` and every position `idx` with `idx + width ≤ sz1`,
`slice_subst<idx>(data, repl)` is `data` with bits `[idx, idx + width)` replaced by `repl`:
`slice<idx, width>` of the result equals `repl` and every bit outside `[idx, idx + width)`
equals the corresponding bit of `data`, where
`slice<idx, width>(d).v = floor(d.v / 2 ^ idx) mod 2 ^ width`. -/
theorem C26_slice_subst_then_slice (sz1 width idx : Nat) (hsz : sz1 ≤ 1024)
    (hiw : idx + width ≤ sz1) (data : bits sz1) (repl : bits width)
    (hd : data.v ≤ 2 ^ sz1 - 1) (hr : repl.v ≤ 2 ^ width - 1) :
    slice idx width (slice_subst idx data repl) = repl ∧
    (∀ j : Nat, ¬ (idx ≤ j ∧ j < idx + width) →
      (slice_subst idx data repl).v.testBit j = data.v.testBit j) ∧
    (∀ j : Nat, j < width →
      (slice_subst idx data repl).v.testBit (idx + j) = repl.v.testBit j) ∧
    (slice_subst idx data repl).v ≤ 2 ^ sz1 - 1 ∧
    (∀ d : bits sz1, d.v ≤ 2 ^ sz1 - 1 → (slice idx width d).v = d.v / 2 ^ idx % 2 ^ width) := by
  have h1 : sz1 ≤ digits sz1 := le_digits (by omega)
  have h2 : width ≤ digits width := le_digits (by omega)
  have hbit := slice_subst_testBit idx h1 h2 hiw data repl hd hr
  have hin : ∀ j : Nat, j < width →
      (slice_subst idx data repl).v.testBit (idx + j) = repl.v.testBit j := by
    intro j hj
    rw [hbit, if_pos ⟨by omega, by omega⟩, Nat.add_sub_cancel_left]
  have hrange : (slice_subst idx data repl).v ≤ 2 ^ sz1 - 1 := by
    unfold slice_subst
    exact or_le h1 _ _ (and_le h1 _ _ (mask_le h1 _)) (mask_le h1 _)
  have hpw : 0 < 2 ^ width := by positivity
  refine ⟨?_, ?_, hin, hrange, fun d hd2 => slice_v idx width h1 h2 d hd2⟩
  · apply bits_ext
    rw [slice_v idx width h1 h2 _ hrange]
    apply Nat.eq_of_testBit_eq
    intro j
    rw [Nat.testBit_mod_two_pow, ← Nat.shiftRight_eq_div_pow, Nat.testBit_shiftRight]
    by_cases hj : j < width
    · simp [hj, hin j hj]
    · have : repl.v.testBit j = false :=
        Nat.testBit_lt_two_pow (lt_of_lt_of_le (by omega : repl.v < 2 ^ width)
          (Nat.pow_le_pow_right (by norm_num) (by omega)))
      simp [hj, this]
  · intro j hj
    rw [hbit, if_neg hj]

/-- C26 on the 8-bit value 0xff with the 3-bit value 1 substituted at position 2. -/
theorem C26_slice_subst_then_slice_witness :
    slice 2 3 (slice_subst 2 (⟨0xff⟩ : bits 8) (⟨1⟩ : bits 3)) = ⟨1⟩ :=
  (C26_slice_subst_then_slice 8 3 2 (by decide) (by decide) ⟨0xff⟩ ⟨1⟩ (by decide)
    (by decide)).1

/-! ## Literal parsing -/

/-- The number denoted by a digit sequence is at least the accumulator it starts from. -/
theorem literal_parsing.le_digits_value (base : Nat) (hb : 1 ≤ base) (ds : List Nat) :
    ∀ num : Nat, num ≤ literal_parsing.digits_value base num ds := by
  induction ds with
  | nil => intro num; exact le_refl _
  | cons d ds ih =>
    intro num
    have h1 := ih (base * num + d)
    have h2 : num ≤ base * num := Nat.le_mul_of_pos_left num hb
    have h3 : literal_parsing.digits_value base num (d :: ds)
        = literal_parsing.digits_value base (base * num + d) ds := rfl
    omega

/-- Where no digit exceeds `max`, `parse_u64` accepts exactly the digit sequences that denote
a number at most `max`, and returns that number. -/
theorem literal_parsing.parse_u64_of_digits_le (base max : Nat) (hb : 1 ≤ base)
    (hmax : max < 2 ^ 64) (cs : List Char) :
    ∀ num : Nat, num ≤ max →
      (∀ c ∈ cs, ∃ d, literal_parsing.parse_digit base c = some d ∧ d ≤ max) →
      literal_parsing.parse_u64 base max num cs
        = if literal_parsing.digits_value base num (cs.filterMap (literal_parsing.parse_digit base))
            ≤ max
          then some (literal_parsing.digits_value base num
            (cs.filterMap (literal_parsing.parse_digit base)))
          else none := by
  induction cs with
  | nil =>
    intro num hnum _
    simp [literal_parsing.parse_u64, literal_parsing.digits_value, hnum]
  | cons c cs ih =>
    intro num hnum hds
    obtain ⟨d, hd, hdle⟩ := hds c (List.mem_cons_self c cs)
    have hrest : ∀ c2 ∈ cs, ∃ d, literal_parsing.parse_digit base c2 = some d ∧ d ≤ max :=
      fun c2 hc2 => hds c2 (List.mem_cons_of_mem c hc2)
    have hwrap : (max + 2 ^ 64 - d) % 2 ^ 64 = max - d := by omega
    have hval : literal_parsing.digits_value base num
          ((c :: cs).filterMap (literal_parsing.parse_digit base))
        = literal_parsing.digits_value base (base * num + d)
          (cs.filterMap (literal_parsing.parse_digit base)) := by
      rw [List.filterMap_cons, hd]
      rfl
    rw [hval]
    unfold literal_parsing.parse_u64
    simp only [hd, hwrap]
    by_cases hok : (max - d) / base ≥ num
    · have hle : base * num + d ≤ max := by
        have := (Nat.le_div_iff_mul_le hb).mp hok
        have e : num * base = base * num := Nat.mul_comm _ _
        omega
      rw [if_pos hok, Nat.mod_eq_of_lt (by omega)]
      exact ih (base * num + d) hle hrest
    · have hgt : max < base * num + d := by
        by_contra hcon
        apply hok
        apply (Nat.le_div_iff_mul_le hb).mpr
        have e : num * base = base * num := Nat.mul_comm _ _
        omega
      have := literal_parsing.le_digits_value base hb
        (cs.filterMap (literal_parsing.parse_digit base)) (base * num + d)
      rw [if_neg hok, if_neg (by omega)]

/-- C27. Literal construction is not width-checked when a digit exceeds the width's largest
value: for the decimal literal of declared width 1 with the single digit 5 (`1'5_d`),
`parse_u64` with `max = 2 ^ 1 - 1 = 1`, starting from 0, is accepted and yields 5, although
the number the digit denotes, 5, exceeds `2 ^ 1 - 1`; `max - digit` wraps around in the
64-bit unsigned arithmetic of the overflow test. -/
theorem C27_literal_overflow_accepted :
    bits.bitmask 1 = 1 ∧
    literal_parsing.valid_digit 10 '5' = true ∧
    literal_parsing.parse_digit 10 '5' = some 5 ∧
    literal_parsing.digits_value 10 0 [5] = 5 ∧
    ¬ (literal_parsing.digits_value 10 0 [5] ≤ 2 ^ 1 - 1) ∧
    literal_parsing.parse_u64 10 (bits.bitmask 1) 0 ['5'] = some 5 ∧
    literal_parsing.parse_number 10 1 ['5'] = some 5 := by
  refine ⟨by decide, by decide, by decide, by decide, by decide, by decide, by decide⟩

end prims

namespace cuttlesim

/-! ## The driver -/

/-- C28. The driver does not honour the trace period: on the argument vector
`sim 10 out.vcd 5`, `params::of_cli` parses `ncycles = 10`, `vcd_fpath = out.vcd` and
`trace_period = 5`, and `cuttlesim::main` calls `simulator.trace` with that path and cycle
count but with period 1. -/
theorem C28_trace_period_not_passed :
    params.of_cli ["sim", "10", "out.vcd", "5"]
      = some { trace := true, vcd_fpath := "out.vcd", trace_period := 5, ncycles := 10 } ∧
    main ["sim", "10", "out.vcd", "5"] = some (driver_call.trace "out.vcd" 10 1) ∧
    main ["sim", "10", "out.vcd", "5"] ≠ some (driver_call.trace "out.vcd" 10 5) := by
  refine ⟨by decide, by decide, by decide⟩

/-! ## Monotonicity of the conflict flags -/

/-- The flag order on whole conflict-set records is reflexive. -/
theorem rwset_flags_le_refl (a : rwset_t) : a.flags_le a := by
  refine ⟨fun r => ?_, fun r => ?_, fun r => ?_⟩
  · cases h : (a.reg r).w0 <;> simp [reg_rwset.flags_le, h]
  · cases h1 : (a.wire r).r1 <;> cases h2 : (a.wire r).w0 <;>
      simp [wire_rwset.flags_le, h1, h2]
  · cases h1 : (a.ehr r).r1 <;> cases h2 : (a.ehr r).w0 <;> cases h3 : (a.ehr r).w1 <;>
      simp [ehr_rwset.flags_le, h1, h2, h3]

/-- The flag order on plain-register conflict sets is transitive. -/
theorem reg_flags_le_trans (a b c : reg_rwset) (hab : a.flags_le b = true)
    (hbc : b.flags_le c = true) : a.flags_le c = true := by
  obtain ⟨a0⟩ := a
  obtain ⟨b0⟩ := b
  obtain ⟨c0⟩ := c
  revert hab hbc
  cases a0 <;> cases b0 <;> cases c0 <;> simp [reg_rwset.flags_le]

/-- The flag order on wire conflict sets is transitive. -/
theorem wire_flags_le_trans (a b c : wire_rwset) (hab : a.flags_le b = true)
    (hbc : b.flags_le c = true) : a.flags_le c = true := by
  obtain ⟨a1, a0⟩ := a
  obtain ⟨b1, b0⟩ := b
  obtain ⟨c1, c0⟩ := c
  revert hab hbc
  cases a1 <;> cases a0 <;> cases b1 <;> cases b0 <;> cases c1 <;> cases c0 <;>
    simp [wire_rwset.flags_le]

/-- The flag order on EHR conflict sets is transitive. -/
theorem ehr_flags_le_trans (a b c : ehr_rwset) (hab : a.flags_le b = true)
    (hbc : b.flags_le c = true) : a.flags_le c = true := by
  obtain ⟨a1, a0, a2⟩ := a
  obtain ⟨b1, b0, b2⟩ := b
  obtain ⟨c1, c0, c2⟩ := c
  revert hab hbc
  cases a1 <;> cases a0 <;> cases a2 <;> cases b1 <;> cases b0 <;> cases b2 <;>
    cases c1 <;> cases c0 <;> cases c2 <;> simp [ehr_rwset.flags_le]

/-- The flag order on whole conflict-set records is transitive. -/
theorem rwset_flags_le_trans {a b c : rwset_t} (hab : a.flags_le b) (hbc : b.flags_le c) :
    a.flags_le c :=
  ⟨fun r => reg_flags_le_trans _ _ _ (hab.1 r) (hbc.1 r),
   fun r => wire_flags_le_trans _ _ _ (hab.2.1 r) (hbc.2.1 r),
   fun r => ehr_flags_le_trans _ _ _ (hab.2.2 r) (hbc.2.2 r)⟩

/-- For a plain register, `may_write0()` stays false when flags are added. -/
theorem reg_may_write0_mono (a b : reg_rwset) (hab : a.flags_le b = true)
    (h : a.may_write0 = false) : b.may_write0 = false := by
  obtain ⟨a0⟩ := a
  obtain ⟨b0⟩ := b
  revert hab h
  cases a0 <;> cases b0 <;> simp [reg_rwset.flags_le, reg_rwset.may_write0]

/-- For a wire, `may_write0()` stays false when flags are added. -/
theorem wire_may_write0_mono (a b : wire_rwset) (hab : a.flags_le b = true)
    (h : a.may_write0 = false) : b.may_write0 = false := by
  obtain ⟨a1, a0⟩ := a
  obtain ⟨b1, b0⟩ := b
  revert hab h
  cases a1 <;> cases a0 <;> cases b1 <;> cases b0 <;>
    simp [wire_rwset.flags_le, wire_rwset.may_write0]

/-- For an EHR, `may_write0()` stays false when flags are added. -/
theorem ehr_may_write0_mono (a b : ehr_rwset) (hab : a.flags_le b = true)
    (h : a.may_write0 = false) : b.may_write0 = false := by
  obtain ⟨a1, a0, a2⟩ := a
  obtain ⟨b1, b0, b2⟩ := b
  revert hab h
  cases a1 <;> cases a0 <;> cases a2 <;> cases b1 <;> cases b0 <;> cases b2 <;>
    simp [ehr_rwset.flags_le, ehr_rwset.may_write0]

/-- For an EHR, `may_write1()` stays false when flags are added. -/
theorem ehr_may_write1_mono (a b : ehr_rwset) (hab : a.flags_le b = true)
    (h : a.may_write1 = false) : b.may_write1 = false := by
  obtain ⟨a1, a0, a2⟩ := a
  obtain ⟨b1, b0, b2⟩ := b
  revert hab h
  cases a1 <;> cases a0 <;> cases a2 <;> cases b1 <;> cases b0 <;> cases b2 <;>
    simp [ehr_rwset.flags_le, ehr_rwset.may_write1]

/-- The assignment `rwl.w0 = true` of `write0` keeps every flag of a plain register. -/
theorem reg_flags_le_set_w0 (a : reg_rwset) :
    a.flags_le (has_write0.set_w0 a) = true := by
  obtain ⟨a0⟩ := a
  cases a0 <;> simp [reg_rwset.flags_le, has_write0.set_w0]

/-- The assignment `rwl.r1 = true` of `read1` keeps every flag of a wire. -/
theorem wire_flags_le_set_r1 (a : wire_rwset) :
    a.flags_le (has_read1.set_r1 a) = true := by
  obtain ⟨a1, a0⟩ := a
  cases a1 <;> cases a0 <;> simp [wire_rwset.flags_le, has_read1.set_r1]

/-- The assignment `rwl.w0 = true` of `write0` keeps every flag of a wire. -/
theorem wire_flags_le_set_w0 (a : wire_rwset) :
    a.flags_le (has_write0.set_w0 a) = true := by
  obtain ⟨a1, a0⟩ := a
  cases a1 <;> cases a0 <;> simp [wire_rwset.flags_le, has_write0.set_w0]

/-- The assignment `rwl.r1 = true` of `read1` keeps every flag of an EHR. -/
theorem ehr_flags_le_set_r1 (a : ehr_rwset) :
    a.flags_le (has_read1.set_r1 a) = true := by
  obtain ⟨a1, a0, a2⟩ := a
  cases a1 <;> cases a0 <;> cases a2 <;> simp [ehr_rwset.flags_le, has_read1.set_r1]

/-- The assignment `rwl.w0 = true` of `write0` keeps every flag of an EHR. -/
theorem ehr_flags_le_set_w0 (a : ehr_rwset) :
    a.flags_le (has_write0.set_w0 a) = true := by
  obtain ⟨a1, a0, a2⟩ := a
  cases a1 <;> cases a0 <;> cases a2 <;> simp [ehr_rwset.flags_le, has_write0.set_w0]

/-- The assignment `rwl.w1 = true` of `write1` keeps every flag of an EHR. -/
theorem ehr_flags_le_set_w1 (a : ehr_rwset) :
    a.flags_le (has_write1.set_w1 a) = true := by
  obtain ⟨a1, a0, a2⟩ := a
  cases a1 <;> cases a0 <;> cases a2 <;> simp [ehr_rwset.flags_le, has_write1.set_w1]

/-- A read access keeps every flag of the tentative log. -/
theorem read_access_flags_le {T : Type} (p : read_port) (Log log : log_t T) :
    log.rwset.flags_le (read_access p Log log).2.2.rwset := by
  have hrefl := rwset_flags_le_refl log.rwset
  cases p with
  | READ0_reg r => exact hrefl
  | READ0_ehr r => exact hrefl
  | READ1_wire r =>
    refine ⟨hrefl.1, fun r2 => ?_, hrefl.2.2⟩
    by_cases h : r2 = r
    · subst h
      simp only [read_access, read1, Function.update_same]
      exact wire_flags_le_set_r1 _
    · simp only [read_access, Function.update_noteq h]
      exact hrefl.2.1 r2
  | READ1_ehr r =>
    refine ⟨hrefl.1, hrefl.2.1, fun r2 => ?_⟩
    by_cases h : r2 = r
    · subst h
      simp only [read_access, read1, Function.update_same]
      exact ehr_flags_le_set_r1 _
    · simp only [read_access, Function.update_noteq h]
      exact hrefl.2.2 r2

/-- A write access keeps every flag of the tentative log. -/
theorem write_access_flags_le {T : Type} (p : write_port) (val : T) (log : log_t T) :
    log.rwset.flags_le (write_access p val log).2.rwset := by
  have hrefl := rwset_flags_le_refl log.rwset
  cases p with
  | WRITE0_reg r =>
    refine ⟨fun r2 => ?_, hrefl.2.1, hrefl.2.2⟩
    by_cases h : r2 = r
    · subst h
      simp only [write_access, write0, Function.update_same]
      exact reg_flags_le_set_w0 _
    · simp only [write_access, Function.update_noteq h]
      exact hrefl.1 r2
  | WRITE0_wire r =>
    refine ⟨hrefl.1, fun r2 => ?_, hrefl.2.2⟩
    by_cases h : r2 = r
    · subst h
      simp only [write_access, write0, Function.update_same]
      exact wire_flags_le_set_w0 _
    · simp only [write_access, Function.update_noteq h]
      exact hrefl.2.1 r2
  | WRITE0_ehr r =>
    refine ⟨hrefl.1, hrefl.2.1, fun r2 => ?_⟩
    by_cases h : r2 = r
    · subst h
      simp only [write_access, write0, Function.update_same]
      exact ehr_flags_le_set_w0 _
    · simp only [write_access, Function.update_noteq h]
      exact hrefl.2.2 r2
  | WRITE1_ehr r =>
    refine ⟨hrefl.1, hrefl.2.1, fun r2 => ?_⟩
    by_cases h : r2 = r
    · subst h
      simp only [write_access, write1, Function.update_same]
      exact ehr_flags_le_set_w1 _
    · simp only [write_access, Function.update_noteq h]
      exact hrefl.2.2 r2

/-- A sequence of access calls keeps every flag of the tentative log. -/
theorem access_calls_flags_le {T : Type} (Log : log_t T) ( as : List (access T)) :
    ∀ log : log_t T, log.rwset.flags_le (access.calls Log as log).rwset := by
  induction as with
  | nil => intro log; exact rwset_flags_le_refl _
  | cons a as ih =>
    intro log
    have h1 : log.rwset.flags_le (access.call Log log a).rwset := by
      cases a with
      | read p => exact read_access_flags_le p Log log
      | write p val => exact write_access_flags_le p val log
    exact rwset_flags_le_trans h1 (ih (access.call Log log a))

/-- A write that is illegal on a tentative log is illegal on every log with at least its
flags. -/
theorem write_access_illegal_mono {T : Type} (q : write_port) (v v2 : T) (log log2 : log_t T)
    (hle : log.rwset.flags_le log2.rwset) (hbad : (write_access q v log).1 = false) :
    (write_access q v2 log2).1 = false := by
  obtain ⟨h1, h2, h3⟩ := hle
  cases q with
  | WRITE0_reg r => exact reg_may_write0_mono _ _ (h1 r) hbad
  | WRITE0_wire r => exact wire_may_write0_mono _ _ (h2 r) hbad
  | WRITE0_ehr r => exact ehr_may_write0_mono _ _ (h3 r) hbad
  | WRITE1_ehr r => exact ehr_may_write1_mono _ _ (h3 r) hbad

/-- C29. Conflict flags are monotone within a cycle: for every conflict-set kind (reg, wire,
ehr) and every `read0`/`read1`/`write0`/`write1` call, whether it succeeds or fails, every
flag that was set in the tentative conflict set before the call is still set after it, for
one call and for any sequence of calls, while `reset()` clears every flag; hence a `write0`
or `write1` on a register that is illegal stays illegal after any sequence of later
accesses. -/
theorem C29_conflict_flags_monotone {T : Type} (Log log : log_t T) :
    (∀ (rl val : T) (rwl : reg_rwset), rwl.flags_le (write0 rl val rwl).2.2 = true) ∧
    (∀ (rl : T) (rwl rwL : wire_rwset), rwl.flags_le (read1 rl rwl rwL).2.2 = true) ∧
    (∀ (rl val : T) (rwl : wire_rwset), rwl.flags_le (write0 rl val rwl).2.2 = true) ∧
    (∀ (rl : T) (rwl rwL : ehr_rwset), rwl.flags_le (read1 rl rwl rwL).2.2 = true) ∧
    (∀ (rl val : T) (rwl : ehr_rwset), rwl.flags_le (write0 rl val rwl).2.2 = true) ∧
    (∀ (rl val : T) (rwl : ehr_rwset), rwl.flags_le (write1 rl val rwl).2.2 = true) ∧
    (∀ p : read_port, log.rwset.flags_le (read_access p Log log).2.2.rwset) ∧
    (∀ (p : write_port) (val : T), log.rwset.flags_le (write_access p val log).2.rwset) ∧
    (∀ cs : List (access T), log.rwset.flags_le (access.calls Log cs log).rwset) ∧
    (∀ (q : write_port) (v : T), (write_access q v log).1 = false →
      ∀ (cs : List (access T)) (v2 : T),
        (write_access q v2 (access.calls Log cs log)).1 = false) ∧
    (∀ rwl : reg_rwset, rwl.reset = { w0 := false }) ∧
    (∀ rwl : wire_rwset, rwl.reset = { r1 := false, w0 := false }) ∧
    (∀ rwl : ehr_rwset, rwl.reset = { r1 := false, w0 := false, w1 := false }) := by
  refine ⟨fun _ _ rwl => reg_flags_le_set_w0 rwl,
    fun _ rwl _ => wire_flags_le_set_r1 rwl,
    fun _ _ rwl => wire_flags_le_set_w0 rwl,
    fun _ rwl _ => ehr_flags_le_set_r1 rwl,
    fun _ _ rwl => ehr_flags_le_set_w0 rwl,
    fun _ _ rwl => ehr_flags_le_set_w1 rwl,
    fun p => read_access_flags_le p Log log,
    fun p val => write_access_flags_le p val log,
    fun cs => access_calls_flags_le Log cs log,
    fun q v hbad cs v2 =>
      write_access_illegal_mono q v v2 log _ (access_calls_flags_le Log cs log) hbad,
    fun _ => rfl, fun _ => rfl, fun _ => rfl⟩

/-- C29 on an EHR after a `WRITE1`: a second `WRITE1` is illegal, and is still illegal
after a `READ1` and a failing `WRITE0` on the same EHR. -/
theorem C29_conflict_flags_monotone_witness :
    (write_access (.WRITE1_ehr 0) 1 (write_access (.WRITE1_ehr 0) 1 (fresh_log 0)).2).1 = false ∧
    (write_access (.WRITE1_ehr 0) 7
      (access.calls (fresh_log 0) [.read (.READ1_ehr 0), .write (.WRITE0_ehr 0) 3]
        (write_access (.WRITE1_ehr 0) 1 (fresh_log 0)).2)).1 = false :=
  ⟨rfl, (C29_conflict_flags_monotone (fresh_log (0 : Nat))
    (write_access (.WRITE1_ehr 0) 1 (fresh_log 0)).2).2.2.2.2.2.2.2.2.2.1
      (.WRITE1_ehr 0) 1 rfl [.read (.READ1_ehr 0), .write (.WRITE0_ehr 0) 3] 7⟩

end cuttlesim
